import Mathlib

/-!
# feathers-schema: the schema compiler and the sanitize / validate engines

A shallow embedding of `src/schema.js` and of the stock sanitizers `_default`
and `service` of `src/sanitizers/general.js`.

* JavaScript values are the inductive type `Val`; a function value is an
  identifier `Val.func id` whose behaviour is given by an environment `Env`.
* A plain object is the list of its own enumerable entries in enumeration
  order (`for ... in` order); a well-formed object has pairwise distinct keys
  (`Val.wf`).
* A call that may throw returns `Except Err`; a run-time stage (sanitizer or
  validator) may also read and change the outside world, a state of type `σ`
  that is threaded through every call.
* `createProperty` recurses on the definition; the embedding carries a bound
  on the recursion depth and returns `none` when the bound is reached.
-/

set_option autoImplicit false

namespace FeathersSchema

/-! ## Values -/

/-- JavaScript values. `num` holds the integers, `nan` is `NaN`; a function is
named by an identifier. -/
inductive Val where
  | undefined
  | null
  | bool (b : Bool)
  | num (n : Int)
  | nan
  | str (s : String)
  | arr (xs : List Val)
  | obj (kvs : List (String × Val))
  | func (id : Nat)
  deriving Repr, Inhabited

/-- What a thrown exception carries. `definition` is a `new Error(msg)` thrown
by the sources themselves, `typeError` is raised by the language (property access
on `null`, calling a non-function), `thrown` is whatever a factory, a
sanitizer or a validator throws or rejects with. -/
inductive Err where
  | definition (msg : String)
  | typeError (msg : String)
  | thrown (v : Val)
  deriving Repr, Inhabited

/-- Own entries of an object, in enumeration order. -/
abbrev Entries := List (String × Val)

/-- A path: the sequence of keys that leads to a property. -/
abbrev Path := List String

/-- Read of an own property: `obj[key]`, `none` when `key in obj` is false. -/
def lookup (key : String) : Entries → Option Val
  | [] => none
  | (k, v) :: rest => if k = key then some v else lookup key rest

/-- Assignment `obj[key] = v`: an existing key keeps its place in the
enumeration order, a new key is appended. -/
def assign (key : String) (v : Val) : Entries → Entries
  | [] => [(key, v)]
  | (k, w) :: rest => if k = key then (key, v) :: rest else (k, w) :: assign key v rest

/-- The entries of a value that is a mapping; nothing for any other value. -/
def entries : Val → Entries
  | .obj kvs => kvs
  | _ => []

/-- JavaScript truthiness: `!result` is true exactly on the falsy values. -/
def truthy : Val → Bool
  | .undefined => false
  | .null => false
  | .bool b => b
  | .num n => n != 0
  | .nan => false
  | .str s => s != ""
  | .arr _ => true
  | .obj _ => true
  | .func _ => true

/-- The test `is(x, Array)`. -/
def isArray : Val → Bool
  | .arr _ => true
  | _ => false

/-- The test `is(x, Function)`. -/
def isFunction : Val → Bool
  | .func _ => true
  | _ => false

/-- The test `is(x, Boolean)`. -/
def isBoolean : Val → Bool
  | .bool _ => true
  | _ => false

/-- The test `is(x)` of is-explicit with no type: the value is neither
`undefined`, `null` nor `NaN`. -/
def isDefined : Val → Bool
  | .undefined => false
  | .null => false
  | .nan => false
  | _ => true

/-- Modelled from the spec: `isPlainObject` of `helper.js`, which is not part
of the sources at hand; the spec calls its positive case "a plain mapping".
In `Val` the plain mappings are exactly the `obj` values. -/
def isPlainObject : Val → Bool
  | .obj _ => true
  | _ => false

/-- The index a key denotes in a sequence: the canonical decimal numerals. -/
def arrayIndex (key : String) : Option Nat :=
  match key.toNat? with
  | some i => if toString i = key then some i else none
  | none => none

/-- Modelled from the spec: `getIn` of `helper.js` (the spec's `getAt`), which
is not part of the sources at hand: "walks `path` segment by segment through
nested mappings/sequences; returns `undefined` the moment any intermediate
segment is absent, rather than failing. Never throws on missing data." -/
def getIn : Val → Path → Val
  | v, [] => v
  | .obj kvs, k :: ks =>
    match lookup k kvs with
    | some c => getIn c ks
    | none => .undefined
  | .arr xs, k :: ks =>
    match arrayIndex k with
    | some i =>
      match xs.get? i with
      | some c => getIn c ks
      | none => .undefined
    | none => .undefined
  | _, _ :: _ => .undefined

/-- What `setIn` stores in place of `existing` so that `path`, walked from
there, ends at `v`: `v` itself at the end of the path, otherwise a mapping,
the existing one when there is one and a fresh one when there is none. -/
def place : Val → Path → Val → Val
  | _, [], v => v
  | existing, k :: ks, v =>
    .obj (assign k (place ((lookup k (entries existing)).getD .undefined) ks v) (entries existing))

/-- Modelled from the spec: `setIn` of `helper.js` (the spec's `setAt`), which
is not part of the sources at hand: "walks/creates intermediate nested
mappings as needed, assigning `value` at the final segment"; "the core only
ever uses string segments, so a mapping-of-mappings structure suffices". The
JavaScript function updates `container` in place; the embedding returns the
updated container. An empty path addresses nothing and leaves it as it is. -/
def setIn (container : Val) (path : Path) (v : Val) : Val :=
  match path with
  | [] => container
  | _ :: _ => place container path v

/-! ## The environment: what the function values do -/

/-- Behaviour of the function values.

* `factory f thisArg arg` is the compile-time call `stock[key](def[key])` of a
  stock factory `f`, with its `this` binding and its argument.
* `call f args s` is a run-time call `f(...args)`, awaited, in the state `s`
  of the outside world: what it returns or throws, and the state it leaves. -/
structure Env (σ : Type) where
  factory : Nat → Val → Val → Except Err Val
  call : Nat → List Val → σ → Except Err Val × σ

/-- A run-time call `f(...args)` of an arbitrary value, awaited: calling
something that is not a function is a `TypeError`. -/
def invoke {σ : Type} (env : Env σ) (f : Val) (args : List Val) (s : σ) : Except Err Val × σ :=
  match f with
  | .func id => env.call id args s
  | _ => (.error (.typeError "is not a function"), s)

/-- A stock registry (`import * as validates from './validators'`): the
exported factories by name, in enumeration order. -/
abbrev Registry := List (String × Nat)

/-- The registry as the JavaScript object it is (the module namespace). -/
def Registry.toVal (stock : Registry) : Val :=
  .obj (stock.map fun kf => (kf.1, .func kf.2))

/-! ## Definitions (schema.js, lines 23-99) -/

/-- A compiled property: `{ path, validators, sanitizers }`. -/
structure Property where
  path : Path
  validators : List Val
  sanitizers : List Val
  deriving Repr, Inhabited

/-- Source `addCustom(defs, key, arr)`: returns `arr` after the pushes. -/
def addCustom (defs : Entries) (key : String) (arr : List Val) : List Val :=
  match lookup key defs with
  | none => arr
  | some (.arr custom) => arr ++ custom
  | some d => arr ++ [d]

/-- The loop of `addStock` over the keys of `stock` that remain; `thisArg` is
the receiver of the call `stock[key](def[key])`, the whole registry. -/
def addStockLoop {σ : Type} (env : Env σ) (thisArg : Val) (d : Entries) :
    Registry → List Val → Except Err (List Val)
  | [], arr => .ok arr
  | (key, f) :: rest, arr =>
    match lookup key d with
    | some arg =>
      match env.factory f thisArg arg with
      | .ok made => addStockLoop env thisArg d rest (arr ++ [made])
      | .error e => .error e
    | none => addStockLoop env thisArg d rest arr

/-- Source `addStock(def, stock, arr)`: returns `arr` after the pushes, or the
exception of the first factory that throws. -/
def addStock {σ : Type} (env : Env σ) (d : Entries) (stock : Registry) (arr : List Val) :
    Except Err (List Val) :=
  addStockLoop env stock.toVal d stock arr

/-- Lines 66-71: the stock and custom validators of a node. -/
def collectValidators {σ : Type} (env : Env σ) (validates : Registry) (d : Entries) :
    Except Err (List Val) :=
  match addStock env d validates [] with
  | .ok arr => .ok (addCustom d "validate" (addCustom d "validates" arr))
  | .error e => .error e

/-- Lines 73-78: the stock and custom sanitizers of a node. -/
def collectSanitizers {σ : Type} (env : Env σ) (sanitizes : Registry) (d : Entries) :
    Except Err (List Val) :=
  match addStock env d sanitizes [] with
  | .ok arr => .ok (addCustom d "sanitize" (addCustom d "sanitizes" arr))
  | .error e => .error e

/-- The explicit form `{ func, arrayOf }` of a type. -/
def explicitType (func : Val) (arrayOf : Bool) : Val :=
  .obj [("func", func), ("arrayOf", .bool arrayOf)]

/-- Lines 54-60: quick notation is wrapped, plain notation has its `type`
replaced (an assignment to the caller's node; the result is the node after
it). Reading `.type` of `undefined` or `null` is a `TypeError`. -/
def toExplicit (definition : Val) (arrayOf : Bool) : Except Err Val :=
  match definition with
  | .func f => .ok (.obj [("type", explicitType (.func f) arrayOf)])
  | .undefined => .error (.typeError "Cannot read property type of undefined")
  | .null => .error (.typeError "Cannot read property type of null")
  | .obj kvs =>
    match lookup "type" kvs with
    | some (.func f) => .ok (.obj (assign "type" (explicitType (.func f) arrayOf) kvs))
    | _ => .ok (.obj kvs)
  | other => .ok other

/-- Lines 47-52: the `arrayOf` flag and the unwrapped definition. -/
def unwrapArrayOf (definition : Val) : Except Err (Bool × Val) :=
  match definition with
  | .arr [inner] => .ok (true, inner)
  | .arr _ => .error (.definition
      "Malformed definition. Properties defined as an arrayOf should contain a single element.")
  | other => .ok (false, other)

/-- What a compilation step yields: `none` when the depth bound is reached,
otherwise the exception thrown or the records pushed to `schema.properties`,
in order. -/
abbrev Compiled := Option (Except Err (List Property))

/-- A loop `for (const key in definition) createProperty(schema,
definition[key], [...path, key])`, for any `createProperty`. The loop of the
constructor (lines 125-126) passes the bare key, which lines 44-45 turn into
the one-element path: it is this loop at the empty path. -/
def forEachKey (create : Val → Path → Compiled) (path : Path) : Entries → Compiled
  | [] => some (.ok [])
  | (key, child) :: rest =>
    match create child (path ++ [key]) with
    | none => none
    | some (.error e) => some (.error e)
    | some (.ok first) =>
      match forEachKey create path rest with
      | none => none
      | some (.error e) => some (.error e)
      | some (.ok more) => some (.ok (first ++ more))

/-- Source `createProperty(schema, definition, path)`, with the depth bound as
first argument. -/
def createProperty {σ : Type} (env : Env σ) (validates sanitizes : Registry) :
    Nat → Val → Path → Compiled
  | 0, _, _ => none
  | depth + 1, definition, path =>
    match unwrapArrayOf definition with
    | .error e => some (.error e)
    | .ok (arrayOf, definition) =>
      match toExplicit definition arrayOf with
      | .error e => some (.error e)
      | .ok definition =>
        if !isPlainObject definition then
          some (.error (.definition
            "Malformed definition. Check feathers-schema documentation to learn how."))
        else
          match collectValidators env validates (entries definition) with
          | .error e => some (.error e)
          | .ok validators =>
            match collectSanitizers env sanitizes (entries definition) with
            | .error e => some (.error e)
            | .ok sanitizers =>
              let noFuncs := sanitizers.length + validators.length == 0
              let createNested := noFuncs && decide ((entries definition).length > 0)
              if createNested && !arrayOf then
                forEachKey (createProperty env validates sanitizes depth) path
                  (entries definition)
              else if createNested && arrayOf then
                some (.error (.definition "Nesting arrays of properties not yet implemented."))
              else if noFuncs then
                some (.error (.definition
                  "Malformed definition: Definition passed with no properties."))
              else
                some (.ok [{ path := path, validators := validators, sanitizers := sanitizers }])

/-! ## The Schema class (schema.js, lines 105-188) -/

/-- A value held by `this.options`: one the caller gave, or one of the two
arrow functions that `schema.js` itself creates. -/
inductive OptionValue where
  | given (v : Val)
  | constFalse
  | readsOwnOption
  deriving Repr, Inhabited

/-- The object `this.options`, as its entries. -/
abbrev Options := List (String × OptionValue)

/-- Read of an own property of `this.options`. -/
def Options.get (key : String) : Options → Option OptionValue
  | [] => none
  | (k, v) :: rest => if k = key then some v else Options.get key rest

/-- Assignment `options[key] = v`. -/
def Options.set (key : String) (v : OptionValue) : Options → Options
  | [] => [(key, v)]
  | (k, w) :: rest => if k = key then (key, v) :: rest else (k, w) :: Options.set key v rest

/-- Lines 14-17: `{ fillPatchData: false, canSkipValidation: () => false }`. -/
def DEFAULT_OPTIONS : Options :=
  [("fillPatchData", .given (.bool false)), ("canSkipValidation", .constFalse)]

/-- Object spread `{ ...base, ...extra }`. -/
def spread (base : Options) (extra : Entries) : Options :=
  extra.foldl (fun acc kv => Options.set kv.1 (.given kv.2) acc) base

/-- A Schema instance: its `options` and its `properties`. -/
structure Schema where
  options : Options
  properties : List Property
  deriving Repr, Inhabited

/-- The test `is(x, Boolean)` on a value of `this.options`. -/
def OptionValue.isBoolean : OptionValue → Bool
  | .given v => FeathersSchema.isBoolean v
  | _ => false

/-- The test `is(x, Function)` on a value of `this.options`. -/
def OptionValue.isFunction : OptionValue → Bool
  | .given v => FeathersSchema.isFunction v
  | _ => true

/-- Lines 110-119: the options of a new Schema. -/
def Schema.makeOptions (options : Val) : Except Err Options :=
  if isDefined options && !isPlainObject options then
    .error (.definition "options, if supplied, is expected to be a plain object.")
  else
    let merged := spread DEFAULT_OPTIONS (if truthy options then entries options else [])
    let current := (merged.get "canSkipValidation").getD (.given .undefined)
    let merged := if current.isBoolean then merged.set "canSkipValidation" .readsOwnOption
      else merged
    let current := (merged.get "canSkipValidation").getD (.given .undefined)
    if !current.isFunction then
      .error (.definition
        "Schema options.canSkipValidation is expected to be a boolean or a predicate function.")
    else .ok merged

/-- Lines 107-129: `new Schema(properties, options)`, with the depth bound of
`createProperty`. The final `deepFreeze(this)` makes the instance immutable;
the embedding has no operation that changes a Schema. -/
def Schema.new {σ : Type} (env : Env σ) (validates sanitizes : Registry) (depth : Nat)
    (properties options : Val) : Option (Except Err Schema) :=
  match Schema.makeOptions options with
  | .error e => some (.error e)
  | .ok opts =>
    if !isPlainObject properties then
      some (.error (.definition "A model must be created with a model properties object."))
    else
      match forEachKey (createProperty env validates sanitizes depth) [] (entries properties) with
      | none => none
      | some (.error e) => some (.error e)
      | some (.ok props) => some (.ok { options := opts, properties := props })

/-- A call `schema.options.canSkipValidation(params)`: the arrow function of
`DEFAULT_OPTIONS` returns `false`, the arrow function of line 116 returns
`this.options.canSkipValidation` as it is when the call is made, a function
of the caller is run by the environment. -/
def Schema.canSkipValidation {σ : Type} (env : Env σ) (schema : Schema) (params : Val) (s : σ) :
    Except Err OptionValue × σ :=
  match schema.options.get "canSkipValidation" with
  | some .constFalse => (.ok (.given (.bool false)), s)
  | some .readsOwnOption =>
    (.ok ((schema.options.get "canSkipValidation").getD (.given .undefined)), s)
  | some (.given f) =>
    match invoke env f [params] s with
    | (.ok v, s') => (.ok (.given v), s')
    | (.error e, s') => (.error e, s')
  | none => (.error (.typeError "canSkipValidation is not a function"), s)

/-- A parameter default `x = {}`: it applies when the argument is `undefined`. -/
def orEmptyObject : Val → Val
  | .undefined => .obj []
  | v => v

/-- Lines 141-143: `undefined` and the empty string become `null`. -/
def consolidate : Val → Val
  | .undefined => .null
  | .str s => if s = "" then .null else .str s
  | v => v

/-- Lines 145-147: the value run through the sanitizers that remain. -/
def runSanitizers {σ : Type} (env : Env σ) (params : Val) :
    List Val → Val → σ → Except Err Val × σ
  | [], value, s => (.ok value, s)
  | sanitizer :: rest, value, s =>
    match invoke env sanitizer [value, params] s with
    | (.ok value', s') => runSanitizers env params rest value' s'
    | (.error e, s') => (.error e, s')

/-- Lines 137-150: the loop over the properties that remain, `sanitized` being
the object built so far. -/
def sanitizeLoop {σ : Type} (env : Env σ) (data params : Val) :
    List Property → Val → σ → Except Err Val × σ
  | [], sanitized, s => (.ok sanitized, s)
  | p :: rest, sanitized, s =>
    match runSanitizers env params p.sanitizers (consolidate (getIn data p.path)) s with
    | (.ok value, s') => sanitizeLoop env data params rest (setIn sanitized p.path value) s'
    | (.error e, s') => (.error e, s')

/-- Source `Schema.sanitize(data = {}, params = {})`, awaited. -/
def Schema.sanitize {σ : Type} (env : Env σ) (schema : Schema) (data params : Val) (s : σ) :
    Except Err Val × σ :=
  sanitizeLoop env (orEmptyObject data) (orEmptyObject params) schema.properties (.obj []) s

/-- Lines 164-178: the validators of one path that remain, `errors` being the
variable of that name. -/
def runValidators {σ : Type} (env : Env σ) (params : Val) (path : Path) (value : Val) :
    List Val → Val → σ → Except Err Val × σ
  | [], errors, s => (.ok errors, s)
  | validator :: rest, errors, s =>
    match invoke env validator [value, params] s with
    | (.ok result, s') =>
      if !truthy result then runValidators env params path value rest errors s'
      else
        runValidators env params path value rest
          (setIn (if truthy errors then errors else .obj []) path result) s'
    | (.error e, s') => (.error e, s')

/-- Lines 159-179: the loop over the properties that remain. -/
def validateLoop {σ : Type} (env : Env σ) (data params : Val) :
    List Property → Val → σ → Except Err Val × σ
  | [], errors, s => (.ok errors, s)
  | p :: rest, errors, s =>
    match runValidators env params p.path (getIn data p.path) p.validators errors s with
    | (.ok errors', s') => validateLoop env data params rest errors' s'
    | (.error e, s') => (.error e, s')

/-- Source `Schema.validate(data = {}, params = {})`, awaited. -/
def Schema.validate {σ : Type} (env : Env σ) (schema : Schema) (data params : Val) (s : σ) :
    Except Err Val × σ :=
  validateLoop env (orEmptyObject data) (orEmptyObject params) schema.properties .null s

/-! ## The caller's definition after compilation -/

/-- The caller's node after `createProperty(schema, definition, path)` has
returned: line 60 assigns to `definition.type` of a node in plain notation,
and the loop of lines 83-84 visits the children of a group node. Quick
notation (line 56) builds a new object and leaves the caller's value as it
is. The depth bound is the one of `createProperty`. -/
def nodeAfter {σ : Type} (env : Env σ) (validates sanitizes : Registry) : Nat → Val → Val
  | 0, definition => definition
  | depth + 1, definition =>
    match unwrapArrayOf definition with
    | .error _ => definition
    | .ok (arrayOf, inner) =>
      let innerAfter :=
        match inner, toExplicit inner arrayOf with
        | .obj _, .ok (.obj explicit) =>
          match collectValidators env validates explicit,
            collectSanitizers env sanitizes explicit with
          | .ok [], .ok [] =>
            if !arrayOf && decide (explicit.length > 0) then
              .obj (explicit.map fun kc => (kc.1, nodeAfter env validates sanitizes depth kc.2))
            else .obj explicit
          | _, _ => .obj explicit
        | _, _ => inner
      if arrayOf then .arr [innerAfter] else innerAfter

/-- The caller's definition object after `new Schema(properties, options)` has
returned: every value of it after the visit of `createProperty`. -/
def Schema.definitionAfter {σ : Type} (env : Env σ) (validates sanitizes : Registry)
    (depth : Nat) (properties : Val) : Val :=
  match properties with
  | .obj kvs => .obj (kvs.map fun kc => (kc.1, nodeAfter env validates sanitizes depth kc.2))
  | other => other

/-! ## Stock sanitizers (sanitizers/general.js) -/

/-- What `general.js` imports and is not part of the sources at hand: `toArray`
of `helper.js`, the type test `is(value, type)` of is-explicit, and `name` of
`types.js`. They are parameters of the embedding. -/
structure Helpers where
  toArray : Val → Val
  isOfType : Val → Val → Bool
  name : Val → String

/-- The first element `value[0]` of an array, `undefined` for anything else. -/
def firstElement : Val → Val
  | .arr (x :: _) => x
  | _ => .undefined

/-- Lines 18-29 of `_default`: from the configured `value` (what `parseConfig`
returned) to the value that `getDefault` closes over, or the exception
thrown. `thisType` and `thisArray` are `this.type` and `this.array`. -/
def _default (h : Helpers) (thisType thisArray : Val) (value : Val) : Except Err Val :=
  let value := if truthy thisArray then h.toArray value else value
  let value := if truthy thisArray && isFunction (firstElement value) then firstElement value
    else value
  if truthy thisType && !truthy thisArray && !isFunction value && !h.isOfType value thisType then
    .error (.definition ("default value must be a " ++ h.name thisType))
  else if truthy thisType && truthy thisArray && isArray value
      && !(match value with
        | .arr xs => xs.all fun v => h.isOfType v thisType
        | _ => true) then
    .error (.definition ("default value must be an Array of " ++ h.name thisType))
  else .ok value

/-- Lines 31-33: `getDefault(params)` for the value closed over: a function is
called with `params`, any other value is returned. -/
def getDefault {σ : Type} (env : Env σ) (value params : Val) (s : σ) : Except Err Val × σ :=
  match value with
  | .func f => env.call f [params] s
  | v => (.ok v, s)

/-- Lines 35-37: the run-time function that `_default` returns, for the value
closed over. -/
def defaultSanitizer {σ : Type} (env : Env σ) (value : Val) (input params : Val) (s : σ) :
    Except Err Val × σ :=
  if !isDefined input || (isArray input && (match input with
      | .arr xs => xs.length == 0
      | _ => false)) then
    getDefault env value params s
  else (.ok input, s)

section Service

variable {ι : Type} [DecidableEq ι]

/-- The built-in `arr.indexOf(id)`: the first index that holds `id`, `-1` when
there is none. -/
def arrayIndexOf (id : ι) : List ι → Int
  | [] => -1
  | x :: rest =>
    if x = id then 0
    else if arrayIndexOf id rest < 0 then -1 else arrayIndexOf id rest + 1

/-- Lines 54-58: the first index `i` with `arr[i].equals(id)`, `-1` when there
is none. -/
def equalsIndexOf (equals : ι → ι → Bool) (id : ι) : List ι → Int
  | [] => -1
  | x :: rest =>
    if equals x id then 0
    else if equalsIndexOf equals id rest < 0 then -1 else equalsIndexOf equals id rest + 1

/-- Lines 49-59: `indexOf(id, arr)` of the service sanitizer. `equals` is
`this.type.prototype.equals`, `none` when the type has no such method. -/
def indexOf (equals : Option (ι → ι → Bool)) (id : ι) (arr : List ι) : Int :=
  match equals with
  | none => arrayIndexOf id arr
  | some eq => equalsIndexOf eq id arr

/-- Lines 82-92: the loop over the ids that remain; `all` and `output` are the
arrays of these names. -/
def serviceLoop (equals : Option (ι → ι → Bool)) : List ι → List ι → List ι → List ι
  | [], _, output => output
  | id :: rest, all, output =>
    if indexOf equals id all < 0 then serviceLoop equals rest all output
    else serviceLoop equals rest (all.eraseIdx (indexOf equals id all).toNat) (output ++ [id])

/-- Lines 78-92: the id list that the service sanitizer builds from the ids of
the input and the documents that the service returned; `serviceId` reads
`doc[service.id]`. -/
def serviceOutput {δ : Type} (equals : Option (ι → ι → Bool)) (serviceId : δ → ι)
    (ids : List ι) (docs : List δ) : List ι :=
  serviceLoop equals ids (docs.map serviceId) []

/-- The first occurrence of every element of the list, in the order of the
list. -/
def firstOccurrences : List ι → List ι
  | [] => []
  | x :: rest => x :: (firstOccurrences rest).filter fun y => decide (y ≠ x)

end Service

/-! ## Vocabulary of the statements -/

/-- The keys of a stock registry. -/
def Registry.keys (stock : Registry) : List String := stock.map Prod.fst

/-- A definition node from which the compiler reaches a sequence whose length
is not one: the node is such a sequence, or it is a plain mapping from which
no function is collected (a group of nested properties) and one of its
children is such a node. `explicit` is the node after lines 54-60. -/
inductive ReachesMalformedArrayOf {σ : Type} (env : Env σ) (validates sanitizes : Registry) :
    Val → Prop
  | atNode (xs : List Val) (hlen : xs.length ≠ 1) :
      ReachesMalformedArrayOf env validates sanitizes (.arr xs)
  | underGroup (node explicit : Entries) (key : String) (child : Val)
      (hexplicit : toExplicit (.obj node) false = .ok (.obj explicit))
      (hvalidators : collectValidators env validates explicit = .ok [])
      (hsanitizers : collectSanitizers env sanitizes explicit = .ok [])
      (hchild : (key, child) ∈ explicit)
      (hbelow : ReachesMalformedArrayOf env validates sanitizes child) :
      ReachesMalformedArrayOf env validates sanitizes (.obj node)

/-- Neither path is a prefix of the other: the two paths part at some key. -/
def Incomparable (p q : Path) : Prop := ¬ p <+: q ∧ ¬ q <+: p

mutual
/-- A well-formed value: within every object the keys are pairwise distinct,
as they are in every JavaScript object. -/
def Val.wf : Val → Bool
  | .arr xs => wfAll xs
  | .obj kvs => wfEntries kvs
  | _ => true
/-- Every value of the list is well-formed. -/
def wfAll : List Val → Bool
  | [] => true
  | x :: xs => x.wf && wfAll xs
/-- The entries have pairwise distinct keys and well-formed values. -/
def wfEntries : List (String × Val) → Bool
  | [] => true
  | (k, v) :: rest => (lookup k rest).isNone && v.wf && wfEntries rest
end

/-- The container has an own entry at `path`, walking through mappings only;
the empty path is always there. -/
def hasPath : Val → Path → Bool
  | _, [] => true
  | .obj kvs, k :: ks =>
    match lookup k kvs with
    | some c => hasPath c ks
    | none => false
  | _, _ :: _ => false

/-- No sequence is met on the walk along `path` before the path ends. -/
def noArrayAlong : Val → Path → Bool
  | _, [] => true
  | .arr _, _ :: _ => false
  | .obj kvs, k :: ks =>
    match lookup k kvs with
    | some c => noArrayAlong c ks
    | none => true
  | _, _ :: _ => true

/-- A sequence of calls `setIn(container, path, value)`, in order. -/
def applyWrites (writes : List (Path × Val)) (container : Val) : Val :=
  writes.foldl (fun o w => setIn o w.1 w.2) container

/-- One more stage after the stages `before`: the stage is called with the
result of `before` and with the same `params`; an exception of `before` is
passed on. -/
def andThen {σ : Type} (env : Env σ) (params : Val) (before : Val → σ → Except Err Val × σ)
    (stage : Val) : Val → σ → Except Err Val × σ :=
  fun value s =>
    match before value s with
    | (.ok value', s') => invoke env stage [value', params] s'
    | (.error e, s') => (.error e, s')

/-- The left-to-right composition of a chain of stages, starting from the
stage that returns its argument. -/
def pipeline {σ : Type} (env : Env σ) (params : Val) (chain : List Val) :
    Val → σ → Except Err Val × σ :=
  chain.foldl (andThen env params) (fun value s => (.ok value, s))

/-- The result of the last validator of `chain`, run in order from the state
`s` on `value`, that returned a non-falsy result; `none` when every result is
falsy or a validator throws. -/
def lastFailing {σ : Type} (env : Env σ) (params value : Val) : List Val → σ → Option Val
  | [], _ => none
  | validator :: rest, s =>
    match invoke env validator [value, params] s with
    | (.ok result, s') =>
      match lastFailing env params value rest s' with
      | some later => some later
      | none => if truthy result then some result else none
    | (.error _, _) => none

/-- The entries that `addCustom` pushes for `key`: the elements of an array,
any other value as a single entry, nothing when the key is absent. -/
def customEntries (node : Entries) (key : String) : List Val :=
  match lookup key node with
  | none => []
  | some (.arr custom) => custom
  | some d => [d]

/-- The factories of a registry whose key is present in the node, each with
the value the node has for that key, in the order of the registry. -/
def stockArguments (stock : Registry) (node : Entries) : List (Nat × Val) :=
  stock.filterMap fun kf => (lookup kf.1 node).map fun arg => (kf.2, arg)

/-- The results of a list of factory calls, all with the receiver `thisArg`, in
order; the exception of the first call that throws. -/
def makeAll {σ : Type} (env : Env σ) (thisArg : Val) : List (Nat × Val) → Except Err (List Val)
  | [] => .ok []
  | (f, arg) :: rest =>
    match env.factory f thisArg arg with
    | .ok made =>
      match makeAll env thisArg rest with
      | .ok more => .ok (made :: more)
      | .error e => .error e
    | .error e => .error e

/-- A run-time call as it is recorded: the function and its arguments. -/
abbrev CallRecord := Nat × List Val

/-- The environment that, besides behaving like `env`, appends every run-time
call it receives to a list kept next to the outside world. -/
def Env.traced {σ : Type} (env : Env σ) : Env (σ × List CallRecord) where
  factory := env.factory
  call := fun f args st =>
    ((env.call f args st.1).1, ((env.call f args st.1).2, st.2 ++ [(f, args)]))

/-- The calls of validators that a property list prescribes for `data` and
`params`: property by property, within a property validator by validator,
each with the value read at the path and with `params`. -/
def validatorCalls (props : List Property) (data params : Val) : List (Val × List Val) :=
  props.flatMap fun r => r.validators.map fun f => (f, [getIn data r.path, params])

/-- A definition node from which the compiler reaches an array-wrapped node
whose unwrapped definition yields no validator and no sanitizer: the node is
such an array, or it is a group of nested properties and one of its children
is such a node. -/
inductive ReachesEmptyArrayOf {σ : Type} (env : Env σ) (validates sanitizes : Registry) :
    Val → Prop
  | atNode (inner : Val) (explicit : Entries)
      (hexplicit : toExplicit inner true = .ok (.obj explicit))
      (hvalidators : collectValidators env validates explicit = .ok [])
      (hsanitizers : collectSanitizers env sanitizes explicit = .ok []) :
      ReachesEmptyArrayOf env validates sanitizes (.arr [inner])
  | underGroup (node explicit : Entries) (key : String) (child : Val)
      (hexplicit : toExplicit (.obj node) false = .ok (.obj explicit))
      (hvalidators : collectValidators env validates explicit = .ok [])
      (hsanitizers : collectSanitizers env sanitizes explicit = .ok [])
      (hchild : (key, child) ∈ explicit)
      (hbelow : ReachesEmptyArrayOf env validates sanitizes child) :
      ReachesEmptyArrayOf env validates sanitizes (.obj node)

/-! ## Example environments -/

namespace Demo

/-- The type function `String`. -/
def StringT : Val := .func 100

/-- The type function `Number`. -/
def NumberT : Val := .func 101

/-- A sanitizer that caps a number at ten. -/
def atMostTen : Val → Val
  | .num n => .num (min n 10)
  | v => v

/-- A sanitizer that supplies the default `20` for `null`. -/
def orTwenty : Val → Val
  | .null => .num 20
  | v => v

/-- A validator that fails on `undefined`. -/
def required : Val → Val
  | .undefined => .str "required"
  | _ => .bool false

/-- An environment without outside world. Every factory returns the function
of its own number. Function 1 is `atMostTen`, function 2 is `orTwenty`,
function 3 is `required`, function 5 always fails with `"invalid"`, every
other function returns `null`. -/
def env : Env Unit where
  factory := fun f _ _ => .ok (.func f)
  call := fun f args s =>
    match args with
    | [value, _] =>
      if f = 1 then (.ok (atMostTen value), s)
      else if f = 2 then (.ok (orTwenty value), s)
      else if f = 3 then (.ok (required value), s)
      else if f = 5 then (.ok (.str "invalid"), s)
      else (.ok .null, s)
    | _ => (.ok .undefined, s)

/-- An environment whose factories return a record of the call they received:
the factory, its receiver and its argument. -/
def recording : Env Unit where
  factory := fun f thisArg arg => .ok (.arr [.num f, thisArg, arg])
  call := fun _ _ s => (.ok .null, s)

/-- An environment whose outside world is the number of run-time calls made so
far. Function 9 throws `"fault"`, every other function returns its first
argument. -/
def counting : Env Nat where
  factory := fun f _ _ => .ok (.func f)
  call := fun f args n =>
    if f = 9 then (.error (.thrown (.str "fault")), n + 1)
    else (.ok (args.headD .undefined), n + 1)

/-- Helpers for the examples: `toArray` wraps a value that is not an array,
every value passes the type test, every type is called `"type"`. -/
def helpers : Helpers where
  toArray := fun v =>
    match v with
    | .arr xs => .arr xs
    | other => .arr [other]
  isOfType := fun _ _ => true
  name := fun _ => "type"

end Demo

/-! # Theorems -/

section
variable {σ : Type}

/-! ## The compiler -/

theorem createProperty_succ (env : Env σ) (validates sanitizes : Registry) (depth : Nat)
    (definition : Val) (path : Path) :
    createProperty env validates sanitizes (depth + 1) definition path =
    match unwrapArrayOf definition with
    | .error e => some (.error e)
    | .ok (arrayOf, definition) =>
      match toExplicit definition arrayOf with
      | .error e => some (.error e)
      | .ok definition =>
        if !isPlainObject definition then
          some (.error (.definition
            "Malformed definition. Check feathers-schema documentation to learn how."))
        else
          match collectValidators env validates (entries definition) with
          | .error e => some (.error e)
          | .ok validators =>
            match collectSanitizers env sanitizes (entries definition) with
            | .error e => some (.error e)
            | .ok sanitizers =>
              let noFuncs := sanitizers.length + validators.length == 0
              let createNested := noFuncs && decide ((entries definition).length > 0)
              if createNested && !arrayOf then
                forEachKey (createProperty env validates sanitizes depth) path
                  (entries definition)
              else if createNested && arrayOf then
                some (.error (.definition "Nesting arrays of properties not yet implemented."))
              else if noFuncs then
                some (.error (.definition
                  "Malformed definition: Definition passed with no properties."))
              else
                some (.ok [{ path := path, validators := validators, sanitizers := sanitizers }]) := rfl

theorem createProperty_terminal (env : Env σ) (validates sanitizes : Registry) (depth : Nat)
    (definition inner : Val) (arrayOf : Bool) (kvs : Entries) (vs ss : List Val) (path : Path)
    (hu : unwrapArrayOf definition = .ok (arrayOf, inner))
    (he : toExplicit inner arrayOf = .ok (.obj kvs))
    (hv : collectValidators env validates kvs = .ok vs)
    (hs : collectSanitizers env sanitizes kvs = .ok ss)
    (hne : ss.length + vs.length ≠ 0) :
    createProperty env validates sanitizes (depth + 1) definition path
      = some (.ok [{ path := path, validators := vs, sanitizers := ss }]) := by
  rw [createProperty_succ]
  simp [hu, he, isPlainObject, entries, hv, hs, hne]

theorem createProperty_group (env : Env σ) (validates sanitizes : Registry) (depth : Nat)
    (definition : Val) (kvs : Entries) (path : Path)
    (he : toExplicit definition false = .ok (.obj kvs))
    (hna : isArray definition = false)
    (hv : collectValidators env validates kvs = .ok [])
    (hs : collectSanitizers env sanitizes kvs = .ok [])
    (hne : kvs ≠ []) :
    createProperty env validates sanitizes (depth + 1) definition path
      = forEachKey (createProperty env validates sanitizes depth) path kvs := by
  have hu : unwrapArrayOf definition = .ok (false, definition) := by
    cases definition <;> simp_all [unwrapArrayOf, isArray]
  rw [createProperty_succ]
  have : 0 < kvs.length := List.length_pos.mpr hne
  simp [hu, he, isPlainObject, entries, hv, hs, this]

theorem createProperty_malformed_arrayOf (env : Env σ) (validates sanitizes : Registry)
    (depth : Nat) (xs : List Val) (path : Path) (hlen : xs.length ≠ 1) :
    createProperty env validates sanitizes (depth + 1) (.arr xs) path
      = some (.error (.definition
      "Malformed definition. Properties defined as an arrayOf should contain a single element.")) := by
  rw [createProperty_succ]
  match xs, hlen with
  | [], _ => rfl
  | [_], h => simp at h
  | _ :: _ :: _, _ => rfl

theorem forEachKey_ok_child (create : Val → Path → Compiled) (path : Path) (kvs : Entries)
    (ps : List Property) (h : forEachKey create path kvs = some (.ok ps))
    (key : String) (child : Val) (hmem : (key, child) ∈ kvs) :
    ∃ qs, create child (path ++ [key]) = some (.ok qs) := by
  induction kvs generalizing ps with
  | nil => simp at hmem
  | cons kv rest ih =>
    obtain ⟨k, c⟩ := kv
    simp only [forEachKey] at h
    cases hc : create c (path ++ [k]) with
    | none => simp [hc] at h
    | some r =>
      cases r with
      | error e => simp [hc] at h
      | ok first =>
        simp only [hc] at h
        cases hr : forEachKey create path rest with
        | none => simp [hr] at h
        | some r' =>
          cases r' with
          | error e => simp [hr] at h
          | ok more =>
            rcases List.mem_cons.mp hmem with heq | hin
            · cases heq
              exact ⟨first, hc⟩
            · exact ih more hr hin

theorem forEachKey_ne_none (create : Val → Path → Compiled) (path : Path) (kvs : Entries)
    (h : ∀ kv ∈ kvs, create kv.2 (path ++ [kv.1]) ≠ none) :
    forEachKey create path kvs ≠ none := by
  induction kvs with
  | nil => simp [forEachKey]
  | cons kv rest ih =>
    obtain ⟨k, c⟩ := kv
    have hc := h (k, c) (List.mem_cons_self _ _)
    have hr := ih (fun kv hkv => h kv (List.mem_cons_of_mem _ hkv))
    simp only [forEachKey]
    cases hc' : create c (path ++ [k]) with
    | none => exact absurd hc' hc
    | some r =>
      cases r with
      | error e => simp
      | ok first =>
        cases hr' : forEachKey create path rest with
        | none => exact absurd hr' hr
        | some r' => cases r' <;> simp

theorem lookup_assign_self (k : String) (v : Val) (kvs : Entries) :
    lookup k (assign k v kvs) = some v := by
  induction kvs with
  | nil => simp [assign, lookup]
  | cons kv rest ih =>
    obtain ⟨k0, w⟩ := kv
    by_cases h : k0 = k
    · simp [assign, lookup, h]
    · simp [assign, lookup, h, ih]

theorem lookup_assign_ne (k k' : String) (v : Val) (kvs : Entries) (hne : k' ≠ k) :
    lookup k' (assign k v kvs) = lookup k' kvs := by
  induction kvs with
  | nil => simp [assign, lookup, Ne.symm hne]
  | cons kv rest ih =>
    obtain ⟨k0, w⟩ := kv
    by_cases h : k0 = k
    · subst h
      simp [assign, lookup, Ne.symm hne]
    · by_cases h' : k0 = k'
      · subst h'
        simp [assign, lookup, h]
      · simp [assign, lookup, h, h', ih]

theorem toExplicit_obj_cases (d : Val) (arrayOf : Bool) (kvs : Entries)
    (h : toExplicit d arrayOf = .ok (.obj kvs)) :
    d = .obj kvs ∨ ∃ x, lookup "type" kvs = some x := by
  cases d with
  | func f =>
    right
    simp only [toExplicit, Except.ok.injEq, Val.obj.injEq] at h
    subst h
    exact ⟨_, rfl⟩
  | obj node =>
    simp only [toExplicit] at h
    split at h
    · right
      simp only [Except.ok.injEq, Val.obj.injEq] at h
      subst h
      exact ⟨_, lookup_assign_self _ _ _⟩
    · left
      simp only [Except.ok.injEq, Val.obj.injEq] at h
      subst h
      rfl
  | undefined => simp [toExplicit] at h
  | null => simp [toExplicit] at h
  | bool b => simp [toExplicit] at h
  | num n => simp [toExplicit] at h
  | nan => simp [toExplicit] at h
  | str s => simp [toExplicit] at h
  | arr xs => simp [toExplicit] at h

theorem unwrapArrayOf_false (d inner : Val) (h : unwrapArrayOf d = .ok (false, inner)) :
    inner = d := by
  unfold unwrapArrayOf at h
  split at h
  · simp at h
  · simp at h
  · simp at h
    exact h.symm

theorem sizeOf_child_lt (kvs : Entries) (key : String) (child : Val) (h : (key, child) ∈ kvs) :
    sizeOf child < sizeOf (Val.obj kvs) := by
  have h1 := List.sizeOf_lt_of_mem h
  simp only [Val.obj.sizeOf_spec, Prod.mk.sizeOf_spec] at h1 ⊢
  omega

theorem addStockLoop_length (env : Env σ) (thisArg : Val) (d : Entries) (stock : Registry)
    (arr out : List Val) (h : addStockLoop env thisArg d stock arr = .ok out) :
    arr.length ≤ out.length := by
  induction stock generalizing arr with
  | nil => simp [addStockLoop] at h; subst h; exact le_rfl
  | cons kf rest ih =>
    obtain ⟨key, f⟩ := kf
    simp only [addStockLoop] at h
    split at h
    · split at h
      · have := ih _ h
        simp at this; omega
      · cases h
    · exact ih _ h

theorem addStockLoop_pushes (env : Env σ) (thisArg : Val) (d : Entries) (stock : Registry)
    (arr out : List Val) (key : String) (arg : Val)
    (hk : key ∈ stock.keys) (hd : lookup key d = some arg)
    (h : addStockLoop env thisArg d stock arr = .ok out) :
    arr.length < out.length := by
  induction stock generalizing arr with
  | nil => simp [Registry.keys] at hk
  | cons kf rest ih =>
    obtain ⟨k, f⟩ := kf
    simp only [addStockLoop] at h
    by_cases hkk : k = key
    · subst hkk
      simp only [hd] at h
      split at h
      · have := addStockLoop_length env thisArg d rest _ out h
        simp at this; omega
      · cases h
    · have hk' : key ∈ Registry.keys rest := by
        simp [Registry.keys] at hk ⊢
        rcases hk with hk | hk
        · exact absurd hk.symm hkk
        · exact hk
      split at h
      · split at h
        · have := ih _ hk' h
          simp at this; omega
        · cases h
      · exact ih _ hk' h

theorem addCustom_length (d : Entries) (key : String) (arr : List Val) :
    arr.length ≤ (addCustom d key arr).length := by
  unfold addCustom
  split <;> simp

theorem collectValidators_pushes (env : Env σ) (validates : Registry) (d : Entries) (vs : List Val)
    (key : String) (arg : Val) (hk : key ∈ validates.keys) (hd : lookup key d = some arg)
    (h : collectValidators env validates d = .ok vs) : 0 < vs.length := by
  unfold collectValidators at h
  split at h
  · rename_i arr harr
    have h1 := addStockLoop_pushes env _ d validates [] arr key arg hk hd harr
    have h2 := addCustom_length d "validates" arr
    have h3 := addCustom_length d "validate" (addCustom d "validates" arr)
    cases h
    simp at h1; omega
  · cases h

theorem collectSanitizers_pushes (env : Env σ) (sanitizes : Registry) (d : Entries) (ss : List Val)
    (key : String) (arg : Val) (hk : key ∈ sanitizes.keys) (hd : lookup key d = some arg)
    (h : collectSanitizers env sanitizes d = .ok ss) : 0 < ss.length := by
  unfold collectSanitizers at h
  split at h
  · rename_i arr harr
    have h1 := addStockLoop_pushes env _ d sanitizes [] arr key arg hk hd harr
    have h2 := addCustom_length d "sanitizes" arr
    have h3 := addCustom_length d "sanitize" (addCustom d "sanitizes" arr)
    cases h
    simp at h1; omega
  · cases h

theorem reaches_not_compiled (env : Env σ) (validates sanitizes : Registry) (d : Val)
    (hbad : ReachesMalformedArrayOf env validates sanitizes d) :
    ∀ depth path ps, createProperty env validates sanitizes depth d path ≠ some (.ok ps) := by
  induction hbad with
  | atNode xs hlen =>
    intro depth path ps
    cases depth with
    | zero => simp [createProperty]
    | succ depth => rw [createProperty_malformed_arrayOf env validates sanitizes depth xs path hlen]; simp
  | underGroup node explicit key child hexplicit hv hs hchild _ ih =>
    intro depth path ps
    cases depth with
    | zero => simp [createProperty]
    | succ depth =>
      have hne : explicit ≠ [] := List.ne_nil_of_mem hchild
      rw [createProperty_group env validates sanitizes depth (.obj node) explicit path hexplicit rfl
        hv hs hne]
      intro h
      obtain ⟨qs, hq⟩ := forEachKey_ok_child _ path explicit ps h key child hchild
      exact ih depth _ qs hq

theorem group_has_no_type (env : Env σ) (validates sanitizes : Registry)
    (htype : "type" ∈ validates.keys ∨ "type" ∈ sanitizes.keys) (kvs : Entries)
    (vs ss : List Val)
    (hv : collectValidators env validates kvs = .ok vs)
    (hs : collectSanitizers env sanitizes kvs = .ok ss)
    (hnone : ss.length + vs.length = 0) : lookup "type" kvs = none := by
  cases hl : lookup "type" kvs with
  | none => rfl
  | some x =>
    rcases htype with h | h
    · have := collectValidators_pushes env validates kvs vs "type" x h hl hv
      omega
    · have := collectSanitizers_pushes env sanitizes kvs ss "type" x h hl hs
      omega

/-- With `type` among the stock keys the recursion of `createProperty` ends: a
depth bound above the size of the definition is never reached. -/
theorem createProperty_terminates (env : Env σ) (validates sanitizes : Registry)
    (htype : "type" ∈ validates.keys ∨ "type" ∈ sanitizes.keys) :
    ∀ (depth : Nat) (definition : Val) (path : Path), sizeOf definition < depth →
      createProperty env validates sanitizes depth definition path ≠ none := by
  intro depth
  induction depth with
  | zero => intro d path h; omega
  | succ n ih =>
    intro d path hsize
    rw [createProperty_succ]
    cases hu : unwrapArrayOf d with
    | error e => simp
    | ok r =>
      obtain ⟨arrayOf, inner⟩ := r
      simp only
      cases he : toExplicit inner arrayOf with
      | error e => simp
      | ok explicit =>
        simp only
        cases explicit with
        | obj kvs =>
          simp only [isPlainObject, entries, Bool.not_true, Bool.false_eq_true, if_false]
          cases hv : collectValidators env validates kvs with
          | error e => simp
          | ok vs =>
            cases hs : collectSanitizers env sanitizes kvs with
            | error e => simp
            | ok ss =>
              simp only
              by_cases hnone : ss.length + vs.length = 0
              · cases arrayOf with
                | true => simp [hnone]; split <;> simp
                | false =>
                  have hd : inner = d := unwrapArrayOf_false d inner hu
                  subst hd
                  have hty := group_has_no_type env validates sanitizes htype kvs vs ss hv hs hnone
                  have hobj : inner = .obj kvs := by
                    rcases toExplicit_obj_cases inner false kvs he with h | ⟨x, hx⟩
                    · exact h
                    · rw [hty] at hx; cases hx
                  subst hobj
                  simp only [hnone, beq_self_eq_true, Bool.true_and, Bool.not_false, Bool.and_true,
                    Bool.and_false, Bool.false_eq_true, if_false]
                  split
                  · apply forEachKey_ne_none
                    intro kv hkv
                    apply ih
                    have := sizeOf_child_lt kvs kv.1 kv.2 hkv
                    omega
                  · simp
              · simp [hnone]
        | undefined => simp [isPlainObject]
        | null => simp [isPlainObject]
        | bool b => simp [isPlainObject]
        | num n => simp [isPlainObject]
        | nan => simp [isPlainObject]
        | str s => simp [isPlainObject]
        | arr xs => simp [isPlainObject]
        | func f => simp [isPlainObject]

theorem Schema.new_ok_iff (env : Env σ) (validates sanitizes : Registry) (depth : Nat)
    (properties options : Val) (schema : Schema)
    (h : Schema.new env validates sanitizes depth properties options = some (.ok schema)) :
    ∃ kvs, properties = .obj kvs ∧ Schema.makeOptions options = .ok schema.options ∧
      forEachKey (createProperty env validates sanitizes depth) [] kvs
        = some (.ok schema.properties) := by
  unfold Schema.new at h
  cases ho : Schema.makeOptions options with
  | error e => simp [ho] at h
  | ok opts =>
    simp only [ho] at h
    cases properties with
    | obj kvs =>
      simp only [isPlainObject, entries, Bool.not_true, Bool.false_eq_true, if_false] at h
      cases hf : forEachKey (createProperty env validates sanitizes depth) [] kvs with
      | none => simp [hf] at h
      | some r =>
        cases r with
        | error e => simp [hf] at h
        | ok props =>
          simp only [hf, Option.some.injEq, Except.ok.injEq] at h
          subst h
          exact ⟨kvs, rfl, rfl, hf⟩
    | undefined => simp [isPlainObject] at h
    | null => simp [isPlainObject] at h
    | bool b => simp [isPlainObject] at h
    | num n => simp [isPlainObject] at h
    | nan => simp [isPlainObject] at h
    | str s => simp [isPlainObject] at h
    | arr xs => simp [isPlainObject] at h
    | func f => simp [isPlainObject] at h

theorem Schema.new_ne_none (env : Env σ) (validates sanitizes : Registry)
    (htype : "type" ∈ validates.keys ∨ "type" ∈ sanitizes.keys) (depth : Nat)
    (properties options : Val) (hsize : sizeOf properties ≤ depth) :
    Schema.new env validates sanitizes depth properties options ≠ none := by
  unfold Schema.new
  cases ho : Schema.makeOptions options with
  | error e => simp
  | ok opts =>
    simp only
    split
    · simp
    · have hne : forEachKey (createProperty env validates sanitizes depth) [] (entries properties)
          ≠ none := by
        apply forEachKey_ne_none
        intro kv hkv
        apply createProperty_terminates env validates sanitizes htype
        cases properties with
        | obj kvs =>
          have := sizeOf_child_lt kvs kv.1 kv.2 hkv
          omega
        | _ => simp [entries] at hkv
      cases hf : forEachKey (createProperty env validates sanitizes depth) [] (entries properties) with
      | none => exact absurd hf hne
      | some r => cases r <;> simp

theorem forEachKey_ok_iff (create : Val → Path → Compiled) (path : Path) (kvs : Entries)
    (ps : List Property) :
    forEachKey create path kvs = some (.ok ps) ↔
      ∃ parts : List (List Property),
        List.Forall₂ (fun kv part => create kv.2 (path ++ [kv.1]) = some (.ok part)) kvs parts
          ∧ ps = parts.flatten := by
  induction kvs generalizing ps with
  | nil =>
    simp only [forEachKey, Option.some.injEq, Except.ok.injEq]
    constructor
    · intro h; exact ⟨[], List.Forall₂.nil, by simp [← h]⟩
    · rintro ⟨parts, hf, rfl⟩
      cases hf
      simp
  | cons kv rest ih =>
    obtain ⟨k, c⟩ := kv
    simp only [forEachKey]
    constructor
    · intro h
      cases hc : create c (path ++ [k]) with
      | none => simp [hc] at h
      | some r =>
        cases r with
        | error e => simp [hc] at h
        | ok first =>
          simp only [hc] at h
          cases hr : forEachKey create path rest with
          | none => simp [hr] at h
          | some r' =>
            cases r' with
            | error e => simp [hr] at h
            | ok more =>
              simp only [hr, Option.some.injEq, Except.ok.injEq] at h
              obtain ⟨parts, hf, hj⟩ := (ih more).mp hr
              exact ⟨first :: parts, List.Forall₂.cons hc hf, by simp [← h, hj]⟩
    · rintro ⟨parts, hf, rfl⟩
      cases hf with
      | cons hhead htail =>
        rename_i part parts'
        have hrest := (ih parts'.flatten).mpr ⟨parts', htail, rfl⟩
        simp only at hhead
        simp [hhead, hrest]

theorem toExplicit_plain (node : Entries) (arrayOf : Bool)
    (hplain : ∀ f, lookup "type" node ≠ some (.func f)) :
    toExplicit (.obj node) arrayOf = .ok (.obj node) := by
  simp only [toExplicit]

/-- The two ways an explicit array type reaches the compiler give the same result
when the `type` key is a stock key. -/
theorem createProperty_arrayOf_explicit (env : Env σ) (validates sanitizes : Registry)
    (htype : "type" ∈ validates.keys ∨ "type" ∈ sanitizes.keys)
    (depth : Nat) (T : Nat) (path : Path) :
    createProperty env validates sanitizes depth (.arr [.func T]) path
      = createProperty env validates sanitizes depth
          (.obj [("type", explicitType (.func T) true)]) path := by
  cases depth with
  | zero => rfl
  | succ depth =>
    simp only [createProperty, unwrapArrayOf, toExplicit, explicitType, lookup, isPlainObject,
      entries]
    simp only [if_true, Bool.not_true, Bool.false_eq_true, if_false]
    cases hv : collectValidators env validates
        [("type", Val.obj [("func", Val.func T), ("arrayOf", Val.bool true)])] with
    | error e => rfl
    | ok vs =>
      cases hs : collectSanitizers env sanitizes
          [("type", Val.obj [("func", Val.func T), ("arrayOf", Val.bool true)])] with
      | error e => rfl
      | ok ss =>
        have hpos : 0 < ss.length + vs.length := by
          rcases htype with h | h
          · have := collectValidators_pushes env validates
              [("type", Val.obj [("func", Val.func T), ("arrayOf", Val.bool true)])] vs "type"
              (Val.obj [("func", Val.func T), ("arrayOf", Val.bool true)]) h rfl hv
            omega
          · have := collectSanitizers_pushes env sanitizes
              [("type", Val.obj [("func", Val.func T), ("arrayOf", Val.bool true)])] ss "type"
              (Val.obj [("func", Val.func T), ("arrayOf", Val.bool true)]) h rfl hs
            omega
        have hne : ¬ (ss.length + vs.length = 0) := by omega
        simp [hne]

/-! ## Paths -/

theorem Incomparable.symm {p q : Path} (h : Incomparable p q) : Incomparable q p :=
  ⟨h.2, h.1⟩

theorem Incomparable.ne_nil_left {p q : Path} (h : Incomparable p q) : p ≠ [] := by
  intro hp
  subst hp
  exact h.1 (List.nil_prefix)

theorem Incomparable.ne_nil_right {p q : Path} (h : Incomparable p q) : q ≠ [] :=
  h.symm.ne_nil_left

theorem Incomparable.cons_same {k : String} {p q : Path} (h : Incomparable (k :: p) (k :: q)) :
    Incomparable p q := by
  constructor
  · intro hp
    exact h.1 ((List.prefix_cons_inj k).mpr hp)
  · intro hq
    exact h.2 ((List.prefix_cons_inj k).mpr hq)

theorem incomparable_of_keys (path p q : Path) (k k' : String) (hk : k ≠ k')
    (hp : (path ++ [k]) <+: p) (hq : (path ++ [k']) <+: q) : Incomparable p q := by
  obtain ⟨t, rfl⟩ := hp
  obtain ⟨u, rfl⟩ := hq
  constructor
  · rintro ⟨w, hw⟩
    simp only [List.append_assoc, List.singleton_append, List.cons_append,
      List.append_cancel_left_eq, List.cons.injEq] at hw
    exact hk hw.1
  · rintro ⟨w, hw⟩
    simp only [List.append_assoc, List.singleton_append, List.cons_append,
      List.append_cancel_left_eq, List.cons.injEq] at hw
    exact hk hw.1.symm

/-! ## getIn and setIn -/

theorem getIn_nil (o : Val) : getIn o [] = o := by
  cases o <;> rfl

theorem noArrayAlong_nil (o : Val) : noArrayAlong o [] = true := by
  cases o <;> rfl

theorem hasPath_nil (o : Val) : hasPath o [] = true := by
  cases o <;> rfl

theorem getIn_place_self (o : Val) (p : Path) (v : Val) : getIn (place o p v) p = v := by
  induction p generalizing o with
  | nil => simp [place, getIn_nil]
  | cons k ks ih =>
    simp only [place, getIn, lookup_assign_self]
    exact ih _

theorem getIn_nonContainer (o : Val) (k : String) (ks : Path) (ho : entries o = [])
    (ha : isArray o = false) : getIn o (k :: ks) = .undefined := by
  cases o <;> simp_all [getIn, entries, isArray, lookup]

theorem getIn_cons (o : Val) (k : String) (ks : Path) (ha : isArray o = false) :
    getIn o (k :: ks) = match lookup k (entries o) with
      | some c => getIn c ks
      | none => .undefined := by
  cases o <;> first | rfl | simp_all [getIn, entries, isArray, lookup]

theorem noArrayAlong_cons (o : Val) (k : String) (ks : Path) (h : noArrayAlong o (k :: ks) = true) :
    isArray o = false ∧ noArrayAlong ((lookup k (entries o)).getD .undefined) ks = true := by
  cases o with
  | arr xs => simp [noArrayAlong] at h
  | obj kvs =>
    refine ⟨rfl, ?_⟩
    simp only [noArrayAlong] at h
    simp only [entries]
    cases hl : lookup k kvs with
    | none => cases ks <;> rfl
    | some c => simpa [hl] using h
  | _ => refine ⟨rfl, ?_⟩; cases ks <;> rfl

theorem getIn_undefined (p : Path) : getIn .undefined p = .undefined := by
  cases p <;> rfl

theorem getIn_place_other (o : Val) (p q : Path) (v : Val) (hspine : noArrayAlong o p = true)
    (hpq : Incomparable p q) : getIn (place o q v) p = getIn o p := by
  induction q generalizing o p with
  | nil => exact absurd rfl hpq.ne_nil_right
  | cons k ks ih =>
    cases p with
    | nil => exact absurd rfl hpq.ne_nil_left
    | cons k' ps =>
      obtain ⟨ha, hchild⟩ := noArrayAlong_cons o k' ps hspine
      rw [getIn_cons o k' ps ha]
      simp only [place, getIn]
      by_cases hk : k' = k
      · subst hk
        rw [lookup_assign_self]
        simp only
        rw [ih _ ps hchild hpq.cons_same]
        cases hl : lookup k' (entries o) with
        | none => simp [getIn_undefined]
        | some c => simp
      · rw [lookup_assign_ne k k' _ _ hk]

theorem noArrayAlong_place_self (o : Val) (p : Path) (v : Val) :
    noArrayAlong (place o p v) p = true := by
  induction p generalizing o with
  | nil => exact noArrayAlong_nil _
  | cons k ks ih =>
    simp only [place, noArrayAlong, lookup_assign_self]
    exact ih _

theorem noArrayAlong_place_other (o : Val) (p q : Path) (v : Val)
    (hspine : noArrayAlong o p = true) (hpq : Incomparable p q) :
    noArrayAlong (place o q v) p = true := by
  induction q generalizing o p with
  | nil => exact absurd rfl hpq.ne_nil_right
  | cons k ks ih =>
    cases p with
    | nil => exact noArrayAlong_nil _
    | cons k' ps =>
      obtain ⟨ha, hchild⟩ := noArrayAlong_cons o k' ps hspine
      simp only [place, noArrayAlong]
      by_cases hk : k' = k
      · subst hk
        rw [lookup_assign_self]
        exact ih _ ps hchild hpq.cons_same
      · rw [lookup_assign_ne k k' _ _ hk]
        cases hl : lookup k' (entries o) with
        | none => rfl
        | some c => simpa [hl] using hchild

theorem hasPath_place_self (o : Val) (p : Path) (v : Val) : hasPath (place o p v) p = true := by
  induction p generalizing o with
  | nil => exact hasPath_nil _
  | cons k ks ih =>
    simp only [place, hasPath, lookup_assign_self]
    exact ih _

theorem hasPath_cons (o : Val) (k : String) (ks : Path) (h : hasPath o (k :: ks) = true) :
    ∃ c, lookup k (entries o) = some c ∧ hasPath c ks = true := by
  cases o with
  | obj kvs =>
    simp only [hasPath] at h
    simp only [entries]
    cases hl : lookup k kvs with
    | none => simp [hl] at h
    | some c => exact ⟨c, rfl, by simpa [hl] using h⟩
  | _ => simp [hasPath] at h

theorem hasPath_place_other (o : Val) (p q : Path) (v : Val) (hp : hasPath o p = true)
    (hpq : Incomparable p q) : hasPath (place o q v) p = true := by
  induction q generalizing o p with
  | nil => exact absurd rfl hpq.ne_nil_right
  | cons k ks ih =>
    cases p with
    | nil => exact hasPath_nil _
    | cons k' ps =>
      obtain ⟨c, hc, hcp⟩ := hasPath_cons o k' ps hp
      simp only [place, hasPath]
      by_cases hk : k' = k
      · subst hk
        rw [lookup_assign_self]
        simp only [hc, Option.getD_some]
        exact ih _ ps hcp hpq.cons_same
      · rw [lookup_assign_ne k k' _ _ hk, hc]
        exact hcp

theorem hasPath_of_lookup (o : Val) (k : String) (ks : Path) (c : Val)
    (hl : lookup k (entries o) = some c) (hc : hasPath c ks = true) :
    hasPath o (k :: ks) = true := by
  cases o with
  | obj kvs => simp only [entries] at hl; simp [hasPath, hl, hc]
  | _ => simp [entries, lookup] at hl

theorem hasPath_place_inv (o : Val) (p q : Path) (v : Val)
    (h : hasPath (place o q v) p = true) :
    (p <+: q ∨ q <+: p) ∨ hasPath o p = true := by
  induction q generalizing o p with
  | nil => exact Or.inl (Or.inr List.nil_prefix)
  | cons k ks ih =>
    cases p with
    | nil => exact Or.inl (Or.inl List.nil_prefix)
    | cons k' ps =>
      simp only [place, hasPath] at h
      by_cases hk : k' = k
      · subst hk
        rw [lookup_assign_self] at h
        simp only at h
        rcases ih _ ps h with hcmp | hchild
        · left
          rcases hcmp with h1 | h1
          · exact Or.inl ((List.prefix_cons_inj k').mpr h1)
          · exact Or.inr ((List.prefix_cons_inj k').mpr h1)
        · cases hl : lookup k' (entries o) with
          | none =>
            simp only [hl, Option.getD_none] at hchild
            cases ps with
            | nil => exact Or.inl (Or.inl ((List.prefix_cons_inj k').mpr List.nil_prefix))
            | cons a as => simp [hasPath] at hchild
          | some c =>
            simp only [hl, Option.getD_some] at hchild
            exact Or.inr (hasPath_of_lookup o k' ps c hl hchild)
      · rw [lookup_assign_ne k k' _ _ hk] at h
        right
        cases hl : lookup k' (entries o) with
        | none => simp [hl] at h
        | some c =>
          simp only [hl] at h
          exact hasPath_of_lookup o k' ps c hl h

theorem setIn_eq_place (o : Val) (p : Path) (v : Val) (hp : p ≠ []) : setIn o p v = place o p v := by
  cases p with
  | nil => exact absurd rfl hp
  | cons k ks => rfl

theorem applyWrites_cons (w : Path × Val) (ws : List (Path × Val)) (acc : Val) :
    applyWrites (w :: ws) acc = applyWrites ws (setIn acc w.1 w.2) := rfl

theorem applyWrites_append (ws ws' : List (Path × Val)) (acc : Val) :
    applyWrites (ws ++ ws') acc = applyWrites ws' (applyWrites ws acc) := by
  simp [applyWrites, List.foldl_append]

theorem applyWrites_frame (ws : List (Path × Val)) (acc : Val) (p : Path)
    (hspine : noArrayAlong acc p = true) (hinc : ∀ w ∈ ws, Incomparable p w.1) :
    getIn (applyWrites ws acc) p = getIn acc p ∧ noArrayAlong (applyWrites ws acc) p = true := by
  induction ws generalizing acc with
  | nil => exact ⟨rfl, hspine⟩
  | cons w rest ih =>
    have hw := hinc w (List.mem_cons_self _ _)
    rw [applyWrites_cons, setIn_eq_place _ _ _ hw.ne_nil_right]
    have h1 := getIn_place_other acc p w.1 w.2 hspine hw
    have h2 := noArrayAlong_place_other acc p w.1 w.2 hspine hw
    obtain ⟨h3, h4⟩ := ih (place acc w.1 w.2) h2 (fun w' hw' => hinc w' (List.mem_cons_of_mem _ hw'))
    exact ⟨h3.trans h1, h4⟩

theorem applyWrites_hasPath_frame (ws : List (Path × Val)) (acc : Val) (p : Path)
    (hp : hasPath acc p = true) (hinc : ∀ w ∈ ws, Incomparable p w.1) :
    hasPath (applyWrites ws acc) p = true := by
  induction ws generalizing acc with
  | nil => exact hp
  | cons w rest ih =>
    have hw := hinc w (List.mem_cons_self _ _)
    rw [applyWrites_cons, setIn_eq_place _ _ _ hw.ne_nil_right]
    exact ih _ (hasPath_place_other acc p w.1 w.2 hp hw)
      (fun w' hw' => hinc w' (List.mem_cons_of_mem _ hw'))

theorem applyWrites_hasPath_inv (ws : List (Path × Val)) (acc : Val) (q : Path)
    (h : hasPath (applyWrites ws acc) q = true) :
    hasPath acc q = true ∨ ∃ w ∈ ws, q <+: w.1 ∨ w.1 <+: q := by
  induction ws generalizing acc with
  | nil => exact Or.inl h
  | cons w rest ih =>
    rw [applyWrites_cons] at h
    rcases ih _ h with h1 | ⟨w', hw', hcmp⟩
    · by_cases hnil : w.1 = []
      · left
        simpa [setIn, hnil] using h1
      · rw [setIn_eq_place _ _ _ hnil] at h1
        rcases hasPath_place_inv acc q w.1 w.2 h1 with hcmp | hacc
        · exact Or.inr ⟨w, List.mem_cons_self _ _, hcmp⟩
        · exact Or.inl hacc
    · exact Or.inr ⟨w', List.mem_cons_of_mem _ hw', hcmp⟩

/-- After writes at pairwise incomparable paths every written value is read
back at its path. -/
theorem applyWrites_read (ws : List (Path × Val)) (acc : Val)
    (hpair : ws.Pairwise (fun a b => Incomparable a.1 b.1))
    (hne : ∀ w ∈ ws, w.1 ≠ []) :
    ∀ w ∈ ws, getIn (applyWrites ws acc) w.1 = w.2 ∧ hasPath (applyWrites ws acc) w.1 = true := by
  induction ws generalizing acc with
  | nil => intro w hw; simp at hw
  | cons w0 rest ih =>
    obtain ⟨hhead, htail⟩ := List.pairwise_cons.mp hpair
    intro w hw
    rw [applyWrites_cons]
    rcases List.mem_cons.mp hw with heq | hin
    · subst heq
      have hnil := hne w (List.mem_cons_self _ _)
      rw [setIn_eq_place _ _ _ hnil]
      obtain ⟨h1, _⟩ := applyWrites_frame rest (place acc w.1 w.2) w.1
        (noArrayAlong_place_self _ _ _) (fun w' hw' => hhead w' hw')
      refine ⟨h1.trans (getIn_place_self _ _ _), ?_⟩
      exact applyWrites_hasPath_frame rest _ w.1 (hasPath_place_self _ _ _)
        (fun w' hw' => hhead w' hw')
    · exact ih _ htail (fun w' hw' => hne w' (List.mem_cons_of_mem _ hw')) w hin

/-! ## Well-formed definitions compile to incomparable paths -/

theorem wfEntries_cons (k : String) (v : Val) (rest : List (String × Val)) :
    wfEntries ((k, v) :: rest) = ((lookup k rest).isNone && v.wf && wfEntries rest) := by
  simp [wfEntries]

theorem lookup_none_of_not_mem (k : String) (kvs : Entries) :
    lookup k kvs = none ↔ ∀ kv ∈ kvs, kv.1 ≠ k := by
  induction kvs with
  | nil => simp [lookup]
  | cons kv rest ih =>
    obtain ⟨k0, v0⟩ := kv
    by_cases h : k0 = k
    · simp [lookup, h]
    · simp [lookup, h, ih]

theorem wfEntries_child (kvs : List (String × Val)) (h : wfEntries kvs = true) :
    ∀ kv ∈ kvs, kv.2.wf = true := by
  induction kvs with
  | nil => intro kv hkv; simp at hkv
  | cons kv rest ih =>
    obtain ⟨k, v⟩ := kv
    rw [wfEntries_cons] at h
    simp only [Bool.and_eq_true] at h
    intro kv' hkv'
    rcases List.mem_cons.mp hkv' with heq | hin
    · subst heq; exact h.1.2
    · exact ih h.2 kv' hin

theorem unwrapArrayOf_true (d inner : Val) (h : unwrapArrayOf d = .ok (true, inner)) :
    d = .arr [inner] := by
  unfold unwrapArrayOf at h
  split at h
  · simp at h; subst h; rfl
  · simp at h
  · simp at h

theorem unwrapArrayOf_false_isArray (d inner : Val) (h : unwrapArrayOf d = .ok (false, inner)) :
    isArray d = false := by
  unfold unwrapArrayOf at h
  split at h
  · simp at h
  · simp at h
  · rename_i h1 h2
    cases d with
    | arr xs =>
      match xs with
      | [] => exact absurd rfl (h2 _)
      | [x] => exact absurd rfl (h1 x)
      | _ :: _ :: _ => exact absurd rfl (h2 _)
    | _ => rfl

/-- What a successful step of `createProperty` did: it pushed one record for a
node with functions, or it compiled the children of a group node. -/
theorem createProperty_ok_cases (env : Env σ) (validates sanitizes : Registry) (depth : Nat)
    (d : Val) (path : Path) (ps : List Property)
    (h : createProperty env validates sanitizes (depth + 1) d path = some (.ok ps)) :
    (∃ arrayOf inner kvs vs ss, unwrapArrayOf d = .ok (arrayOf, inner) ∧
        toExplicit inner arrayOf = .ok (.obj kvs) ∧
        collectValidators env validates kvs = .ok vs ∧
        collectSanitizers env sanitizes kvs = .ok ss ∧
        ss.length + vs.length ≠ 0 ∧
        ps = [{ path := path, validators := vs, sanitizers := ss }])
    ∨ (∃ kvs, isArray d = false ∧ toExplicit d false = .ok (.obj kvs) ∧
        collectValidators env validates kvs = .ok [] ∧
        collectSanitizers env sanitizes kvs = .ok [] ∧ kvs ≠ [] ∧
        forEachKey (createProperty env validates sanitizes depth) path kvs = some (.ok ps)) := by
  rw [createProperty_succ] at h
  cases hu : unwrapArrayOf d with
  | error e => simp [hu] at h
  | ok r =>
    obtain ⟨arrayOf, inner⟩ := r
    simp only [hu] at h
    cases he : toExplicit inner arrayOf with
    | error e => simp [he] at h
    | ok explicit =>
      simp only [he] at h
      cases explicit with
      | obj kvs =>
        simp only [isPlainObject, entries, Bool.not_true, Bool.false_eq_true, if_false] at h
        cases hv : collectValidators env validates kvs with
        | error e => simp [hv] at h
        | ok vs =>
          cases hs : collectSanitizers env sanitizes kvs with
          | error e => simp [hv, hs] at h
          | ok ss =>
            simp only [hv, hs] at h
            by_cases hnone : ss.length + vs.length = 0
            · have hss : ss = [] := List.length_eq_zero.mp (by omega)
              have hvs : vs = [] := List.length_eq_zero.mp (by omega)
              subst hss hvs
              by_cases hkeys : kvs = []
              · subst hkeys
                simp at h
              · have hpos : 0 < kvs.length := List.length_pos.mpr hkeys
                cases arrayOf with
                | true => simp [hpos] at h
                | false =>
                  right
                  have hd : inner = d := unwrapArrayOf_false d inner hu
                  subst hd
                  simp [hpos] at h
                  exact ⟨kvs, unwrapArrayOf_false_isArray _ _ hu, he, hv, hs, hkeys, h⟩
            · left
              simp [hnone] at h
              exact ⟨arrayOf, inner, kvs, vs, ss, rfl, he, hv, hs, hnone, h.symm⟩
      | undefined => simp [isPlainObject] at h
      | null => simp [isPlainObject] at h
      | bool b => simp [isPlainObject] at h
      | num n => simp [isPlainObject] at h
      | nan => simp [isPlainObject] at h
      | str s => simp [isPlainObject] at h
      | arr xs => simp [isPlainObject] at h
      | func f => simp [isPlainObject] at h

theorem wfEntries_assign (k : String) (v : Val) (kvs : List (String × Val))
    (hkvs : wfEntries kvs = true) (hv : v.wf = true) : wfEntries (assign k v kvs) = true := by
  induction kvs with
  | nil => simp [assign, wfEntries, lookup, hv]
  | cons kv rest ih =>
    obtain ⟨k0, w⟩ := kv
    rw [wfEntries_cons] at hkvs
    simp only [Bool.and_eq_true] at hkvs
    by_cases h : k0 = k
    · subst h
      simp only [assign, if_true]
      rw [wfEntries_cons]
      simp [hkvs.1.1, hv, hkvs.2]
    · simp only [assign, h, if_false]
      rw [wfEntries_cons, lookup_assign_ne k k0 v rest h]
      simp [hkvs.1.1, hkvs.1.2, ih hkvs.2]

theorem explicitType_wf (f : Nat) (arrayOf : Bool) : (explicitType (.func f) arrayOf).wf = true := by
  simp [explicitType, Val.wf, wfEntries, lookup]

theorem toExplicit_wf (d : Val) (arrayOf : Bool) (kvs : Entries) (hd : d.wf = true)
    (h : toExplicit d arrayOf = .ok (.obj kvs)) : wfEntries kvs = true := by
  cases d with
  | func f =>
    simp only [toExplicit, Except.ok.injEq, Val.obj.injEq] at h
    subst h
    simp [wfEntries, lookup, explicitType_wf]
  | obj node =>
    have hnode : wfEntries node = true := by simpa [Val.wf] using hd
    simp only [toExplicit] at h
    split at h
    · simp only [Except.ok.injEq, Val.obj.injEq] at h
      subst h
      exact wfEntries_assign _ _ _ hnode (explicitType_wf _ _)
    · simp only [Except.ok.injEq, Val.obj.injEq] at h
      subst h
      exact hnode
  | undefined => simp [toExplicit] at h
  | null => simp [toExplicit] at h
  | bool b => simp [toExplicit] at h
  | num n => simp [toExplicit] at h
  | nan => simp [toExplicit] at h
  | str s => simp [toExplicit] at h
  | arr xs => simp [toExplicit] at h

theorem forEachKey_paths (create : Val → Path → Compiled) (path : Path) (kvs : Entries)
    (ps : List Property) (hwf : wfEntries kvs = true)
    (hchild : ∀ kv ∈ kvs, ∀ qs, create kv.2 (path ++ [kv.1]) = some (.ok qs) →
      (∀ r ∈ qs, (path ++ [kv.1]) <+: r.path)
        ∧ qs.Pairwise (fun a b => Incomparable a.path b.path))
    (h : forEachKey create path kvs = some (.ok ps)) :
    (∀ r ∈ ps, ∃ kv ∈ kvs, (path ++ [kv.1]) <+: r.path)
      ∧ ps.Pairwise (fun a b => Incomparable a.path b.path) := by
  induction kvs generalizing ps with
  | nil =>
    simp only [forEachKey, Option.some.injEq, Except.ok.injEq] at h
    subst h
    simp
  | cons kv rest ih =>
    obtain ⟨k, c⟩ := kv
    rw [wfEntries_cons] at hwf
    simp only [Bool.and_eq_true, Option.isNone_iff_eq_none] at hwf
    simp only [forEachKey] at h
    cases hc : create c (path ++ [k]) with
    | none => simp [hc] at h
    | some r =>
      cases r with
      | error e => simp [hc] at h
      | ok first =>
        simp only [hc] at h
        cases hr : forEachKey create path rest with
        | none => simp [hr] at h
        | some r' =>
          cases r' with
          | error e => simp [hr] at h
          | ok more =>
            simp only [hr, Option.some.injEq, Except.ok.injEq] at h
            subst h
            obtain ⟨hfirst, hfirstP⟩ := hchild (k, c) (List.mem_cons_self _ _) first hc
            obtain ⟨hmore, hmoreP⟩ := ih more hwf.2
              (fun kv hkv => hchild kv (List.mem_cons_of_mem _ hkv)) hr
            constructor
            · intro r hr'
              rcases List.mem_append.mp hr' with h1 | h1
              · exact ⟨(k, c), List.mem_cons_self _ _, hfirst r h1⟩
              · obtain ⟨kv, hkv, hpre⟩ := hmore r h1
                exact ⟨kv, List.mem_cons_of_mem _ hkv, hpre⟩
            · rw [List.pairwise_append]
              refine ⟨hfirstP, hmoreP, ?_⟩
              intro a ha b hb
              obtain ⟨kv, hkv, hpre⟩ := hmore b hb
              have hne : k ≠ kv.1 := fun heq =>
                (lookup_none_of_not_mem k rest).mp hwf.1.1 kv hkv heq.symm
              exact incomparable_of_keys path a.path b.path k kv.1 hne (hfirst a ha) hpre

/-- The records compiled from a well-formed node lie under the path of the
node, at pairwise incomparable paths. -/
theorem createProperty_paths (env : Env σ) (validates sanitizes : Registry) :
    ∀ (depth : Nat) (d : Val) (path : Path) (ps : List Property), d.wf = true →
      createProperty env validates sanitizes depth d path = some (.ok ps) →
      (∀ r ∈ ps, path <+: r.path) ∧ ps.Pairwise (fun a b => Incomparable a.path b.path) := by
  intro depth
  induction depth with
  | zero => intro d path ps _ h; simp [createProperty] at h
  | succ n ih =>
    intro d path ps hwf h
    rcases createProperty_ok_cases env validates sanitizes n d path ps h with
      ⟨arrayOf, inner, kvs, vs, ss, _, _, _, _, _, hps⟩ | ⟨kvs, _, he, _, _, _, hf⟩
    · subst hps
      simp
    · have hkvs := toExplicit_wf d false kvs hwf he
      obtain ⟨h1, h2⟩ := forEachKey_paths _ path kvs ps hkvs
        (fun kv hkv qs hq => ih kv.2 _ qs (wfEntries_child kvs hkvs kv hkv) hq) hf
      refine ⟨?_, h2⟩
      intro r hr
      obtain ⟨kv, _, hpre⟩ := h1 r hr
      exact (List.prefix_append path [kv.1]).trans hpre

/-- The property list of a Schema built from a well-formed definition: no path
is empty and no path is a prefix of another. -/
theorem Schema.new_paths (env : Env σ) (validates sanitizes : Registry) (depth : Nat)
    (properties options : Val) (schema : Schema) (hwf : properties.wf = true)
    (h : Schema.new env validates sanitizes depth properties options = some (.ok schema)) :
    (∀ r ∈ schema.properties, r.path ≠ [])
      ∧ schema.properties.Pairwise (fun a b => Incomparable a.path b.path) := by
  obtain ⟨kvs, hk, _, hf⟩ := Schema.new_ok_iff env validates sanitizes depth _ _ schema h
  subst hk
  have hkvs : wfEntries kvs = true := by simpa [Val.wf] using hwf
  obtain ⟨h1, h2⟩ := forEachKey_paths _ [] kvs schema.properties hkvs
    (fun kv hkv qs hq => createProperty_paths env validates sanitizes depth kv.2 _ qs
      (wfEntries_child kvs hkvs kv hkv) hq) hf
  refine ⟨?_, h2⟩
  intro r hr hnil
  obtain ⟨kv, _, hpre⟩ := h1 r hr
  rw [hnil] at hpre
  simp at hpre

/-! ## The sanitize engine -/

theorem runSanitizers_eq_pipeline_aux (env : Env σ) (params : Val) (chain : List Val)
    (before : Val → σ → Except Err Val × σ) (value : Val) (s : σ) :
    chain.foldl (andThen env params) before value s
    = match before value s with
      | (.ok value', s') => runSanitizers env params chain value' s'
      | (.error e, s') => (.error e, s') := by
  induction chain generalizing before with
  | nil =>
    simp only [List.foldl_nil, runSanitizers]
    rcases before value s with ⟨r, s'⟩
    cases r <;> rfl
  | cons f fs ih =>
    simp only [List.foldl_cons]
    rw [ih]
    simp only [andThen]
    rcases before value s with ⟨r, s'⟩
    cases r with
    | error e => rfl
    | ok v =>
      simp only [runSanitizers]

theorem runSanitizers_eq_pipeline (env : Env σ) (params : Val) (chain : List Val) (value : Val)
    (s : σ) : runSanitizers env params chain value s = pipeline env params chain value s := by
  unfold pipeline
  rw [runSanitizers_eq_pipeline_aux]

theorem sanitizeLoop_append (env : Env σ) (data params : Val) (pre post : List Property)
    (acc : Val) (s : σ) :
    sanitizeLoop env data params (pre ++ post) acc s
      = match sanitizeLoop env data params pre acc s with
        | (.ok acc', s') => sanitizeLoop env data params post acc' s'
        | (.error e, s') => (.error e, s') := by
  induction pre generalizing acc s with
  | nil => rfl
  | cons p ps ih =>
    simp only [List.cons_append, sanitizeLoop]
    rcases runSanitizers env params p.sanitizers (consolidate (getIn data p.path)) s with ⟨r, s'⟩
    cases r with
    | error e => rfl
    | ok v => exact ih _ _

/-- What the loop of `sanitize` does to `sanitized`: one write per property, in
order, of a value that the chain of the property returned. -/
theorem sanitizeLoop_writes (env : Env σ) (data params : Val) (props : List Property)
    (acc : Val) (s : σ) (out : Val) (s' : σ)
    (h : sanitizeLoop env data params props acc s = (.ok out, s')) :
    ∃ ws : List (Path × Val),
      List.Forall₂ (fun r w => w.1 = r.path ∧ ∃ s1 s2,
        runSanitizers env params r.sanitizers (consolidate (getIn data r.path)) s1 = (.ok w.2, s2))
        props ws
      ∧ out = applyWrites ws acc := by
  induction props generalizing acc s with
  | nil =>
    simp only [sanitizeLoop, Prod.mk.injEq, Except.ok.injEq] at h
    exact ⟨[], List.Forall₂.nil, h.1.symm⟩
  | cons p ps ih =>
    simp only [sanitizeLoop] at h
    cases hr : runSanitizers env params p.sanitizers (consolidate (getIn data p.path)) s with
    | mk r s1 =>
      cases r with
      | error e => simp [hr] at h
      | ok v =>
        simp only [hr] at h
        obtain ⟨ws, hf, hout⟩ := ih _ _ h
        exact ⟨(p.path, v) :: ws, List.Forall₂.cons ⟨rfl, s, s1, hr⟩ hf, hout⟩

theorem forall₂_paths {R : Property → Path × Val → Prop} (props : List Property)
    (ws : List (Path × Val)) (h : List.Forall₂ R props ws) (hR : ∀ r w, R r w → w.1 = r.path) :
    ws.map Prod.fst = props.map (fun r => r.path) := by
  induction h with
  | nil => rfl
  | cons hhead _ ih => simp [hR _ _ hhead, ih]

theorem pairwise_of_paths (props : List Property) (ws : List (Path × Val))
    (hmap : ws.map Prod.fst = props.map (fun r => r.path))
    (hpair : props.Pairwise (fun a b => Incomparable a.path b.path)) :
    ws.Pairwise (fun a b => Incomparable a.1 b.1) := by
  have h1 : (props.map (fun r => r.path)).Pairwise Incomparable := List.pairwise_map.mpr hpair
  rw [← hmap] at h1
  exact List.pairwise_map.mp h1

theorem mem_writes_of_mem (props : List Property) (ws : List (Path × Val))
    (hmap : ws.map Prod.fst = props.map (fun r => r.path)) (r : Property) (hr : r ∈ props) :
    ∃ w ∈ ws, w.1 = r.path := by
  have : r.path ∈ ws.map Prod.fst := by
    rw [hmap]; exact List.mem_map.mpr ⟨r, hr, rfl⟩
  obtain ⟨w, hw, hw1⟩ := List.mem_map.mp this
  exact ⟨w, hw, hw1⟩

theorem mem_of_mem_writes (props : List Property) (ws : List (Path × Val))
    (hmap : ws.map Prod.fst = props.map (fun r => r.path)) (w : Path × Val) (hw : w ∈ ws) :
    ∃ r ∈ props, w.1 = r.path := by
  have : w.1 ∈ props.map (fun r => r.path) := by
    rw [← hmap]; exact List.mem_map.mpr ⟨w, hw, rfl⟩
  obtain ⟨r, hr, hr1⟩ := List.mem_map.mp this
  exact ⟨r, hr, hr1.symm⟩

theorem hasPath_empty (q : Path) (h : hasPath (.obj []) q = true) : q = [] := by
  cases q with
  | nil => rfl
  | cons k ks => simp [hasPath, lookup] at h

/-- The paths of the object that `sanitize` returns. -/
theorem sanitize_paths (env : Env σ) (validates sanitizes : Registry) (depth : Nat)
    (definition options : Val) (schema : Schema) (hwf : definition.wf = true)
    (hnew : Schema.new env validates sanitizes depth definition options = some (.ok schema))
    (data params : Val) (s : σ) (out : Val) (s' : σ)
    (hrun : Schema.sanitize env schema data params s = (.ok out, s')) :
    (∀ r ∈ schema.properties, hasPath out r.path = true)
    ∧ (∀ q, hasPath out q = true →
        q = [] ∨ ∃ r ∈ schema.properties, q <+: r.path ∨ r.path <+: q) := by
  obtain ⟨hne, hpair⟩ := Schema.new_paths env validates sanitizes depth definition options schema
    hwf hnew
  obtain ⟨ws, hf, hout⟩ := sanitizeLoop_writes env _ _ _ _ _ _ _ hrun
  have hmap := forall₂_paths _ _ hf (fun _ _ h => h.1)
  have hwpair := pairwise_of_paths _ _ hmap hpair
  have hwne : ∀ w ∈ ws, w.1 ≠ [] := by
    intro w hw
    obtain ⟨r, hr, hwr⟩ := mem_of_mem_writes _ _ hmap w hw
    rw [hwr]; exact hne r hr
  subst hout
  constructor
  · intro r hr
    obtain ⟨w, hw, hwr⟩ := mem_writes_of_mem _ _ hmap r hr
    rw [← hwr]
    exact (applyWrites_read ws _ hwpair hwne w hw).2
  · intro q hq
    rcases applyWrites_hasPath_inv ws _ q hq with h0 | ⟨w, hw, hcmp⟩
    · exact Or.inl (hasPath_empty q h0)
    · obtain ⟨r, hr, hwr⟩ := mem_of_mem_writes _ _ hmap w hw
      rw [hwr] at hcmp
      exact Or.inr ⟨r, hr, hcmp⟩

theorem pairwise_split (props pre post : List Property) (r : Property)
    (hsplit : props = pre ++ r :: post)
    (hpair : props.Pairwise (fun a b => Incomparable a.path b.path)) :
    ∀ q ∈ post, Incomparable r.path q.path := by
  subst hsplit
  have h1 := (List.pairwise_append.mp hpair).2.1
  exact (List.pairwise_cons.mp h1).1

/-- The value that `sanitize` leaves at the path of a property is the result of
the chain of that property, run when the loop reaches it. -/
theorem sanitizeLoop_read (env : Env σ) (data params : Val) (props pre post : List Property)
    (r : Property) (hsplit : props = pre ++ r :: post)
    (hne : ∀ q ∈ props, q.path ≠ [])
    (hpair : props.Pairwise (fun a b => Incomparable a.path b.path))
    (acc : Val) (s : σ) (out : Val) (s' : σ)
    (h : sanitizeLoop env data params props acc s = (.ok out, s')) :
    ∃ v s2, runSanitizers env params r.sanitizers (consolidate (getIn data r.path))
        (sanitizeLoop env data params pre acc s).2 = (.ok v, s2)
      ∧ getIn out r.path = v := by
  have hinc := pairwise_split props pre post r hsplit hpair
  have hrne : r.path ≠ [] := hne r (by rw [hsplit]; simp)
  subst hsplit
  rw [sanitizeLoop_append] at h
  cases hpre : sanitizeLoop env data params pre acc s with
  | mk r1 s1 =>
    cases r1 with
    | error e => simp [hpre] at h
    | ok acc1 =>
      simp only [hpre, sanitizeLoop] at h
      cases hr : runSanitizers env params r.sanitizers (consolidate (getIn data r.path)) s1 with
      | mk r2 s2 =>
        cases r2 with
        | error e => simp [hr] at h
        | ok v =>
          simp only [hr] at h
          refine ⟨v, s2, rfl, ?_⟩
          obtain ⟨ws, hf, hout⟩ := sanitizeLoop_writes env _ _ _ _ _ _ _ h
          have hmap := forall₂_paths _ _ hf (fun _ _ h => h.1)
          subst hout
          rw [setIn_eq_place _ _ _ hrne]
          have hframe := applyWrites_frame ws (place acc1 r.path v) r.path
            (noArrayAlong_place_self _ _ _) (by
              intro w hw
              obtain ⟨q, hq, hwq⟩ := mem_of_mem_writes _ _ hmap w hw
              rw [hwq]
              exact hinc q hq)
          rw [hframe.1, getIn_place_self]

theorem sanitizeLoop_stable (env : Env σ) (data params : Val) (props : List Property)
    (hstable : ∀ r ∈ props, ∀ t,
      runSanitizers env params r.sanitizers (consolidate (getIn data r.path)) t
        = (.ok (getIn data r.path), t))
    (acc : Val) (t : σ) :
    sanitizeLoop env data params props acc t
      = (.ok (applyWrites (props.map (fun r => (r.path, getIn data r.path))) acc), t) := by
  induction props generalizing acc with
  | nil => rfl
  | cons p ps ih =>
    simp only [sanitizeLoop, hstable p (List.mem_cons_self _ _) t, List.map_cons,
      applyWrites_cons]
    exact ih (fun r hr => hstable r (List.mem_cons_of_mem _ hr)) _

theorem isPlainObject_place (o : Val) (p : Path) (v : Val) (hp : p ≠ []) :
    isPlainObject (place o p v) = true := by
  cases p with
  | nil => exact absurd rfl hp
  | cons k ks => rfl

theorem isPlainObject_applyWrites (ws : List (Path × Val)) (acc : Val)
    (h : isPlainObject acc = true) : isPlainObject (applyWrites ws acc) = true := by
  induction ws generalizing acc with
  | nil => exact h
  | cons w rest ih =>
    rw [applyWrites_cons]
    apply ih
    by_cases hnil : w.1 = []
    · simpa [setIn, hnil] using h
    · rw [setIn_eq_place _ _ _ hnil]
      exact isPlainObject_place _ _ _ hnil

theorem orEmptyObject_of_plain (o : Val) (h : isPlainObject o = true) : orEmptyObject o = o := by
  cases o <;> simp_all [isPlainObject, orEmptyObject]

theorem writes_eq_map (props : List Property) (ws : List (Path × Val)) (out : Val)
    (hmap : ws.map Prod.fst = props.map (fun r => r.path))
    (hread : ∀ w ∈ ws, getIn out w.1 = w.2) :
    ws = props.map (fun r => (r.path, getIn out r.path)) := by
  have h1 : ws = (ws.map Prod.fst).map (fun p => (p, getIn out p)) := by
    rw [List.map_map]
    conv_lhs => rw [← List.map_id ws]
    apply List.map_congr_left
    intro w hw
    simp [hread w hw]
  rw [h1, hmap, List.map_map]
  rfl

/-- A second run of `sanitize` on the result of a first run, when every chain
reproduces its own result. -/
theorem sanitize_again (env : Env σ) (schema : Schema)
    (hne : ∀ r ∈ schema.properties, r.path ≠ [])
    (hpair : schema.properties.Pairwise (fun a b => Incomparable a.path b.path))
    (data params : Val) (s : σ) (out : Val) (s' : σ)
    (hrun : Schema.sanitize env schema data params s = (.ok out, s'))
    (hstable : ∀ r ∈ schema.properties, ∀ s1 v s2,
      runSanitizers env (orEmptyObject params) r.sanitizers
        (consolidate (getIn (orEmptyObject data) r.path)) s1 = (.ok v, s2) →
      ∀ t, runSanitizers env (orEmptyObject params) r.sanitizers (consolidate v) t = (.ok v, t))
    (t : σ) :
    Schema.sanitize env schema out params t = (.ok out, t) := by
  obtain ⟨ws, hf, hout⟩ := sanitizeLoop_writes env _ _ _ _ _ _ _ hrun
  have hmap := forall₂_paths _ _ hf (fun _ _ h => h.1)
  have hwpair := pairwise_of_paths _ _ hmap hpair
  have hwne : ∀ w ∈ ws, w.1 ≠ [] := by
    intro w hw
    obtain ⟨r, hr, hwr⟩ := mem_of_mem_writes _ _ hmap w hw
    rw [hwr]; exact hne r hr
  have hread : ∀ w ∈ ws, getIn out w.1 = w.2 := by
    intro w hw
    rw [hout]
    exact (applyWrites_read ws _ hwpair hwne w hw).1
  have hplain : isPlainObject out = true := by
    rw [hout]; exact isPlainObject_applyWrites ws _ rfl
  have hws := writes_eq_map _ _ out hmap hread
  have hst : ∀ r ∈ schema.properties, ∀ t,
      runSanitizers env (orEmptyObject params) r.sanitizers (consolidate (getIn out r.path)) t
        = (.ok (getIn out r.path), t) := by
    intro r hr t
    -- the write that belongs to `r`
    have hrel : ∀ (props : List Property) (ws : List (Path × Val)),
        List.Forall₂ (fun r w => w.1 = r.path ∧ ∃ s1 s2,
          runSanitizers env (orEmptyObject params) r.sanitizers
            (consolidate (getIn (orEmptyObject data) r.path)) s1 = (.ok w.2, s2)) props ws →
        r ∈ props → ∃ w ∈ ws, w.1 = r.path ∧ ∃ s1 s2,
          runSanitizers env (orEmptyObject params) r.sanitizers
            (consolidate (getIn (orEmptyObject data) r.path)) s1 = (.ok w.2, s2) := by
      intro props ws hf
      induction hf with
      | nil => intro h; simp at h
      | cons hhead _ ih =>
        intro h
        rcases List.mem_cons.mp h with heq | hin
        · subst heq
          exact ⟨_, List.mem_cons_self _ _, hhead⟩
        · obtain ⟨w, hw, hrest⟩ := ih hin
          exact ⟨w, List.mem_cons_of_mem _ hw, hrest⟩
    obtain ⟨w, hw, hw1, s1, s2, hw2⟩ := hrel _ _ hf hr
    have hval : getIn out r.path = w.2 := by rw [← hw1]; exact hread w hw
    rw [hval]
    exact hstable r hr s1 w.2 s2 hw2 t
  unfold Schema.sanitize
  rw [orEmptyObject_of_plain out hplain, sanitizeLoop_stable env out _ _ hst, ← hws, ← hout]

/-! ## The validate engine -/

theorem entries_of_falsy (e : Val) (h : truthy e = false) : entries e = [] := by
  cases e <;> simp_all [truthy, entries]

theorem setIn_orEmpty (e : Val) (p : Path) (v : Val) (hp : p ≠ []) :
    setIn (if truthy e = true then e else .obj []) p v = place e p v := by
  cases p with
  | nil => exact absurd rfl hp
  | cons k ks =>
    by_cases ht : truthy e = true
    · simp [ht, setIn]
    · have hf : truthy e = false := by simpa using ht
      have he := entries_of_falsy e hf
      simp only [ht, if_false, setIn, place]
      rw [he]
      rfl

theorem validateLoop_append (env : Env σ) (data params : Val) (pre post : List Property)
    (errors : Val) (s : σ) :
    validateLoop env data params (pre ++ post) errors s
      = match validateLoop env data params pre errors s with
        | (.ok errors', s') => validateLoop env data params post errors' s'
        | (.error e, s') => (.error e, s') := by
  induction pre generalizing errors s with
  | nil => rfl
  | cons p ps ih =>
    simp only [List.cons_append, validateLoop]
    rcases runValidators env params p.path (getIn data p.path) p.validators errors s with ⟨r, s'⟩
    cases r with
    | error e => rfl
    | ok v => exact ih _ _

/-- What the validators of one path do to `errors`: writes at that path. -/
theorem runValidators_writes (env : Env σ) (params : Val) (path : Path) (value : Val)
    (hp : path ≠ []) (chain : List Val) (errors : Val) (s : σ) (out : Val) (s' : σ)
    (h : runValidators env params path value chain errors s = (.ok out, s')) :
    ∃ ws : List (Path × Val), (∀ w ∈ ws, w.1 = path) ∧ out = applyWrites ws errors := by
  induction chain generalizing errors s with
  | nil =>
    simp only [runValidators, Prod.mk.injEq, Except.ok.injEq] at h
    exact ⟨[], by simp, h.1.symm⟩
  | cons f fs ih =>
    simp only [runValidators] at h
    cases hr : invoke env f [value, params] s with
    | mk r s1 =>
      cases r with
      | error e => simp [hr] at h
      | ok result =>
        simp only [hr] at h
        by_cases ht : truthy result = true
        · simp only [ht, Bool.not_true, Bool.false_eq_true, if_false] at h
          rw [setIn_orEmpty _ _ _ hp] at h
          obtain ⟨ws, hws, hout⟩ := ih _ _ h
          refine ⟨(path, result) :: ws, ?_, ?_⟩
          · intro w hw
            rcases List.mem_cons.mp hw with heq | hin
            · subst heq; rfl
            · exact hws w hin
          · rw [applyWrites_cons, setIn_eq_place _ _ _ hp]
            exact hout
        · simp at ht
          simp only [ht, Bool.not_false, if_true] at h
          exact ih _ _ h

theorem validateLoop_writes (env : Env σ) (data params : Val) (props : List Property)
    (hne : ∀ r ∈ props, r.path ≠ []) (errors : Val) (s : σ) (out : Val) (s' : σ)
    (h : validateLoop env data params props errors s = (.ok out, s')) :
    ∃ ws : List (Path × Val), (∀ w ∈ ws, ∃ r ∈ props, w.1 = r.path)
      ∧ out = applyWrites ws errors := by
  induction props generalizing errors s with
  | nil =>
    simp only [validateLoop, Prod.mk.injEq, Except.ok.injEq] at h
    exact ⟨[], by simp, h.1.symm⟩
  | cons p ps ih =>
    simp only [validateLoop] at h
    cases hr : runValidators env params p.path (getIn data p.path) p.validators errors s with
    | mk r s1 =>
      cases r with
      | error e => simp [hr] at h
      | ok errors1 =>
        simp only [hr] at h
        obtain ⟨ws1, hws1, hout1⟩ := runValidators_writes env params p.path _
          (hne p (List.mem_cons_self _ _)) _ _ _ _ _ hr
        obtain ⟨ws2, hws2, hout2⟩ := ih (fun r hr => hne r (List.mem_cons_of_mem _ hr)) _ _ h
        refine ⟨ws1 ++ ws2, ?_, ?_⟩
        · intro w hw
          rcases List.mem_append.mp hw with h1 | h2
          · exact ⟨p, List.mem_cons_self _ _, hws1 w h1⟩
          · obtain ⟨r, hr', hwr⟩ := hws2 w h2
            exact ⟨r, List.mem_cons_of_mem _ hr', hwr⟩
        · rw [applyWrites_append, ← hout1]
          exact hout2

theorem runValidators_none (env : Env σ) (params : Val) (path : Path) (value : Val)
    (chain : List Val) (errors : Val) (s : σ) (out : Val) (s' : σ)
    (h : runValidators env params path value chain errors s = (.ok out, s'))
    (hlast : lastFailing env params value chain s = none) : out = errors := by
  induction chain generalizing errors s with
  | nil =>
    simp only [runValidators, Prod.mk.injEq, Except.ok.injEq] at h
    exact h.1.symm
  | cons f fs ih =>
    simp only [runValidators] at h
    simp only [lastFailing] at hlast
    cases hr : invoke env f [value, params] s with
    | mk r s1 =>
      cases r with
      | error e => simp [hr] at h
      | ok result =>
        simp only [hr] at h hlast
        cases hl : lastFailing env params value fs s1 with
        | some later => simp [hl] at hlast
        | none =>
          simp only [hl] at hlast
          have ht : truthy result = false := by
            by_contra hne
            simp at hne
            simp [hne] at hlast
          simp only [ht, Bool.not_false, if_true] at h
          exact ih _ _ h hl

/-- After the validators of one path, `errors` holds at that path the last
non-falsy result. -/
theorem runValidators_last (env : Env σ) (params : Val) (path : Path) (value : Val)
    (hp : path ≠ []) (chain : List Val) (errors : Val) (s : σ) (out : Val) (s' : σ) (res : Val)
    (h : runValidators env params path value chain errors s = (.ok out, s'))
    (hlast : lastFailing env params value chain s = some res) :
    getIn out path = res ∧ noArrayAlong out path = true ∧ isPlainObject out = true := by
  induction chain generalizing errors s with
  | nil => simp [lastFailing] at hlast
  | cons f fs ih =>
    simp only [runValidators] at h
    simp only [lastFailing] at hlast
    cases hr : invoke env f [value, params] s with
    | mk r s1 =>
      cases r with
      | error e => simp [hr] at h
      | ok result =>
        simp only [hr] at h hlast
        cases hl : lastFailing env params value fs s1 with
        | some later =>
          simp only [hl, Option.some.injEq] at hlast
          subst hlast
          by_cases ht : truthy result = true
          · simp only [ht, Bool.not_true, Bool.false_eq_true, if_false] at h
            exact ih _ _ h hl
          · simp at ht
            simp only [ht, Bool.not_false, if_true] at h
            exact ih _ _ h hl
        | none =>
          simp only [hl] at hlast
          by_cases ht : truthy result = true
          · simp only [ht, if_true, Option.some.injEq] at hlast
            subst hlast
            simp only [ht, Bool.not_true, Bool.false_eq_true, if_false] at h
            rw [setIn_orEmpty _ _ _ hp] at h
            have := runValidators_none env params path value fs _ _ _ _ h hl
            subst this
            exact ⟨getIn_place_self _ _ _, noArrayAlong_place_self _ _ _,
              isPlainObject_place _ _ _ hp⟩
          · simp [ht] at hlast

/-- The error at the path of a property, after `validate`. -/
theorem validateLoop_read (env : Env σ) (data params : Val) (props pre post : List Property)
    (r : Property) (hsplit : props = pre ++ r :: post)
    (hne : ∀ q ∈ props, q.path ≠ [])
    (hpair : props.Pairwise (fun a b => Incomparable a.path b.path))
    (errors : Val) (s : σ) (out : Val) (s' : σ)
    (h : validateLoop env data params props errors s = (.ok out, s')) (res : Val)
    (hlast : lastFailing env params (getIn data r.path) r.validators
      (validateLoop env data params pre errors s).2 = some res) :
    getIn out r.path = res ∧ isPlainObject out = true := by
  have hinc := pairwise_split props pre post r hsplit hpair
  have hrne : r.path ≠ [] := hne r (by rw [hsplit]; simp)
  have hpost : ∀ q ∈ post, q.path ≠ [] := fun q hq => hne q (by rw [hsplit]; simp [hq])
  subst hsplit
  rw [validateLoop_append] at h
  cases hpre : validateLoop env data params pre errors s with
  | mk r1 s1 =>
    cases r1 with
    | error e => simp [hpre] at h
    | ok errors1 =>
      simp only [hpre] at h hlast
      simp only [validateLoop] at h
      cases hr : runValidators env params r.path (getIn data r.path) r.validators errors1 s1 with
      | mk r2 s2 =>
        cases r2 with
        | error e => simp [hr] at h
        | ok errors2 =>
          simp only [hr] at h
          obtain ⟨hget, hspine, hplain⟩ := runValidators_last env params r.path _ hrne _ _ _ _ _
            res hr hlast
          obtain ⟨ws, hws, hout⟩ := validateLoop_writes env data params post hpost _ _ _ _ h
          subst hout
          have hframe := applyWrites_frame ws errors2 r.path hspine (by
            intro w hw
            obtain ⟨q, hq, hwq⟩ := hws w hw
            rw [hwq]
            exact hinc q hq)
          exact ⟨hframe.1.trans hget, isPlainObject_applyWrites ws _ hplain⟩

theorem runValidators_pass (env : Env σ) (params : Val) (path : Path) (value : Val)
    (chain : List Val) (errors : Val) (s : σ)
    (hpass : ∀ f ∈ chain, ∀ s, ∃ r s', invoke env f [value, params] s = (.ok r, s') ∧ truthy r = false) :
    (runValidators env params path value chain errors s).1 = .ok errors := by
  induction chain generalizing s with
  | nil => rfl
  | cons f fs ih =>
    obtain ⟨r, s', hr, hf⟩ := hpass f (List.mem_cons_self _ _) s
    simp only [runValidators, hr, hf]
    exact ih s' (fun g hg => hpass g (List.mem_cons_of_mem _ hg))

theorem validateLoop_pass (env : Env σ) (data params : Val) (props : List Property) (errors : Val) (s : σ)
    (hpass : ∀ p ∈ props, ∀ f ∈ p.validators, ∀ s, ∃ r s',
      invoke env f [getIn data p.path, params] s = (.ok r, s') ∧ truthy r = false) :
    (validateLoop env data params props errors s).1 = .ok errors := by
  induction props generalizing s with
  | nil => rfl
  | cons p ps ih =>
    have h := runValidators_pass env params p.path (getIn data p.path) p.validators errors s
      (hpass p (List.mem_cons_self _ _))
    simp only [validateLoop]
    generalize runValidators env params p.path (getIn data p.path) p.validators errors s = r at h
    obtain ⟨r1, s1⟩ := r
    simp only at h
    subst h
    exact ih s1 (fun q hq => hpass q (List.mem_cons_of_mem _ hq))

/-! ## The engines return when the stages return -/

theorem runSanitizers_returns (env : Env σ) (params : Val) (chain : List Val)
    (hret : ∀ f ∈ chain, ∀ v t, ∃ v' t', invoke env f [v, params] t = (.ok v', t'))
    (value : Val) (s : σ) :
    ∃ v' s', runSanitizers env params chain value s = (.ok v', s') := by
  induction chain generalizing value s with
  | nil => exact ⟨value, s, rfl⟩
  | cons f fs ih =>
    obtain ⟨v1, s1, h1⟩ := hret f (List.mem_cons_self _ _) value s
    simp only [runSanitizers, h1]
    exact ih (fun g hg => hret g (List.mem_cons_of_mem _ hg)) v1 s1

theorem sanitizeLoop_returns (env : Env σ) (data params : Val) (props : List Property)
    (hret : ∀ r ∈ props, ∀ f ∈ r.sanitizers, ∀ v t, ∃ v' t',
      invoke env f [v, params] t = (.ok v', t'))
    (acc : Val) (s : σ) :
    ∃ out s', sanitizeLoop env data params props acc s = (.ok out, s') := by
  induction props generalizing acc s with
  | nil => exact ⟨acc, s, rfl⟩
  | cons p ps ih =>
    obtain ⟨v1, s1, h1⟩ := runSanitizers_returns env params p.sanitizers
      (hret p (List.mem_cons_self _ _)) (consolidate (getIn data p.path)) s
    simp only [sanitizeLoop, h1]
    exact ih (fun r hr => hret r (List.mem_cons_of_mem _ hr)) _ s1

theorem runValidators_returns (env : Env σ) (params : Val) (path : Path) (value : Val)
    (chain : List Val)
    (hret : ∀ f ∈ chain, ∀ v t, ∃ v' t', invoke env f [v, params] t = (.ok v', t'))
    (errors : Val) (s : σ) :
    ∃ out s', runValidators env params path value chain errors s = (.ok out, s') := by
  induction chain generalizing errors s with
  | nil => exact ⟨errors, s, rfl⟩
  | cons f fs ih =>
    obtain ⟨v1, s1, h1⟩ := hret f (List.mem_cons_self _ _) value s
    simp only [runValidators, h1]
    split
    · exact ih (fun g hg => hret g (List.mem_cons_of_mem _ hg)) _ s1
    · exact ih (fun g hg => hret g (List.mem_cons_of_mem _ hg)) _ s1

theorem validateLoop_returns (env : Env σ) (data params : Val) (props : List Property)
    (hret : ∀ r ∈ props, ∀ f ∈ r.validators, ∀ v t, ∃ v' t',
      invoke env f [v, params] t = (.ok v', t'))
    (errors : Val) (s : σ) :
    ∃ out s', validateLoop env data params props errors s = (.ok out, s') := by
  induction props generalizing errors s with
  | nil => exact ⟨errors, s, rfl⟩
  | cons p ps ih =>
    obtain ⟨e1, s1, h1⟩ := runValidators_returns env params p.path (getIn data p.path)
      p.validators (hret p (List.mem_cons_self _ _)) errors s
    simp only [validateLoop, h1]
    exact ih (fun r hr => hret r (List.mem_cons_of_mem _ hr)) _ s1

/-! ## Stage faults -/

theorem runSanitizers_append (env : Env σ) (params : Val) (before after : List Val)
    (value : Val) (s : σ) :
    runSanitizers env params (before ++ after) value s
      = match runSanitizers env params before value s with
        | (.ok v, s1) => runSanitizers env params after v s1
        | (.error e, s1) => (.error e, s1) := by
  induction before generalizing value s with
  | nil => rfl
  | cons f fs ih =>
    simp only [List.cons_append, runSanitizers]
    rcases invoke env f [value, params] s with ⟨r, s1⟩
    cases r with
    | error e => rfl
    | ok v => exact ih _ _

theorem runValidators_append (env : Env σ) (params : Val) (path : Path) (value : Val)
    (before after : List Val) (errors : Val) (s : σ) :
    runValidators env params path value (before ++ after) errors s
      = match runValidators env params path value before errors s with
        | (.ok errors1, s1) => runValidators env params path value after errors1 s1
        | (.error e, s1) => (.error e, s1) := by
  induction before generalizing errors s with
  | nil => rfl
  | cons f fs ih =>
    simp only [List.cons_append, runValidators]
    rcases invoke env f [value, params] s with ⟨r, s1⟩
    cases r with
    | error e => rfl
    | ok v =>
      simp only
      split
      · exact ih _ _
      · exact ih _ _

/-- A sanitizer that throws ends `sanitize` with its exception and its state. -/
theorem sanitizeLoop_fault (env : Env σ) (data params : Val) (pre post : List Property)
    (r : Property) (acc : Val) (s : σ) (acc1 : Val) (s1 : σ)
    (hpre : sanitizeLoop env data params pre acc s = (.ok acc1, s1))
    (before after : List Val) (f : Val) (hchain : r.sanitizers = before ++ f :: after)
    (v : Val) (s2 : σ)
    (hbefore : runSanitizers env params before (consolidate (getIn data r.path)) s1 = (.ok v, s2))
    (e : Err) (s3 : σ) (hfault : invoke env f [v, params] s2 = (.error e, s3)) :
    sanitizeLoop env data params (pre ++ r :: post) acc s = (.error e, s3) := by
  rw [sanitizeLoop_append, hpre]
  simp only [sanitizeLoop, hchain, runSanitizers_append, hbefore, runSanitizers, hfault]

/-- A validator that throws ends `validate` with its exception and its state. -/
theorem validateLoop_fault (env : Env σ) (data params : Val) (pre post : List Property)
    (r : Property) (errors : Val) (s : σ) (errors1 : Val) (s1 : σ)
    (hpre : validateLoop env data params pre errors s = (.ok errors1, s1))
    (before after : List Val) (f : Val) (hchain : r.validators = before ++ f :: after)
    (errors2 : Val) (s2 : σ)
    (hbefore : runValidators env params r.path (getIn data r.path) before errors1 s1
      = (.ok errors2, s2))
    (e : Err) (s3 : σ)
    (hfault : invoke env f [getIn data r.path, params] s2 = (.error e, s3)) :
    validateLoop env data params (pre ++ r :: post) errors s = (.error e, s3) := by
  rw [validateLoop_append, hpre]
  simp only [validateLoop, hchain, runValidators_append, hbefore, runValidators, hfault]

/-! ## The calls that validate makes -/

theorem invoke_traced (env : Env σ) (f : Val) (args : List Val) (s : σ) (log : List CallRecord)
    (v : Val) (s1 : σ) (h : invoke env f args s = (.ok v, s1)) :
    ∃ id, f = .func id ∧ invoke env.traced f args (s, log) = (.ok v, (s1, log ++ [(id, args)])) := by
  cases f with
  | func id =>
    refine ⟨id, rfl, ?_⟩
    simp only [invoke] at h
    simp only [invoke, Env.traced, h]
  | _ => simp [invoke] at h

theorem runValidators_traced (env : Env σ) (params : Val) (path : Path) (value : Val)
    (chain : List Val) (errors : Val) (s : σ) (log : List CallRecord) (out : Val) (s' : σ)
    (h : runValidators env params path value chain errors s = (.ok out, s')) :
    ∃ calls : List CallRecord,
      runValidators env.traced params path value chain errors (s, log)
        = (.ok out, (s', log ++ calls))
      ∧ calls.map (fun c => (Val.func c.1, c.2)) = chain.map (fun f => (f, [value, params])) := by
  induction chain generalizing errors s log with
  | nil =>
    simp only [runValidators, Prod.mk.injEq, Except.ok.injEq] at h
    obtain ⟨h1, h2⟩ := h
    subst h1 h2
    exact ⟨[], by simp [runValidators], rfl⟩
  | cons f fs ih =>
    simp only [runValidators] at h
    cases hr : invoke env f [value, params] s with
    | mk r s1 =>
      cases r with
      | error e => simp [hr] at h
      | ok result =>
        simp only [hr] at h
        obtain ⟨id, hid, htr⟩ := invoke_traced env f [value, params] s log result s1 hr
        simp only [runValidators, htr]
        by_cases ht : truthy result = true
        · simp only [ht, Bool.not_true, Bool.false_eq_true, if_false] at h ⊢
          obtain ⟨calls, hc1, hc2⟩ := ih _ _ (log ++ [(id, [value, params])]) h
          refine ⟨(id, [value, params]) :: calls, ?_, ?_⟩
          · rw [hc1]; simp
          · simp [hc2, hid]
        · simp at ht
          simp only [ht, Bool.not_false, if_true] at h ⊢
          obtain ⟨calls, hc1, hc2⟩ := ih _ _ (log ++ [(id, [value, params])]) h
          refine ⟨(id, [value, params]) :: calls, ?_, ?_⟩
          · rw [hc1]; simp
          · simp [hc2, hid]

theorem validateLoop_traced (env : Env σ) (data params : Val) (props : List Property)
    (errors : Val) (s : σ) (log : List CallRecord) (out : Val) (s' : σ)
    (h : validateLoop env data params props errors s = (.ok out, s')) :
    ∃ calls : List CallRecord,
      validateLoop env.traced data params props errors (s, log) = (.ok out, (s', log ++ calls))
      ∧ calls.map (fun c => (Val.func c.1, c.2)) = validatorCalls props data params := by
  induction props generalizing errors s log with
  | nil =>
    simp only [validateLoop, Prod.mk.injEq, Except.ok.injEq] at h
    obtain ⟨h1, h2⟩ := h
    subst h1 h2
    exact ⟨[], by simp [validateLoop], rfl⟩
  | cons p ps ih =>
    simp only [validateLoop] at h
    cases hr : runValidators env params p.path (getIn data p.path) p.validators errors s with
    | mk r s1 =>
      cases r with
      | error e => simp [hr] at h
      | ok errors1 =>
        simp only [hr] at h
        obtain ⟨c1, h1, h2⟩ := runValidators_traced env params p.path _ _ _ _ log _ _ hr
        obtain ⟨c2, h3, h4⟩ := ih _ _ (log ++ c1) h
        refine ⟨c1 ++ c2, ?_, ?_⟩
        · simp only [validateLoop, h1, h3, List.append_assoc]
        · simp [validatorCalls, h2, h4]

/-! ## The chains of a node -/

theorem stockArguments_cons (key : String) (f : Nat) (rest : Registry) (node : Entries) :
    stockArguments ((key, f) :: rest) node
      = match lookup key node with
        | some arg => (f, arg) :: stockArguments rest node
        | none => stockArguments rest node := by
  unfold stockArguments
  cases h : lookup key node <;> simp [List.filterMap_cons, h]

theorem addStockLoop_eq_makeAll (env : Env σ) (thisArg : Val) (node : Entries) (stock : Registry)
    (arr : List Val) :
    addStockLoop env thisArg node stock arr
      = match makeAll env thisArg (stockArguments stock node) with
        | .ok made => .ok (arr ++ made)
        | .error e => .error e := by
  induction stock generalizing arr with
  | nil => simp [addStockLoop, stockArguments, makeAll]
  | cons kf rest ih =>
    obtain ⟨key, f⟩ := kf
    rw [stockArguments_cons]
    simp only [addStockLoop]
    cases hl : lookup key node with
    | none => simp only [ih]
    | some arg =>
      simp only [makeAll]
      cases hf : env.factory f thisArg arg with
      | error e => rfl
      | ok made =>
        simp only [ih]
        cases makeAll env thisArg (stockArguments rest node) with
        | error e => rfl
        | ok more => simp

theorem addCustom_eq (node : Entries) (key : String) (arr : List Val) :
    addCustom node key arr = arr ++ customEntries node key := by
  unfold addCustom customEntries
  split <;> simp_all

theorem collectValidators_eq (env : Env σ) (validates : Registry) (node : Entries) :
    collectValidators env validates node
      = match makeAll env validates.toVal (stockArguments validates node) with
        | .ok made => .ok (made ++ customEntries node "validates" ++ customEntries node "validate")
        | .error e => .error e := by
  unfold collectValidators addStock
  rw [addStockLoop_eq_makeAll]
  cases makeAll env validates.toVal (stockArguments validates node) with
  | error e => rfl
  | ok made => simp [addCustom_eq]

theorem collectSanitizers_eq (env : Env σ) (sanitizes : Registry) (node : Entries) :
    collectSanitizers env sanitizes node
      = match makeAll env sanitizes.toVal (stockArguments sanitizes node) with
        | .ok made => .ok (made ++ customEntries node "sanitizes" ++ customEntries node "sanitize")
        | .error e => .error e := by
  unfold collectSanitizers addStock
  rw [addStockLoop_eq_makeAll]
  cases makeAll env sanitizes.toVal (stockArguments sanitizes node) with
  | error e => rfl
  | ok made => simp [addCustom_eq]

/-- The keys of the calls that `stockArguments` lists are exactly the keys
present in both the registry and the node. -/
theorem mem_stockArguments (stock : Registry) (node : Entries) (f : Nat) (arg : Val) :
    (f, arg) ∈ stockArguments stock node ↔ ∃ key, (key, f) ∈ stock ∧ lookup key node = some arg := by
  unfold stockArguments
  simp only [List.mem_filterMap, Option.map_eq_some', Prod.mk.injEq, Prod.exists]
  constructor
  · rintro ⟨key, f', hmem, arg', hl, hf, ha⟩
    subst hf ha
    exact ⟨key, hmem, hl⟩
  · rintro ⟨key, hmem, hl⟩
    exact ⟨key, f, hmem, arg, hl, rfl, rfl⟩

/-! ## Termination of the compiler -/

theorem forEachKey_mono (create create' : Val → Path → Compiled) (path : Path) (kvs : Entries)
    (hmono : ∀ kv ∈ kvs, ∀ r, create kv.2 (path ++ [kv.1]) = some r →
      create' kv.2 (path ++ [kv.1]) = some r)
    (r : Except Err (List Property)) (h : forEachKey create path kvs = some r) :
    forEachKey create' path kvs = some r := by
  induction kvs generalizing r with
  | nil => simpa [forEachKey] using h
  | cons kv rest ih =>
    obtain ⟨k, c⟩ := kv
    simp only [forEachKey] at h ⊢
    cases hc : create c (path ++ [k]) with
    | none => simp [hc] at h
    | some rc =>
      have hc' := hmono (k, c) (List.mem_cons_self _ _) rc hc
      simp only at hc'
      simp only [hc] at h
      simp only [hc']
      cases rc with
      | error e => exact h
      | ok first =>
        simp only at h ⊢
        cases hr : forEachKey create path rest with
        | none => simp [hr] at h
        | some rr =>
          have hr' := ih (fun kv hkv => hmono kv (List.mem_cons_of_mem _ hkv)) rr hr
          simp only [hr] at h
          simp only [hr']
          exact h

/-- A larger depth bound does not change a result. -/
theorem createProperty_mono (env : Env σ) (validates sanitizes : Registry) :
    ∀ (depth : Nat) (d : Val) (path : Path) (r : Except Err (List Property)),
      createProperty env validates sanitizes depth d path = some r →
      createProperty env validates sanitizes (depth + 1) d path = some r := by
  intro depth
  induction depth with
  | zero => intro d path r h; simp [createProperty] at h
  | succ n ih =>
    intro d path r h
    rw [createProperty_succ] at h ⊢
    cases hu : unwrapArrayOf d with
    | error e => simpa [hu] using h
    | ok ua =>
      obtain ⟨arrayOf, inner⟩ := ua
      simp only [hu] at h ⊢
      cases he : toExplicit inner arrayOf with
      | error e => simpa [he] using h
      | ok explicit =>
        simp only [he] at h ⊢
        by_cases hplain : isPlainObject explicit = true
        · simp only [hplain, Bool.not_true, Bool.false_eq_true, if_false] at h ⊢
          cases hv : collectValidators env validates (entries explicit) with
          | error e => simpa [hv] using h
          | ok vs =>
            simp only [hv] at h ⊢
            cases hs : collectSanitizers env sanitizes (entries explicit) with
            | error e => simpa [hs] using h
            | ok ss =>
              simp only [hs] at h ⊢
              split at h
              · rename_i hcond
                simp only [hcond, if_true]
                exact forEachKey_mono _ _ path _ (fun kv _ r hr => ih kv.2 _ r hr) r h
              · rename_i hcond
                simp only [hcond, if_false]
                exact h
        · simp only [hplain, Bool.not_false, if_true] at h ⊢
          simpa using h

theorem createProperty_mono_le (env : Env σ) (validates sanitizes : Registry)
    (depth depth' : Nat) (hle : depth ≤ depth') (d : Val) (path : Path)
    (r : Except Err (List Property))
    (h : createProperty env validates sanitizes depth d path = some r) :
    createProperty env validates sanitizes depth' d path = some r := by
  induction hle with
  | refl => exact h
  | step _ ih => exact createProperty_mono env validates sanitizes _ d path r ih

/-- A group node that the compiler descends into, with `type` a stock key: the
node is a plain mapping as the caller wrote it and its children are smaller. -/
theorem group_is_node_itself (env : Env σ) (validates sanitizes : Registry)
    (htype : "type" ∈ validates.keys ∨ "type" ∈ sanitizes.keys) (d : Val) (kvs : Entries)
    (he : toExplicit d false = .ok (.obj kvs))
    (hv : collectValidators env validates kvs = .ok [])
    (hs : collectSanitizers env sanitizes kvs = .ok []) :
    d = .obj kvs ∧ ∀ kv ∈ kvs, sizeOf kv.2 < sizeOf d := by
  have hty := group_has_no_type env validates sanitizes htype kvs [] [] hv hs rfl
  have hobj : d = .obj kvs := by
    rcases toExplicit_obj_cases d false kvs he with h | ⟨x, hx⟩
    · exact h
    · rw [hty] at hx; cases hx
  subst hobj
  exact ⟨rfl, fun kv hkv => sizeOf_child_lt kvs kv.1 kv.2 hkv⟩

/-- The node built from a bare type function is terminal when `type` is a stock
key: one record at the path of the node, or an exception. -/
theorem createProperty_bare_type (env : Env σ) (validates sanitizes : Registry)
    (htype : "type" ∈ validates.keys ∨ "type" ∈ sanitizes.keys) (depth : Nat) (T : Nat)
    (path : Path) :
    (∃ e, createProperty env validates sanitizes (depth + 1) (.func T) path = some (.error e))
    ∨ ∃ vs ss, createProperty env validates sanitizes (depth + 1) (.func T) path
        = some (.ok [{ path := path, validators := vs, sanitizers := ss }]) := by
  rw [createProperty_succ]
  simp only [unwrapArrayOf, toExplicit, isPlainObject, entries, Bool.not_true,
    Bool.false_eq_true, if_false]
  cases hv : collectValidators env validates [("type", explicitType (Val.func T) false)] with
  | error e => exact Or.inl ⟨e, rfl⟩
  | ok vs =>
    cases hs : collectSanitizers env sanitizes [("type", explicitType (Val.func T) false)] with
    | error e => exact Or.inl ⟨e, rfl⟩
    | ok ss =>
      have hpos : ss.length + vs.length ≠ 0 := by
        intro h0
        have := group_has_no_type env validates sanitizes htype _ vs ss hv hs h0
        simp [lookup] at this
      right
      exact ⟨vs, ss, by simp [hpos]⟩

/-! ## Array-wrapped nodes without functions -/

theorem createProperty_empty_arrayOf (env : Env σ) (validates sanitizes : Registry) (depth : Nat)
    (inner : Val) (explicit : Entries) (path : Path)
    (he : toExplicit inner true = .ok (.obj explicit))
    (hv : collectValidators env validates explicit = .ok [])
    (hs : collectSanitizers env sanitizes explicit = .ok []) :
    createProperty env validates sanitizes (depth + 1) (.arr [inner]) path
      = some (.error (.definition
          (if explicit.isEmpty then "Malformed definition: Definition passed with no properties."
           else "Nesting arrays of properties not yet implemented."))) := by
  rw [createProperty_succ]
  simp only [unwrapArrayOf, he, isPlainObject, entries, hv, hs]
  cases explicit with
  | nil => simp
  | cons kv rest => simp

theorem reaches_empty_not_compiled (env : Env σ) (validates sanitizes : Registry) (d : Val)
    (hbad : ReachesEmptyArrayOf env validates sanitizes d) :
    ∀ depth path ps, createProperty env validates sanitizes depth d path ≠ some (.ok ps) := by
  induction hbad with
  | atNode inner explicit he hv hs =>
    intro depth path ps
    cases depth with
    | zero => simp [createProperty]
    | succ depth =>
      rw [createProperty_empty_arrayOf env validates sanitizes depth inner explicit path he hv hs]
      simp
  | underGroup node explicit key child hexplicit hv hs hchild _ ih =>
    intro depth path ps
    cases depth with
    | zero => simp [createProperty]
    | succ depth =>
      have hne : explicit ≠ [] := List.ne_nil_of_mem hchild
      rw [createProperty_group env validates sanitizes depth (.obj node) explicit path hexplicit rfl
        hv hs hne]
      intro h
      obtain ⟨qs, hq⟩ := forEachKey_ok_child _ path explicit ps h key child hchild
      exact ih depth _ qs hq

/-! ## Distinct paths -/

theorem Incomparable.ne {p q : Path} (h : Incomparable p q) : p ≠ q := by
  intro hpq
  subst hpq
  exact h.1 (List.prefix_refl _)

theorem pairwise_paths_index (props : List Property)
    (hpair : props.Pairwise (fun a b => Incomparable a.path b.path))
    (i j : Nat) (hi : i < props.length) (hj : j < props.length) (hij : i ≠ j) :
    Incomparable (props.get ⟨i, hi⟩).path (props.get ⟨j, hj⟩).path := by
  rw [List.pairwise_iff_get] at hpair
  rcases Nat.lt_or_gt_of_ne hij with h | h
  · exact hpair ⟨i, hi⟩ ⟨j, hj⟩ h
  · exact (hpair ⟨j, hj⟩ ⟨i, hi⟩ h).symm

/-! ## Leaves of the object that sanitize returns -/

theorem hasPath_below_isPlainObject (o : Val) (p : Path) (k : String) (ks : Path)
    (h : hasPath o (p ++ k :: ks) = true) : isPlainObject (getIn o p) = true := by
  induction p generalizing o with
  | nil =>
    cases o with
    | obj kvs => rfl
    | _ => simp [hasPath] at h
  | cons a p ih =>
    cases o with
    | obj kvs =>
      simp only [List.cons_append, hasPath] at h
      simp only [getIn]
      cases hl : lookup a kvs with
      | none => simp [hl] at h
      | some c =>
        simp only [hl] at h
        exact ih c h
    | _ => simp [hasPath] at h

theorem setIn_isPlainObject (o : Val) (p : Path) (v : Val) (h : isPlainObject o = true) :
    isPlainObject (setIn o p v) = true := by
  cases p with
  | nil => exact h
  | cons k ks => rfl

theorem applyWrites_isPlainObject (ws : List (Path × Val)) (acc : Val)
    (h : isPlainObject acc = true) : isPlainObject (applyWrites ws acc) = true := by
  induction ws generalizing acc with
  | nil => exact h
  | cons w ws ih =>
    simp only [applyWrites, List.foldl_cons]
    exact ih _ (setIn_isPlainObject acc w.1 w.2 h)

theorem sanitize_isPlainObject (env : Env σ) (schema : Schema) (data params : Val) (s : σ)
    (out : Val) (s' : σ) (hrun : Schema.sanitize env schema data params s = (.ok out, s')) :
    isPlainObject out = true := by
  obtain ⟨ws, _, hout⟩ := sanitizeLoop_writes env _ _ _ _ _ _ _ hrun
  subst hout
  exact applyWrites_isPlainObject ws _ rfl

/-- Paths of the output that no declared path is comparable with are absent,
and when no chain returned a mapping the leaves of the output are the declared
paths. -/
theorem sanitize_leaves (env : Env σ) (validates sanitizes : Registry) (depth : Nat)
    (definition options : Val) (schema : Schema) (hwf : definition.wf = true)
    (hnew : Schema.new env validates sanitizes depth definition options = some (.ok schema))
    (data params : Val) (s : σ) (out : Val) (s' : σ)
    (hrun : Schema.sanitize env schema data params s = (.ok out, s')) :
    (∀ q, q ≠ [] → (∀ r ∈ schema.properties, Incomparable q r.path) → hasPath out q = false)
    ∧ ((∀ r ∈ schema.properties, isPlainObject (getIn out r.path) = false) →
        ∀ q, hasPath out q = true → isPlainObject (getIn out q) = false →
          ∃ r ∈ schema.properties, r.path = q) := by
  obtain ⟨hall, hinv⟩ := sanitize_paths env validates sanitizes depth definition options schema
    hwf hnew data params s out s' hrun
  constructor
  · intro q hq hinc
    cases hh : hasPath out q with
    | false => rfl
    | true =>
      rcases hinv q hh with h0 | ⟨r, hr, hcmp⟩
      · exact absurd h0 hq
      · have := hinc r hr
        rcases hcmp with h1 | h1
        · exact absurd h1 this.1
        · exact absurd h1 this.2
  · intro hleaf q hq hqleaf
    rcases hinv q hq with h0 | ⟨r, hr, hcmp⟩
    · subst h0
      have := sanitize_isPlainObject env schema data params s out s' hrun
      simp only [getIn_nil] at hqleaf
      rw [this] at hqleaf
      exact absurd hqleaf (by simp)
    · rcases hcmp with ⟨t, ht⟩ | ⟨t, ht⟩
      · cases t with
        | nil => exact ⟨r, hr, by simpa using ht.symm⟩
        | cons k ks =>
          have hr2 := hall r hr
          rw [← ht] at hr2
          have := hasPath_below_isPlainObject out q k ks hr2
          rw [this] at hqleaf
          exact absurd hqleaf (by simp)
      · cases t with
        | nil => exact ⟨r, hr, by simpa using ht⟩
        | cons k ks =>
          rw [← ht] at hq
          have := hasPath_below_isPlainObject out r.path k ks hq
          rw [hleaf r hr] at this
          exact absurd this (by simp)

/-! ## The first exception of a loop over the keys -/

theorem forEachKey_first_error (create : Val → Path → Compiled) (path : Path)
    (pre post : Entries) (key : String) (child : Val) (e : Err)
    (hpre : ∀ kv ∈ pre, ∃ ps, create kv.2 (path ++ [kv.1]) = some (.ok ps))
    (hchild : create child (path ++ [key]) = some (.error e)) :
    forEachKey create path (pre ++ (key, child) :: post) = some (.error e) := by
  induction pre with
  | nil => simp [forEachKey, hchild]
  | cons kv rest ih =>
    obtain ⟨k, c⟩ := kv
    obtain ⟨ps, hps⟩ := hpre (k, c) (List.mem_cons_self _ _)
    have hrest := ih (fun kv hkv => hpre kv (List.mem_cons_of_mem _ hkv))
    simp only at hps
    simp only [List.cons_append, forEachKey, hps, List.append_eq, hrest]

theorem Schema.new_first_error (env : Env σ) (validates sanitizes : Registry) (depth : Nat)
    (pre post : Entries) (key : String) (child : Val) (options : Val) (opts : Options) (e : Err)
    (ho : Schema.makeOptions options = .ok opts)
    (hpre : ∀ kv ∈ pre, ∃ ps,
      createProperty env validates sanitizes depth kv.2 [kv.1] = some (.ok ps))
    (hchild : createProperty env validates sanitizes depth child [key] = some (.error e)) :
    Schema.new env validates sanitizes depth (.obj (pre ++ (key, child) :: post)) options
      = some (.error e) := by
  have h := forEachKey_first_error (createProperty env validates sanitizes depth) [] pre post
    key child e (by simpa using hpre) (by simpa using hchild)
  simp only [Schema.new, ho, isPlainObject, entries, h]
  simp

end

/-! ## The service sanitizer -/

section Service
variable {ι : Type} [DecidableEq ι]

theorem arrayIndexOf_ge (id : ι) (arr : List ι) : -1 ≤ arrayIndexOf id arr := by
  induction arr with
  | nil => simp [arrayIndexOf]
  | cons x rest ih =>
    simp only [arrayIndexOf]
    split
    · omega
    · split <;> omega

theorem arrayIndexOf_neg_iff (id : ι) (arr : List ι) : arrayIndexOf id arr < 0 ↔ id ∉ arr := by
  induction arr with
  | nil => simp [arrayIndexOf]
  | cons x rest ih =>
    have hge := arrayIndexOf_ge id rest
    simp only [arrayIndexOf, List.mem_cons, not_or]
    by_cases hx : x = id
    · simp [hx]
    · have hx' : ¬ id = x := fun h => hx h.symm
      simp only [hx, if_false, hx', not_false_eq_true, true_and]
      rw [← ih]
      split <;> omega

theorem eraseIdx_arrayIndexOf (id : ι) (arr : List ι) (h : id ∈ arr) :
    arr.eraseIdx (arrayIndexOf id arr).toNat = arr.erase id := by
  induction arr with
  | nil => simp at h
  | cons x rest ih =>
    by_cases hx : x = id
    · subst hx
      simp [arrayIndexOf]
    · have hmem : id ∈ rest := by
        rcases List.mem_cons.mp h with h1 | h1
        · exact absurd h1.symm hx
        · exact h1
      have hnn : ¬ arrayIndexOf id rest < 0 := by
        rw [arrayIndexOf_neg_iff]; exact fun hn => hn hmem
      have hto : (arrayIndexOf id rest + 1).toNat = (arrayIndexOf id rest).toNat + 1 := by omega
      simp only [arrayIndexOf, hx, if_false, hnn, hto, List.eraseIdx_cons_succ, ih hmem]
      rw [List.erase_cons_tail]
      simpa using hx

theorem equalsIndexOf_eq (equals : ι → ι → Bool) (hlawful : ∀ a b, equals a b = true ↔ a = b)
    (id : ι) (arr : List ι) : equalsIndexOf equals id arr = arrayIndexOf id arr := by
  induction arr with
  | nil => rfl
  | cons x rest ih =>
    simp only [equalsIndexOf, arrayIndexOf, ih]
    by_cases hx : x = id
    · simp [hx, (hlawful id id).mpr rfl]
    · have : equals x id = false := by
        cases he : equals x id with
        | false => rfl
        | true => exact absurd ((hlawful x id).mp he) hx
      simp [hx, this]

theorem indexOf_eq (equals : Option (ι → ι → Bool))
    (hlawful : ∀ eq, equals = some eq → ∀ a b, eq a b = true ↔ a = b) (id : ι) (arr : List ι) :
    indexOf equals id arr = arrayIndexOf id arr := by
  cases equals with
  | none => rfl
  | some eq => exact equalsIndexOf_eq eq (hlawful eq rfl) id arr

theorem firstOccurrences_filter (p : ι → Bool) (l : List ι) :
    (firstOccurrences l).filter p = firstOccurrences (l.filter p) := by
  induction l with
  | nil => rfl
  | cons x rest ih =>
    by_cases hp : p x = true
    · simp only [firstOccurrences, List.filter_cons, hp, if_true]
      rw [← ih, List.filter_filter, List.filter_filter]
      congr 1
      apply List.filter_congr
      intro y _
      exact Bool.and_comm _ _
    · have hp' : p x = false := by simpa using hp
      simp only [firstOccurrences, List.filter_cons, hp', Bool.false_eq_true, if_false]
      rw [← ih, List.filter_filter]
      apply List.filter_congr
      intro y _
      by_cases hy : y = x
      · subst hy; simp [hp']
      · simp [hy]

theorem mem_firstOccurrences (l : List ι) (x : ι) : x ∈ firstOccurrences l ↔ x ∈ l := by
  induction l with
  | nil => simp [firstOccurrences]
  | cons y rest ih =>
    simp only [firstOccurrences, List.mem_cons, List.mem_filter, ih, decide_eq_true_eq]
    constructor
    · rintro (h | ⟨h, _⟩)
      · exact Or.inl h
      · exact Or.inr h
    · intro h
      by_cases hxy : x = y
      · exact Or.inl hxy
      · rcases h with h | h
        · exact Or.inl h
        · exact Or.inr ⟨h, hxy⟩

theorem nodup_firstOccurrences (l : List ι) : (firstOccurrences l).Nodup := by
  induction l with
  | nil => simp [firstOccurrences]
  | cons y rest ih =>
    simp only [firstOccurrences, List.nodup_cons, List.mem_filter, decide_eq_true_eq]
    exact ⟨fun h => h.2 rfl, ih.filter _⟩

/-- The loop of the service sanitizer, for documents with pairwise distinct
ids. -/
theorem serviceLoop_eq (equals : Option (ι → ι → Bool))
    (hlawful : ∀ eq, equals = some eq → ∀ a b, eq a b = true ↔ a = b)
    (ids all output : List ι) (hall : all.Nodup) :
    serviceLoop equals ids all output
      = output ++ firstOccurrences (ids.filter fun id => decide (id ∈ all)) := by
  induction ids generalizing all output with
  | nil => simp [serviceLoop, firstOccurrences]
  | cons id rest ih =>
    simp only [serviceLoop, indexOf_eq equals hlawful]
    by_cases hmem : id ∈ all
    · have hnn : ¬ arrayIndexOf id all < 0 := by
        rw [arrayIndexOf_neg_iff]; exact fun hn => hn hmem
      simp only [hnn, if_false, eraseIdx_arrayIndexOf id all hmem]
      rw [ih (all.erase id) (output ++ [id]) (hall.erase id)]
      simp only [List.filter_cons, hmem, decide_True, if_true, firstOccurrences,
        List.append_assoc, List.singleton_append]
      rw [firstOccurrences_filter, List.filter_filter]
      congr 3
      apply List.filter_congr
      intro y _
      simp only [hall.mem_erase_iff, Bool.decide_and]
    · have hneg : arrayIndexOf id all < 0 := (arrayIndexOf_neg_iff id all).mpr hmem
      simp only [hneg, if_true]
      rw [ih all output hall]
      simp [List.filter_cons, hmem]

end Service

/-! ## The claims -/

/-- Claim C1, counterexample. The schema `{age: {sanitize: orTwenty}}` declares
the single path `age`; on the input `{age: {evil: 1}}` the sanitizer returns
the mapping it was given, and the object that `sanitize` returns has the leaf
path `age.evil`, which is not in the property list. -/
theorem sanitize_passes_nested_fields :
    Schema.new Demo.env [] [] 1 (.obj [("age", .obj [("sanitize", .func 2)])]) .undefined
      = some (.ok { options := DEFAULT_OPTIONS, properties :=
          [{ path := ["age"], validators := [], sanitizers := [.func 2] }] })
    ∧ Schema.sanitize Demo.env { options := DEFAULT_OPTIONS, properties :=
          [{ path := ["age"], validators := [], sanitizers := [.func 2] }] }
        (.obj [("age", .obj [("evil", .num 1)])]) .undefined ()
      = (.ok (.obj [("age", .obj [("evil", .num 1)])]), ())
    ∧ hasPath (.obj [("age", .obj [("evil", .num 1)])]) ["age", "evil"] = true
    ∧ getIn (.obj [("age", .obj [("evil", .num 1)])]) ["age", "evil"] = .num 1
    ∧ ∀ r ∈ [({ path := ["age"], validators := [], sanitizers := [.func 2] } : Property)],
        r.path ≠ ["age", "evil"] := by
  refine ⟨rfl, rfl, rfl, rfl, ?_⟩
  intro r hr
  simp only [List.mem_singleton] at hr
  subst hr
  simp

/-- Claim C1, amended. For a Schema built from a well-formed definition and any
input: when `sanitize` returns, the object it returns has an entry at the
path of every compiled property; every entry it has lies on the way to, at,
or inside the value stored at the path of a compiled property; it has no
entry at a path that is comparable with no declared path, so fields of the
input that the schema does not cover are not passed on; and when no value
stored at a declared path is a mapping, the leaves of the object (the entries
whose value is not a mapping) are exactly at the declared paths. Entries
inside a mapping that a sanitizer chain returned are kept as they are. And
`sanitize` does return when every sanitizer of the schema returns. -/
theorem sanitize_output_has_declared_paths_only {σ : Type} (env : Env σ)
    (validates sanitizes : Registry) (depth : Nat)
    (definition options : Val) (schema : Schema) (hwf : definition.wf = true)
    (hnew : Schema.new env validates sanitizes depth definition options = some (.ok schema))
    (data params : Val) (s : σ) :
    (∀ out s', Schema.sanitize env schema data params s = (.ok out, s') →
      (∀ r ∈ schema.properties, hasPath out r.path = true)
      ∧ (∀ q, hasPath out q = true →
          q = [] ∨ ∃ r ∈ schema.properties, q <+: r.path ∨ r.path <+: q)
      ∧ (∀ q, q ≠ [] → (∀ r ∈ schema.properties, Incomparable q r.path) →
          hasPath out q = false)
      ∧ ((∀ r ∈ schema.properties, isPlainObject (getIn out r.path) = false) →
          ∀ q, hasPath out q = true → isPlainObject (getIn out q) = false →
            ∃ r ∈ schema.properties, r.path = q))
    ∧ ((∀ r ∈ schema.properties, ∀ f ∈ r.sanitizers, ∀ v t, ∃ v' t',
          invoke env f [v, orEmptyObject params] t = (.ok v', t')) →
        ∃ out s', Schema.sanitize env schema data params s = (.ok out, s')) :=
  ⟨fun out s' hrun =>
      have hpaths := sanitize_paths env validates sanitizes depth definition options schema hwf
        hnew data params s out s' hrun
      have hleaves := sanitize_leaves env validates sanitizes depth definition options schema hwf
        hnew data params s out s' hrun
      ⟨hpaths.1, hpaths.2, hleaves.1, hleaves.2⟩,
    fun hret => sanitizeLoop_returns env _ _ schema.properties hret _ s⟩

/-- Witness of claim C1: a schema with the paths `age` and `address.city`, an input
with `age` and a field `extra` that the schema does not declare; the output
has both declared paths, nothing at `extra`, and its leaves are at the
declared paths. -/
theorem sanitize_output_has_declared_paths_only_witness :
    (∀ r ∈ [({ path := ["age"], validators := [], sanitizers := [.func 1, .func 2] } : Property),
            { path := ["address", "city"], validators := [], sanitizers := [.func 2] }],
        hasPath (.obj [("age", .num 10), ("address", .obj [("city", .num 20)])]) r.path = true)
    ∧ (∀ q, hasPath (.obj [("age", .num 10), ("address", .obj [("city", .num 20)])]) q = true →
        q = [] ∨ ∃ r ∈ [({ path := ["age"], validators := [],
                            sanitizers := [.func 1, .func 2] } : Property),
            { path := ["address", "city"], validators := [], sanitizers := [.func 2] }],
          q <+: r.path ∨ r.path <+: q)
    ∧ hasPath (.obj [("age", .num 10), ("address", .obj [("city", .num 20)])]) ["extra"] = false
    ∧ (∀ q, hasPath (.obj [("age", .num 10), ("address", .obj [("city", .num 20)])]) q = true →
        isPlainObject (getIn (.obj [("age", .num 10), ("address", .obj [("city", .num 20)])]) q)
          = false →
        ∃ r ∈ [({ path := ["age"], validators := [],
                  sanitizers := [.func 1, .func 2] } : Property),
            { path := ["address", "city"], validators := [], sanitizers := [.func 2] }],
          r.path = q) :=
  have h := (sanitize_output_has_declared_paths_only Demo.env [] [] 2
    (.obj [("age", .obj [("sanitizes", .arr [.func 1, .func 2])]),
           ("address", .obj [("city", .obj [("sanitize", .func 2)])])])
    .undefined
    { options := DEFAULT_OPTIONS, properties :=
        [{ path := ["age"], validators := [], sanitizers := [.func 1, .func 2] },
         { path := ["address", "city"], validators := [], sanitizers := [.func 2] }] }
    rfl rfl
    (.obj [("age", .num 12), ("extra", .bool true)]) .undefined ()).1
    (.obj [("age", .num 10), ("address", .obj [("city", .num 20)])]) () rfl
  ⟨h.1, h.2.1,
   h.2.2.1 ["extra"] (by simp) (by
     intro r hr
     simp only [List.mem_cons, List.mem_singleton, List.not_mem_nil, or_false] at hr
     rcases hr with rfl | rfl <;> simp [Incomparable]),
   h.2.2.2 (by
     intro r hr
     simp only [List.mem_cons, List.mem_singleton, List.not_mem_nil, or_false] at hr
     rcases hr with rfl | rfl <;> rfl)⟩

/-- Claim C2. For a Schema built from a well-formed definition and any input:
when `validate` returns, the value of the returned structure at the path of a
property one of whose validators returned a non-falsy result is the result of
the last validator of that chain that did so (earlier results at that path
are overwritten), and the returned structure is a mapping; and `validate`
does return when every validator of the schema returns. -/
theorem validate_keeps_last_failing_result {σ : Type} (env : Env σ)
    (validates sanitizes : Registry) (depth : Nat)
    (definition options : Val) (schema : Schema) (hwf : definition.wf = true)
    (hnew : Schema.new env validates sanitizes depth definition options = some (.ok schema))
    (data params : Val) (s : σ) :
    (∀ errors s', Schema.validate env schema data params s = (.ok errors, s') →
      ∀ (pre post : List Property) (r : Property), schema.properties = pre ++ r :: post →
      ∀ res, lastFailing env (orEmptyObject params) (getIn (orEmptyObject data) r.path)
          r.validators
          (validateLoop env (orEmptyObject data) (orEmptyObject params) pre .null s).2
          = some res →
        getIn errors r.path = res ∧ isPlainObject errors = true)
    ∧ ((∀ r ∈ schema.properties, ∀ f ∈ r.validators, ∀ v t, ∃ v' t',
          invoke env f [v, orEmptyObject params] t = (.ok v', t')) →
        ∃ errors s', Schema.validate env schema data params s = (.ok errors, s')) :=
  ⟨fun errors s' hrun pre post r hsplit res hlast =>
      validateLoop_read env _ _ schema.properties pre post r hsplit
        (Schema.new_paths env validates sanitizes depth definition options schema hwf hnew).1
        (Schema.new_paths env validates sanitizes depth definition options schema hwf hnew).2
        .null s errors s' hrun res hlast,
    fun hret => validateLoop_returns env _ _ schema.properties hret _ s⟩

/-- Witness of claim C2: the chain `[required, invalid, null]` at `a.b` on the
input `{}`; the error kept is the one of the second validator. -/
theorem validate_keeps_last_failing_result_witness :
    getIn (.obj [("a", .obj [("b", .str "invalid")])]) ["a", "b"] = .str "invalid"
      ∧ isPlainObject (.obj [("a", .obj [("b", .str "invalid")])]) = true :=
  (validate_keeps_last_failing_result Demo.env [] [] 3
    (.obj [("a", .obj [("b", .obj [("validates", .arr [.func 3, .func 5, .func 4])])])])
    .undefined
    { options := DEFAULT_OPTIONS, properties :=
        [{ path := ["a", "b"], validators := [.func 3, .func 5, .func 4], sanitizers := [] }] }
    rfl rfl (.obj []) .undefined ()).1 (.obj [("a", .obj [("b", .str "invalid")])]) () rfl
    [] [] { path := ["a", "b"], validators := [.func 3, .func 5, .func 4], sanitizers := [] }
    rfl (.str "invalid") rfl

/-- Claim C3. When every validator of every property returns a falsy result
on the value read at its path, `validate` returns `null`. -/
theorem validate_null_of_all_pass {σ : Type} (env : Env σ) (schema : Schema)
    (data params : Val)
    (hpass : ∀ p ∈ schema.properties, ∀ f ∈ p.validators, ∀ s, ∃ r s',
      invoke env f [getIn (orEmptyObject data) p.path, orEmptyObject params] s = (.ok r, s')
        ∧ truthy r = false)
    (s : σ) :
    (Schema.validate env schema data params s).1 = .ok .null :=
  validateLoop_pass env _ _ _ _ s hpass

/-- Witness of claim C3: `age` is present, `required` and the validator that
returns `null` both pass. -/
theorem validate_null_of_all_pass_witness :
    (Schema.validate Demo.env
      { options := DEFAULT_OPTIONS,
        properties := [{ path := ["age"], validators := [.func 3, .func 4], sanitizers := [] }] }
      (.obj [("age", .num 5)]) .undefined ()).1 = .ok .null :=
  validate_null_of_all_pass Demo.env _ _ _
    (by
      intro p hp f hf s
      simp only [List.mem_singleton] at hp
      subst hp
      simp only [List.mem_cons, List.mem_singleton, List.not_mem_nil, or_false] at hf
      rcases hf with hf | hf
      · subst hf
        exact ⟨.bool false, (), rfl, rfl⟩
      · subst hf
        exact ⟨.null, (), rfl, rfl⟩) ()

/-- Claim C4, counterexample. With a `type` factory that records the argument
it is called with, `{tags: [String]}` and `{tags: {type: [String]}}` compile
to different property lists: the first hands `{func: String, arrayOf: true}`
to the factory, the second the array `[String]` itself. -/
theorem type_array_wrapped_differs :
    Schema.new Demo.recording [("type", 4)] [] 2 (.obj [("tags", .arr [Demo.StringT])])
        .undefined
      = some (.ok { options := DEFAULT_OPTIONS, properties :=
          [{ path := ["tags"],
             validators := [.arr [.num 4, .obj [("type", .func 4)],
               explicitType Demo.StringT true]],
             sanitizers := [] }] })
    ∧ Schema.new Demo.recording [("type", 4)] [] 2
        (.obj [("tags", .obj [("type", .arr [Demo.StringT])])]) .undefined
      = some (.ok { options := DEFAULT_OPTIONS, properties :=
          [{ path := ["tags"],
             validators := [.arr [.num 4, .obj [("type", .func 4)], .arr [Demo.StringT]]],
             sanitizers := [] }] })
    ∧ Schema.new Demo.recording [("type", 4)] [] 2 (.obj [("tags", .arr [Demo.StringT])])
        .undefined
      ≠ Schema.new Demo.recording [("type", 4)] [] 2
        (.obj [("tags", .obj [("type", .arr [Demo.StringT])])]) .undefined := by
  refine ⟨rfl, rfl, ?_⟩
  intro h
  have h1 : Schema.new Demo.recording [("type", 4)] [] 2 (.obj [("tags", .arr [Demo.StringT])])
        .undefined
      = some (.ok { options := DEFAULT_OPTIONS, properties :=
          [{ path := ["tags"],
             validators := [.arr [.num 4, .obj [("type", .func 4)],
               explicitType Demo.StringT true]],
             sanitizers := [] }] }) := rfl
  have h2 : Schema.new Demo.recording [("type", 4)] [] 2
        (.obj [("tags", .obj [("type", .arr [Demo.StringT])])]) .undefined
      = some (.ok { options := DEFAULT_OPTIONS, properties :=
          [{ path := ["tags"],
             validators := [.arr [.num 4, .obj [("type", .func 4)], .arr [Demo.StringT]]],
             sanitizers := [] }] }) := rfl
  rw [h1, h2] at h
  simp [explicitType] at h

/-- Claim C4, amended. For every type function `T`, key `p`, stock registries
and options: `{p: T}`, `{p: {type: T}}` and `{p: {type: {func: T, arrayOf:
false}}}` give the same result of construction; `{p: [T]}` and `{p: [{type:
T}]}` give the same result; and when `type` is a stock key, `{p: [T]}` and
`{p: {type: {func: T, arrayOf: true}}}` give the same result. -/
theorem definition_equivalence {σ : Type} (env : Env σ) (validates sanitizes : Registry)
    (depth : Nat) (p : String) (T : Nat) (options : Val) :
    (Schema.new env validates sanitizes depth (.obj [(p, .func T)]) options
        = Schema.new env validates sanitizes depth (.obj [(p, .obj [("type", .func T)])]) options
      ∧ Schema.new env validates sanitizes depth (.obj [(p, .func T)]) options
        = Schema.new env validates sanitizes depth
            (.obj [(p, .obj [("type", explicitType (.func T) false)])]) options)
    ∧ Schema.new env validates sanitizes depth (.obj [(p, .arr [.func T])]) options
        = Schema.new env validates sanitizes depth
            (.obj [(p, .arr [.obj [("type", .func T)]])]) options
    ∧ ("type" ∈ validates.keys ∨ "type" ∈ sanitizes.keys →
        Schema.new env validates sanitizes depth (.obj [(p, .arr [.func T])]) options
        = Schema.new env validates sanitizes depth
            (.obj [(p, .obj [("type", explicitType (.func T) true)])]) options) := by
  have h1 : ∀ path, createProperty env validates sanitizes depth (.func T) path
      = createProperty env validates sanitizes depth (.obj [("type", .func T)]) path := by
    intro path; cases depth <;> rfl
  have h2 : ∀ path, createProperty env validates sanitizes depth (.func T) path
      = createProperty env validates sanitizes depth
          (.obj [("type", explicitType (.func T) false)]) path := by
    intro path; cases depth <;> rfl
  have h3 : ∀ path, createProperty env validates sanitizes depth (.arr [.func T]) path
      = createProperty env validates sanitizes depth (.arr [.obj [("type", .func T)]]) path := by
    intro path; cases depth <;> rfl
  refine ⟨⟨?_, ?_⟩, ?_, ?_⟩
  · simp only [Schema.new, entries, forEachKey, h1, isPlainObject]
  · simp only [Schema.new, entries, forEachKey, h2, isPlainObject]
  · simp only [Schema.new, entries, forEachKey, h3, isPlainObject]
  · intro htype
    simp only [Schema.new, entries, forEachKey, isPlainObject,
      createProperty_arrayOf_explicit env validates sanitizes htype]

/-- Witness of claim C4: `{tags: [String]}` and its explicit form, with `type` a
stock validator. -/
theorem definition_equivalence_witness :
    Schema.new Demo.env [("type", 4)] [] 2 (.obj [("tags", .arr [Demo.StringT])]) .undefined
      = Schema.new Demo.env [("type", 4)] [] 2
          (.obj [("tags", .obj [("type", explicitType Demo.StringT true)])]) .undefined :=
  (definition_equivalence Demo.env [("type", 4)] [] 2 "tags" 100 .undefined).2.2
    (Or.inl (by simp [Registry.keys]))

/-- Claim C5, the code at the failing input. A Schema constructed with
`options.canSkipValidation = b` stores the arrow function of line 116, and a
call of that function returns `this.options.canSkipValidation`, which by then
is the arrow function itself and not `b`. -/
theorem canSkipValidation_boolean_returns_function {σ : Type} (b : Bool) (env : Env σ)
    (validates sanitizes : Registry) (depth : Nat) :
    Schema.new env validates sanitizes depth (.obj []) (.obj [("canSkipValidation", .bool b)])
      = some (.ok { options := [("fillPatchData", .given (.bool false)),
                                ("canSkipValidation", .readsOwnOption)],
                    properties := [] })
    ∧ ∀ (props : List Property) (params : Val) (s : σ),
        Schema.canSkipValidation env
          { options := [("fillPatchData", .given (.bool false)),
                        ("canSkipValidation", .readsOwnOption)], properties := props }
          params s = (.ok .readsOwnOption, s)
        ∧ (Schema.canSkipValidation env
          { options := [("fillPatchData", .given (.bool false)),
                        ("canSkipValidation", .readsOwnOption)], properties := props }
          params s).1 ≠ .ok (.given (.bool b)) := by
  refine ⟨rfl, fun props params s => ⟨rfl, ?_⟩⟩
  intro h
  have h' : (Except.ok OptionValue.readsOwnOption : Except Err OptionValue)
      = .ok (.given (.bool b)) := h
  cases h'

/-- Claim C6, counterexample. The node `{type: String, city: String}` has a
`type` key, from which a validator is collected, and a further key `city`
holding a nested property; construction succeeds, with one record for the
node and none for `city`. -/
theorem mixed_node_compiles :
    Schema.new Demo.env [("type", 4)] [] 2
      (.obj [("x", .obj [("type", Demo.StringT), ("city", Demo.StringT)])]) .undefined
      = some (.ok { options := DEFAULT_OPTIONS, properties :=
          [{ path := ["x"], validators := [.func 4], sanitizers := [] }] }) := rfl

/-- Claim C6, amended. A node from which at least one function is collected
is compiled as one terminal property, whatever further keys it has: the
result is the single record of its path and its two chains, and no error. -/
theorem node_with_functions_is_terminal {σ : Type} (env : Env σ)
    (validates sanitizes : Registry) (depth : Nat)
    (definition inner : Val) (arrayOf : Bool) (kvs : Entries) (vs ss : List Val) (path : Path)
    (hu : unwrapArrayOf definition = .ok (arrayOf, inner))
    (he : toExplicit inner arrayOf = .ok (.obj kvs))
    (hv : collectValidators env validates kvs = .ok vs)
    (hs : collectSanitizers env sanitizes kvs = .ok ss)
    (hne : ss.length + vs.length ≠ 0) :
    createProperty env validates sanitizes (depth + 1) definition path
      = some (.ok [{ path := path, validators := vs, sanitizers := ss }]) :=
  createProperty_terminal env validates sanitizes depth definition inner arrayOf kvs vs ss path
    hu he hv hs hne

/-- Witness of claim C6: the node `{type: String, city: String}` at `x`. -/
theorem node_with_functions_is_terminal_witness :
    createProperty Demo.env [("type", 4)] [] 1
      (.obj [("type", Demo.StringT), ("city", Demo.StringT)]) ["x"]
      = some (.ok [{ path := ["x"], validators := [.func 4], sanitizers := [] }]) :=
  node_with_functions_is_terminal Demo.env [("type", 4)] [] 0
    (.obj [("type", Demo.StringT), ("city", Demo.StringT)])
    (.obj [("type", Demo.StringT), ("city", Demo.StringT)]) false
    [("type", explicitType Demo.StringT false), ("city", Demo.StringT)] [.func 4] [] ["x"]
    rfl rfl rfl rfl (by decide)

/-- Claim C7, counterexample. In `{x: {type: String, tags: [String, Number]}}`
the node `tags` is a sequence of two elements, but `x` collects a validator
from `type`, so it is terminal and `tags` is never compiled: construction
succeeds. And `{a: null, x: [String, Number]}` is rejected, but with the
`TypeError` of `a`, which is thrown first, not with a definition error. -/
theorem sequence_under_terminal_node_compiles :
    Schema.new Demo.env [("type", 4)] [] 2
        (.obj [("x", .obj [("type", Demo.StringT),
          ("tags", .arr [Demo.StringT, Demo.NumberT])])]) .undefined
      = some (.ok { options := DEFAULT_OPTIONS, properties :=
          [{ path := ["x"], validators := [.func 4], sanitizers := [] }] })
    ∧ Schema.new Demo.env [("type", 4)] [] 2
        (.obj [("a", .null), ("x", .arr [Demo.StringT, Demo.NumberT])]) .undefined
      = some (.error (.typeError "Cannot read property type of null")) :=
  ⟨rfl, rfl⟩

/-- Claim C7, amended. When the compiler reaches, under some key of the
definition, a sequence whose length is not one (the sequence is a value of
the definition object or of a group of nested properties, not of a node from
which a function is collected), no Schema is produced at any depth bound;
with `type` among the stock keys construction ends with an exception for
every large enough bound; `createProperty` on such a sequence throws the
arrayOf definition error; and that error is the one of the construction when
the sequence is a value of the definition object and the properties before it
compile. -/
theorem malformed_arrayOf_rejected {σ : Type} (env : Env σ) (validates sanitizes : Registry)
    (kvs : Entries) (key : String) (child : Val) (options : Val)
    (hchild : (key, child) ∈ kvs)
    (hbad : ReachesMalformedArrayOf env validates sanitizes child) :
    (∀ depth schema,
      Schema.new env validates sanitizes depth (.obj kvs) options ≠ some (.ok schema))
    ∧ ("type" ∈ validates.keys ∨ "type" ∈ sanitizes.keys →
        ∃ bound, ∀ depth, bound ≤ depth →
          ∃ e, Schema.new env validates sanitizes depth (.obj kvs) options = some (.error e))
    ∧ (∀ (xs : List Val) (depth : Nat) (path : Path), xs.length ≠ 1 →
        createProperty env validates sanitizes (depth + 1) (.arr xs) path
          = some (.error (.definition
      "Malformed definition. Properties defined as an arrayOf should contain a single element.")))
    ∧ (∀ (pre post : Entries) (name : String) (xs : List Val) (depth : Nat) (opts : Options),
        xs.length ≠ 1 →
        Schema.makeOptions options = .ok opts →
        (∀ kv ∈ pre, ∃ ps,
          createProperty env validates sanitizes (depth + 1) kv.2 [kv.1] = some (.ok ps)) →
        Schema.new env validates sanitizes (depth + 1) (.obj (pre ++ (name, .arr xs) :: post))
            options
          = some (.error (.definition
      "Malformed definition. Properties defined as an arrayOf should contain a single element.")))
    := by
  have hnot : ∀ depth schema,
      Schema.new env validates sanitizes depth (.obj kvs) options ≠ some (.ok schema) := by
    intro depth schema h
    obtain ⟨kvs', hk, _, hf⟩ := Schema.new_ok_iff env validates sanitizes depth _ _ schema h
    cases hk
    obtain ⟨qs, hq⟩ := forEachKey_ok_child _ [] kvs schema.properties hf key child hchild
    exact reaches_not_compiled env validates sanitizes child hbad depth _ qs hq
  refine ⟨hnot, ?_, ?_, ?_⟩
  · intro htype
    refine ⟨sizeOf (Val.obj kvs), fun depth hd => ?_⟩
    have hne := Schema.new_ne_none env validates sanitizes htype depth (.obj kvs) options hd
    cases hr : Schema.new env validates sanitizes depth (.obj kvs) options with
    | none => exact absurd hr hne
    | some r =>
      cases r with
      | error e => exact ⟨e, rfl⟩
      | ok schema => exact absurd hr (hnot depth schema)
  · intro xs depth path hlen
    exact createProperty_malformed_arrayOf env validates sanitizes depth xs path hlen
  · intro pre post name xs depth opts hlen ho hpre
    exact Schema.new_first_error env validates sanitizes (depth + 1) pre post name (.arr xs)
      options opts _ ho hpre
      (createProperty_malformed_arrayOf env validates sanitizes depth xs [name] hlen)

/-- Witness of claim C7: the definition `{x: [String, Number]}`, and the
definition `{a: String, x: [String, Number]}`, whose first property compiles. -/
theorem malformed_arrayOf_rejected_witness :
    (∀ depth schema,
      Schema.new Demo.env [("type", 4)] [] depth
        (.obj [("x", .arr [Demo.StringT, Demo.NumberT])]) .undefined ≠ some (.ok schema))
    ∧ (∃ bound, ∀ depth, bound ≤ depth →
        ∃ e, Schema.new Demo.env [("type", 4)] [] depth
          (.obj [("x", .arr [Demo.StringT, Demo.NumberT])]) .undefined = some (.error e))
    ∧ Schema.new Demo.env [("type", 4)] [] 1
        (.obj [("a", Demo.StringT), ("x", .arr [Demo.StringT, Demo.NumberT])]) .undefined
      = some (.error (.definition
      "Malformed definition. Properties defined as an arrayOf should contain a single element."))
    :=
  ⟨(malformed_arrayOf_rejected Demo.env [("type", 4)] []
      [("x", .arr [Demo.StringT, Demo.NumberT])] "x" (.arr [Demo.StringT, Demo.NumberT])
      .undefined (by simp) (.atNode _ (by simp))).1,
   (malformed_arrayOf_rejected Demo.env [("type", 4)] []
      [("x", .arr [Demo.StringT, Demo.NumberT])] "x" (.arr [Demo.StringT, Demo.NumberT])
      .undefined (by simp) (.atNode _ (by simp))).2.1 (Or.inl (by simp [Registry.keys])),
   (malformed_arrayOf_rejected Demo.env [("type", 4)] []
      [("x", .arr [Demo.StringT, Demo.NumberT])] "x" (.arr [Demo.StringT, Demo.NumberT])
      .undefined (by simp) (.atNode _ (by simp))).2.2.2 [("a", Demo.StringT)] [] "x"
      [Demo.StringT, Demo.NumberT] 0 DEFAULT_OPTIONS (by simp) rfl
      (by
        intro kv hkv
        simp only [List.mem_singleton] at hkv
        subst hkv
        exact ⟨_, rfl⟩)⟩

/-- Claim C8. A plain mapping node that is not array-wrapped, from which no
function is collected and which has keys (its `type`, if any, not being a
bare function) compiles to exactly the concatenation, in key order, of what
its children compile to at the path extended by their key; and `{address:
{city: T, zip: T}}` compiles to exactly two records, at `["address","city"]`
and `["address","zip"]`. -/
theorem implicit_nesting {σ : Type} (env : Env σ) (validates sanitizes : Registry)
    (depth : Nat) :
    (∀ (node : Entries) (path : Path),
      (∀ f, lookup "type" node ≠ some (.func f)) →
      collectValidators env validates node = .ok [] →
      collectSanitizers env sanitizes node = .ok [] →
      node ≠ [] →
      ∀ ps, createProperty env validates sanitizes (depth + 1) (.obj node) path = some (.ok ps) ↔
        ∃ parts : List (List Property),
          List.Forall₂ (fun kv part =>
            createProperty env validates sanitizes depth kv.2 (path ++ [kv.1]) = some (.ok part))
            node parts
          ∧ ps = parts.flatten)
    ∧ (∀ (T : Nat) (vs ss : List Val) (options : Val) (opts : Options),
      collectValidators env validates [("city", .func T), ("zip", .func T)] = .ok [] →
      collectSanitizers env sanitizes [("city", .func T), ("zip", .func T)] = .ok [] →
      collectValidators env validates [("type", explicitType (.func T) false)] = .ok vs →
      collectSanitizers env sanitizes [("type", explicitType (.func T) false)] = .ok ss →
      ss.length + vs.length ≠ 0 →
      Schema.makeOptions options = .ok opts →
      Schema.new env validates sanitizes (depth + 2)
        (.obj [("address", .obj [("city", .func T), ("zip", .func T)])]) options
        = some (.ok { options := opts, properties :=
            [{ path := ["address", "city"], validators := vs, sanitizers := ss },
             { path := ["address", "zip"], validators := vs, sanitizers := ss }] })) := by
  constructor
  · intro node path hplain hv hs hne ps
    rw [createProperty_group env validates sanitizes depth (.obj node) node path
      (toExplicit_plain node false hplain) rfl hv hs hne]
    exact forEachKey_ok_iff _ path node ps
  · intro T vs ss options opts hgv hgs hv hs hne ho
    have hleaf : ∀ path, createProperty env validates sanitizes (depth + 1) (.func T) path
        = some (.ok [{ path := path, validators := vs, sanitizers := ss }]) := fun path =>
      createProperty_terminal env validates sanitizes depth (.func T) (.func T) false
        [("type", explicitType (.func T) false)] vs ss path rfl rfl hv hs hne
    have hgroup := createProperty_group env validates sanitizes (depth + 1)
      (.obj [("city", .func T), ("zip", .func T)]) [("city", .func T), ("zip", .func T)]
      ["address"] rfl rfl hgv hgs (by simp)
    simp only [Schema.new, ho, isPlainObject, entries, forEachKey, List.nil_append, hgroup,
      hleaf]
    simp

/-- Witness of claim C8: `{address: {city: String, zip: String}}` with `type` a
stock validator and a stock sanitizer. -/
theorem implicit_nesting_witness :
    Schema.new Demo.env [("type", 4)] [("type", 1)] 2
        (.obj [("address", .obj [("city", Demo.StringT), ("zip", Demo.StringT)])]) .undefined
        = some (.ok { options := DEFAULT_OPTIONS, properties :=
            [{ path := ["address", "city"], validators := [.func 4], sanitizers := [.func 1] },
             { path := ["address", "zip"], validators := [.func 4], sanitizers := [.func 1] }] }) :=
  (implicit_nesting Demo.env [("type", 4)] [("type", 1)] 0).2 100 [.func 4] [.func 1] .undefined
    DEFAULT_OPTIONS rfl rfl rfl rfl (by decide) rfl

/-- Claim C9. For a Schema built from a well-formed definition and an input
for which every sanitizer returns, the value read back at the path of a
property from the object that `sanitize` returns is the result of the
left-to-right composition of the sanitizers of the property, applied (in the
state in which the loop reaches the property) to the consolidated value read
from the input; `undefined` and the empty string are consolidated to `null`,
every other value is kept; and the entry is written. -/
theorem sanitize_writes_chain_result {σ : Type} (env : Env σ) (validates sanitizes : Registry)
    (depth : Nat)
    (definition options : Val) (schema : Schema) (hwf : definition.wf = true)
    (hnew : Schema.new env validates sanitizes depth definition options = some (.ok schema))
    (data params : Val) (s : σ) (out : Val) (s' : σ)
    (hrun : Schema.sanitize env schema data params s = (.ok out, s'))
    (pre post : List Property) (r : Property) (hsplit : schema.properties = pre ++ r :: post) :
    (∃ v s2,
      pipeline env (orEmptyObject params) r.sanitizers
          (consolidate (getIn (orEmptyObject data) r.path))
          (sanitizeLoop env (orEmptyObject data) (orEmptyObject params) pre (.obj []) s).2
        = (.ok v, s2)
      ∧ getIn out r.path = v)
    ∧ hasPath out r.path = true
    ∧ consolidate .undefined = .null ∧ consolidate (.str "") = .null
    ∧ (∀ v, v ≠ .undefined → v ≠ .str "" → consolidate v = v) := by
  obtain ⟨hne, hpair⟩ := Schema.new_paths env validates sanitizes depth definition options schema
    hwf hnew
  refine ⟨?_, ?_, rfl, rfl, ?_⟩
  · obtain ⟨v, s2, h1, h2⟩ := sanitizeLoop_read env _ _ schema.properties pre post r hsplit hne
      hpair _ s out s' hrun
    rw [runSanitizers_eq_pipeline] at h1
    exact ⟨v, s2, h1, h2⟩
  · exact (sanitize_paths env validates sanitizes depth definition options schema hwf hnew
      data params s out s' hrun).1 r (by rw [hsplit]; simp)
  · intro v h1 h2
    cases v with
    | undefined => exact absurd rfl h1
    | str t =>
      simp only [consolidate]
      split
      · rename_i ht; subst ht; exact absurd rfl h2
      · rfl
    | _ => rfl

/-- Witness of claim C9: the property `address.city` is absent from the input;
its chain starts from `null` and the default `20` is written. -/
theorem sanitize_writes_chain_result_witness :
    ∃ v s2,
      pipeline Demo.env (.obj []) [.func 2] (consolidate (getIn (.obj [("age", .num 12)])
          ["address", "city"]))
          (sanitizeLoop Demo.env (.obj [("age", .num 12)]) (.obj [])
            [{ path := ["age"], validators := [], sanitizers := [.func 1, .func 2] }]
            (.obj []) ()).2
        = (.ok v, s2)
      ∧ getIn (.obj [("age", .num 10), ("address", .obj [("city", .num 20)])])
          ["address", "city"] = v :=
  (sanitize_writes_chain_result Demo.env [] [] 2
    (.obj [("age", .obj [("sanitizes", .arr [.func 1, .func 2])]),
           ("address", .obj [("city", .obj [("sanitize", .func 2)])])])
    .undefined
    { options := DEFAULT_OPTIONS, properties :=
        [{ path := ["age"], validators := [], sanitizers := [.func 1, .func 2] },
         { path := ["address", "city"], validators := [], sanitizers := [.func 2] }] }
    rfl rfl
    (.obj [("age", .num 12)]) .undefined ()
    (.obj [("age", .num 10), ("address", .obj [("city", .num 20)])]) () rfl
    [{ path := ["age"], validators := [], sanitizers := [.func 1, .func 2] }] []
    { path := ["address", "city"], validators := [], sanitizers := [.func 2] } rfl).1

/-- Claim C10, counterexample. The chain `[atMostTen, orTwenty]` consists of
two stages without side effect, each of which maps its own result to itself;
`sanitize` of `{}` gives `{p: 20}` and `sanitize` of `{p: 20}` gives `{p:
10}`. -/
theorem sanitize_not_idempotent :
    Schema.new Demo.env [] [] 1 (.obj [("p", .obj [("sanitizes", .arr [.func 1, .func 2])])])
        .undefined
      = some (.ok { options := DEFAULT_OPTIONS, properties :=
          [{ path := ["p"], validators := [], sanitizers := [.func 1, .func 2] }] })
    ∧ (∀ v, Demo.atMostTen (Demo.atMostTen v) = Demo.atMostTen v)
    ∧ (∀ v, Demo.orTwenty (Demo.orTwenty v) = Demo.orTwenty v)
    ∧ Schema.sanitize Demo.env { options := DEFAULT_OPTIONS, properties :=
          [{ path := ["p"], validators := [], sanitizers := [.func 1, .func 2] }] }
        (.obj []) .undefined () = (.ok (.obj [("p", .num 20)]), ())
    ∧ Schema.sanitize Demo.env { options := DEFAULT_OPTIONS, properties :=
          [{ path := ["p"], validators := [], sanitizers := [.func 1, .func 2] }] }
        (.obj [("p", .num 20)]) .undefined () = (.ok (.obj [("p", .num 10)]), ())
    ∧ Schema.sanitize Demo.env { options := DEFAULT_OPTIONS, properties :=
          [{ path := ["p"], validators := [], sanitizers := [.func 1, .func 2] }] }
        (.obj [("p", .num 20)]) .undefined ()
      ≠ Schema.sanitize Demo.env { options := DEFAULT_OPTIONS, properties :=
          [{ path := ["p"], validators := [], sanitizers := [.func 1, .func 2] }] }
        (.obj []) .undefined () := by
  refine ⟨rfl, ?_, ?_, rfl, rfl, ?_⟩
  · intro v
    cases v with
    | num n => simp [Demo.atMostTen]
    | _ => rfl
  · intro v
    cases v <;> rfl
  · intro h
    have h1 : Schema.sanitize Demo.env { options := DEFAULT_OPTIONS, properties :=
          [{ path := ["p"], validators := [], sanitizers := [.func 1, .func 2] }] }
        (.obj [("p", .num 20)]) .undefined () = (.ok (.obj [("p", .num 10)]), ()) := rfl
    have h2 : Schema.sanitize Demo.env { options := DEFAULT_OPTIONS, properties :=
          [{ path := ["p"], validators := [], sanitizers := [.func 1, .func 2] }] }
        (.obj []) .undefined () = (.ok (.obj [("p", .num 20)]), ()) := rfl
    rw [h1, h2] at h
    simp at h

/-- Claim C10, amended. For a Schema built from a well-formed definition: when
every sanitizer chain, run again on a result of its own first run (after
consolidation), returns that result and leaves the outside world as it is,
`sanitize` of the object that `sanitize` returned gives that object again. -/
theorem sanitize_idempotent_of_stable_chains {σ : Type} (env : Env σ)
    (validates sanitizes : Registry) (depth : Nat)
    (definition options : Val) (schema : Schema) (hwf : definition.wf = true)
    (hnew : Schema.new env validates sanitizes depth definition options = some (.ok schema))
    (data params : Val) (s : σ) (out : Val) (s' : σ)
    (hrun : Schema.sanitize env schema data params s = (.ok out, s'))
    (hstable : ∀ r ∈ schema.properties, ∀ s1 v s2,
      runSanitizers env (orEmptyObject params) r.sanitizers
        (consolidate (getIn (orEmptyObject data) r.path)) s1 = (.ok v, s2) →
      ∀ t, runSanitizers env (orEmptyObject params) r.sanitizers (consolidate v) t = (.ok v, t)) :
    Schema.sanitize env schema out params s' = (.ok out, s') :=
  sanitize_again env schema
    (Schema.new_paths env validates sanitizes depth definition options schema hwf hnew).1
    (Schema.new_paths env validates sanitizes depth definition options schema hwf hnew).2
    data params s out s' hrun hstable s'

/-- Witness of claim C10: the chain `[orTwenty]` reproduces its result `20`. -/
theorem sanitize_idempotent_of_stable_chains_witness :
    Schema.sanitize Demo.env { options := DEFAULT_OPTIONS, properties :=
        [{ path := ["p"], validators := [], sanitizers := [.func 2] }] }
      (.obj [("p", .num 20)]) .undefined () = (.ok (.obj [("p", .num 20)]), ()) :=
  sanitize_idempotent_of_stable_chains Demo.env [] [] 1
    (.obj [("p", .obj [("sanitize", .func 2)])]) .undefined
    { options := DEFAULT_OPTIONS, properties :=
        [{ path := ["p"], validators := [], sanitizers := [.func 2] }] }
    rfl rfl (.obj []) .undefined () (.obj [("p", .num 20)]) () rfl
    (by
      intro r hr s1 v s2 h t
      simp only [List.mem_singleton] at hr
      subst hr
      have hfirst : runSanitizers Demo.env (orEmptyObject .undefined) [.func 2]
          (consolidate (getIn (orEmptyObject (.obj [])) ["p"])) s1 = (.ok (.num 20), s1) := rfl
      rw [hfirst] at h
      cases h
      rfl)

/-- Claim C11. When a sanitizer invoked by `sanitize` (a validator invoked by
`validate`) throws, after the properties before it and the stages before it
in its chain have returned, the whole call ends with that same exception, not
with an object, and with the outside world as the faulting stage left it: no
stage is invoked after the fault. -/
theorem stage_fault_aborts {σ : Type} (env : Env σ) (schema : Schema) (data params : Val)
    (s : σ) (pre post : List Property) (r : Property)
    (hsplit : schema.properties = pre ++ r :: post) (before after : List Val) (f : Val) :
    (∀ acc1 s1 v s2 e s3,
      sanitizeLoop env (orEmptyObject data) (orEmptyObject params) pre (.obj []) s
        = (.ok acc1, s1) →
      r.sanitizers = before ++ f :: after →
      runSanitizers env (orEmptyObject params) before
        (consolidate (getIn (orEmptyObject data) r.path)) s1 = (.ok v, s2) →
      invoke env f [v, orEmptyObject params] s2 = (.error e, s3) →
      Schema.sanitize env schema data params s = (.error e, s3))
    ∧ (∀ errors1 s1 errors2 s2 e s3,
      validateLoop env (orEmptyObject data) (orEmptyObject params) pre .null s
        = (.ok errors1, s1) →
      r.validators = before ++ f :: after →
      runValidators env (orEmptyObject params) r.path (getIn (orEmptyObject data) r.path)
        before errors1 s1 = (.ok errors2, s2) →
      invoke env f [getIn (orEmptyObject data) r.path, orEmptyObject params] s2
        = (.error e, s3) →
      Schema.validate env schema data params s = (.error e, s3)) := by
  constructor
  · intro acc1 s1 v s2 e s3 hpre hchain hbefore hfault
    unfold Schema.sanitize
    rw [hsplit]
    exact sanitizeLoop_fault env _ _ pre post r _ s acc1 s1 hpre before after f hchain v s2
      hbefore e s3 hfault
  · intro errors1 s1 errors2 s2 e s3 hpre hchain hbefore hfault
    unfold Schema.validate
    rw [hsplit]
    exact validateLoop_fault env _ _ pre post r _ s errors1 s1 hpre before after f hchain
      errors2 s2 hbefore e s3 hfault

/-- Witness of claim C11: the second sanitizer of the first property throws;
two calls have been made when `sanitize` ends, the third sanitizer and the
property `b` are not reached. -/
theorem stage_fault_aborts_witness :
    Schema.sanitize Demo.counting
      { options := DEFAULT_OPTIONS, properties :=
          [{ path := ["a"], validators := [], sanitizers := [.func 1, .func 9, .func 1] },
           { path := ["b"], validators := [], sanitizers := [.func 1] }] }
      (.obj []) .undefined 0 = (.error (.thrown (.str "fault")), 2) :=
  (stage_fault_aborts Demo.counting
    { options := DEFAULT_OPTIONS, properties :=
        [{ path := ["a"], validators := [], sanitizers := [.func 1, .func 9, .func 1] },
         { path := ["b"], validators := [], sanitizers := [.func 1] }] }
    (.obj []) .undefined 0 []
    [{ path := ["b"], validators := [], sanitizers := [.func 1] }]
    { path := ["a"], validators := [], sanitizers := [.func 1, .func 9, .func 1] } rfl
    [.func 1] [.func 1] (.func 9)).1 (.obj []) 0 .null 1 (.thrown (.str "fault")) 2
    rfl rfl rfl rfl

/-- Claim C12. The validator chain of a node, in its explicit form, is made of
the results of the stock-validator factories for the keys present in both the
node and the registry, each called with the value the node has for that key,
in the order of the registry, followed by the entries of `validates` and then
those of `validate`; the sanitizer chain is built in the same way from the
stock sanitizers, `sanitizes` and `sanitize`; and a node for which these
chains are not both empty compiles to the one record that holds them. -/
theorem chains_are_stock_then_custom {σ : Type} (env : Env σ)
    (validates sanitizes : Registry) :
    (∀ node, collectValidators env validates node
      = match makeAll env validates.toVal (stockArguments validates node) with
        | .ok made => .ok (made ++ customEntries node "validates" ++ customEntries node "validate")
        | .error e => .error e)
    ∧ (∀ node, collectSanitizers env sanitizes node
      = match makeAll env sanitizes.toVal (stockArguments sanitizes node) with
        | .ok made => .ok (made ++ customEntries node "sanitizes" ++ customEntries node "sanitize")
        | .error e => .error e)
    ∧ (∀ (stock : Registry) (node : Entries) (f : Nat) (arg : Val),
        (f, arg) ∈ stockArguments stock node
          ↔ ∃ key, (key, f) ∈ stock ∧ lookup key node = some arg)
    ∧ (∀ (depth : Nat) (definition inner : Val) (arrayOf : Bool) (node : Entries)
        (made madeS : List Val) (path : Path),
        unwrapArrayOf definition = .ok (arrayOf, inner) →
        toExplicit inner arrayOf = .ok (.obj node) →
        makeAll env validates.toVal (stockArguments validates node) = .ok made →
        makeAll env sanitizes.toVal (stockArguments sanitizes node) = .ok madeS →
        (madeS ++ customEntries node "sanitizes" ++ customEntries node "sanitize").length
          + (made ++ customEntries node "validates" ++ customEntries node "validate").length
          ≠ 0 →
        createProperty env validates sanitizes (depth + 1) definition path
          = some (.ok [{ path := path,
                         validators := made ++ customEntries node "validates"
                           ++ customEntries node "validate",
                         sanitizers := madeS ++ customEntries node "sanitizes"
                           ++ customEntries node "sanitize" }])) := by
  refine ⟨collectValidators_eq env validates, collectSanitizers_eq env sanitizes,
    mem_stockArguments, ?_⟩
  intro depth definition inner arrayOf node made madeS path hu he hv hs hne
  exact createProperty_terminal env validates sanitizes depth definition inner arrayOf node _ _
    path hu he (by rw [collectValidators_eq, hv]) (by rw [collectSanitizers_eq, hs]) hne

/-- Witness of claim C12: a node with the stock keys `type` and `required`, a
list under `validates` and a single function under `validate`. -/
theorem chains_are_stock_then_custom_witness :
    createProperty Demo.env [("required", 3), ("type", 4)] [("type", 1)] 1
      (.obj [("type", Demo.StringT), ("validates", .arr [.func 5, .func 6]),
             ("validate", .func 7), ("required", .bool true)]) ["name"]
      = some (.ok [{ path := ["name"],
                     validators := [.func 3, .func 4] ++ [.func 5, .func 6] ++ [.func 7],
                     sanitizers := [.func 1] ++ [] ++ [] }]) :=
  (chains_are_stock_then_custom Demo.env [("required", 3), ("type", 4)] [("type", 1)]).2.2.2 0
    (.obj [("type", Demo.StringT), ("validates", .arr [.func 5, .func 6]),
           ("validate", .func 7), ("required", .bool true)])
    (.obj [("type", Demo.StringT), ("validates", .arr [.func 5, .func 6]),
           ("validate", .func 7), ("required", .bool true)]) false
    [("type", explicitType Demo.StringT false), ("validates", .arr [.func 5, .func 6]),
     ("validate", .func 7), ("required", .bool true)]
    [.func 3, .func 4] [.func 1] ["name"] rfl rfl rfl rfl (by decide)

/-- Claim C13, the code at the failing input. Every stock factory is called as
`stock[key](def[key])`, so its receiver is the registry object. For the
array-wrapped property `tags` of type `String` the recorded receiver of both
factory calls is the registry `{type, default}`: its `type` is the `type`
factory and not `String`, and it has no `array`. -/
theorem stock_factory_receiver_is_registry :
    Schema.new Demo.recording [] [("type", 6), ("default", 7)] 1
        (.obj [("tags", .arr [.obj [("type", Demo.StringT), ("default", .str "a")]])])
        .undefined
      = some (.ok { options := DEFAULT_OPTIONS, properties :=
          [{ path := ["tags"], validators := [],
             sanitizers :=
               [.arr [.num 6, .obj [("type", .func 6), ("default", .func 7)],
                  explicitType Demo.StringT true],
                .arr [.num 7, .obj [("type", .func 6), ("default", .func 7)], .str "a"]] }] })
    ∧ getIn (Registry.toVal [("type", 6), ("default", 7)]) ["type"] = .func 6
    ∧ getIn (Registry.toVal [("type", 6), ("default", 7)]) ["type"] ≠ Demo.StringT
    ∧ getIn (Registry.toVal [("type", 6), ("default", 7)]) ["array"] = .undefined := by
  refine ⟨rfl, rfl, ?_, rfl⟩
  intro h
  have h1 : getIn (Registry.toVal [("type", 6), ("default", 7)]) ["type"] = .func 6 := rfl
  rw [h1] at h
  simp [Demo.StringT] at h

/-- Claim C14. When `validate` returns, the run-time calls it has made are, in
order, exactly the calls that the property list prescribes: every validator
of every property once, property by property and validator by validator, each
with the value read at the path by `getIn` (not consolidated) and with
`params`, whatever the validators before it returned. The calls are those
recorded by the traced environment, whose run has the same result. -/
theorem validate_calls_every_validator_once {σ : Type} (env : Env σ) (schema : Schema)
    (data params : Val) (s : σ) (errors : Val) (s' : σ)
    (hrun : Schema.validate env schema data params s = (.ok errors, s')) :
    ∃ calls : List CallRecord,
      Schema.validate env.traced schema data params (s, []) = (.ok errors, (s', calls))
      ∧ calls.map (fun c => (Val.func c.1, c.2))
        = validatorCalls schema.properties (orEmptyObject data) (orEmptyObject params) := by
  obtain ⟨calls, h1, h2⟩ := validateLoop_traced env _ _ schema.properties .null s [] errors s'
    hrun
  exact ⟨calls, by simpa [Schema.validate] using h1, h2⟩

/-- Witness of claim C14: the first validator of `a.b` fails, the two after it
are called all the same, then the validator of `c`. -/
theorem validate_calls_every_validator_once_witness :
    ∃ calls : List CallRecord,
      Schema.validate Demo.env.traced
        { options := DEFAULT_OPTIONS, properties :=
            [{ path := ["a", "b"], validators := [.func 3, .func 5, .func 4], sanitizers := [] },
             { path := ["c"], validators := [.func 3], sanitizers := [] }] }
        (.obj [("c", .num 1)]) .undefined ((), [])
        = (.ok (.obj [("a", .obj [("b", .str "invalid")])]), ((), calls))
      ∧ calls.map (fun c => (Val.func c.1, c.2))
        = validatorCalls
            [{ path := ["a", "b"], validators := [.func 3, .func 5, .func 4], sanitizers := [] },
             { path := ["c"], validators := [.func 3], sanitizers := [] }]
            (orEmptyObject (.obj [("c", .num 1)])) (orEmptyObject .undefined) :=
  validate_calls_every_validator_once Demo.env
    { options := DEFAULT_OPTIONS, properties :=
        [{ path := ["a", "b"], validators := [.func 3, .func 5, .func 4], sanitizers := [] },
         { path := ["c"], validators := [.func 3], sanitizers := [] }] }
    (.obj [("c", .num 1)]) .undefined () (.obj [("a", .obj [("b", .str "invalid")])]) () rfl

/-- Claim C15, counterexample. In `{x: {type: String, tags: [{city: String}]}}`
the node `tags` is an array-wrapped group of nested properties, but `x`
collects a validator from `type`, so it is terminal and `tags` is never
compiled: construction succeeds. And `{a: null, x: [{city: String}]}` is
rejected, but with the `TypeError` of `a`, which is thrown first, not with a
definition error. -/
theorem arrayOf_group_under_terminal_node_compiles :
    Schema.new Demo.env [("type", 4)] [] 2
        (.obj [("x", .obj [("type", Demo.StringT),
          ("tags", .arr [.obj [("city", Demo.StringT)]])])]) .undefined
      = some (.ok { options := DEFAULT_OPTIONS, properties :=
          [{ path := ["x"], validators := [.func 4], sanitizers := [] }] })
    ∧ Schema.new Demo.env [("type", 4)] [] 2
        (.obj [("a", .null), ("x", .arr [.obj [("city", Demo.StringT)]])]) .undefined
      = some (.error (.typeError "Cannot read property type of null")) :=
  ⟨rfl, rfl⟩

/-- Claim C15, amended. When the compiler reaches, under some key of the
definition, an array-wrapped node whose unwrapped definition yields no
validator and no sanitizer (the node is a value of the definition object or
of a group of nested properties, not of a node from which a function is
collected), no Schema is produced at any depth bound; with `type` among the
stock keys construction ends with an exception for every large enough bound;
`createProperty` on such a node throws a definition error, which is the error
of the construction when the node is a value of the definition object and the
properties before it compile; and `{x: [{city: T}]}` is rejected with the
error about nested arrays. -/
theorem empty_arrayOf_rejected {σ : Type} (env : Env σ) (validates sanitizes : Registry)
    (kvs : Entries) (key : String) (child : Val) (options : Val)
    (hchild : (key, child) ∈ kvs)
    (hbad : ReachesEmptyArrayOf env validates sanitizes child) :
    (∀ depth schema,
      Schema.new env validates sanitizes depth (.obj kvs) options ≠ some (.ok schema))
    ∧ ("type" ∈ validates.keys ∨ "type" ∈ sanitizes.keys →
        ∃ bound, ∀ depth, bound ≤ depth →
          ∃ e, Schema.new env validates sanitizes depth (.obj kvs) options = some (.error e))
    ∧ (∀ (inner : Val) (explicit : Entries) (depth : Nat) (path : Path),
        toExplicit inner true = .ok (.obj explicit) →
        collectValidators env validates explicit = .ok [] →
        collectSanitizers env sanitizes explicit = .ok [] →
        ∃ msg, createProperty env validates sanitizes (depth + 1) (.arr [inner]) path
          = some (.error (.definition msg)))
    ∧ (∀ (pre post : Entries) (name : String) (inner : Val) (explicit : Entries) (depth : Nat)
        (opts : Options),
        toExplicit inner true = .ok (.obj explicit) →
        collectValidators env validates explicit = .ok [] →
        collectSanitizers env sanitizes explicit = .ok [] →
        Schema.makeOptions options = .ok opts →
        (∀ kv ∈ pre, ∃ ps,
          createProperty env validates sanitizes (depth + 1) kv.2 [kv.1] = some (.ok ps)) →
        ∃ msg, Schema.new env validates sanitizes (depth + 1)
            (.obj (pre ++ (name, .arr [inner]) :: post)) options
          = some (.error (.definition msg)))
    ∧ (∀ (T : Nat) (depth : Nat) (opts : Options),
        collectValidators env validates [("city", .func T)] = .ok [] →
        collectSanitizers env sanitizes [("city", .func T)] = .ok [] →
        Schema.makeOptions options = .ok opts →
        Schema.new env validates sanitizes (depth + 1)
          (.obj [("x", .arr [.obj [("city", .func T)]])]) options
          = some (.error (.definition "Nesting arrays of properties not yet implemented.")))
    := by
  have hnot : ∀ depth schema,
      Schema.new env validates sanitizes depth (.obj kvs) options ≠ some (.ok schema) := by
    intro depth schema h
    obtain ⟨kvs', hk, _, hf⟩ := Schema.new_ok_iff env validates sanitizes depth _ _ schema h
    cases hk
    obtain ⟨qs, hq⟩ := forEachKey_ok_child _ [] kvs schema.properties hf key child hchild
    exact reaches_empty_not_compiled env validates sanitizes child hbad depth _ qs hq
  refine ⟨hnot, ?_, ?_, ?_, ?_⟩
  · intro htype
    refine ⟨sizeOf (Val.obj kvs), fun depth hd => ?_⟩
    have hne := Schema.new_ne_none env validates sanitizes htype depth (.obj kvs) options hd
    cases hr : Schema.new env validates sanitizes depth (.obj kvs) options with
    | none => exact absurd hr hne
    | some r =>
      cases r with
      | error e => exact ⟨e, rfl⟩
      | ok schema => exact absurd hr (hnot depth schema)
  · intro inner explicit depth path he hv hs
    exact ⟨_, createProperty_empty_arrayOf env validates sanitizes depth inner explicit path he
      hv hs⟩
  · intro pre post name inner explicit depth opts he hv hs ho hpre
    exact ⟨_, Schema.new_first_error env validates sanitizes (depth + 1) pre post name
      (.arr [inner]) options opts _ ho hpre
      (createProperty_empty_arrayOf env validates sanitizes depth inner explicit [name] he hv
        hs)⟩
  · intro T depth opts hv hs ho
    have hnode := createProperty_empty_arrayOf env validates sanitizes depth
      (.obj [("city", .func T)]) [("city", .func T)] ["x"] rfl hv hs
    simp only [Schema.new, ho, isPlainObject, entries, forEachKey, List.nil_append, hnode]
    simp

/-- Witness of claim C15: the definition `{x: [{city: String}]}`, and the
definition `{a: String, x: [{city: String}]}`, whose first property compiles. -/
theorem empty_arrayOf_rejected_witness :
    (∀ depth schema,
      Schema.new Demo.env [("type", 4)] [] depth
        (.obj [("x", .arr [.obj [("city", Demo.StringT)]])]) .undefined ≠ some (.ok schema))
    ∧ (∃ bound, ∀ depth, bound ≤ depth →
        ∃ e, Schema.new Demo.env [("type", 4)] [] depth
          (.obj [("x", .arr [.obj [("city", Demo.StringT)]])]) .undefined = some (.error e))
    ∧ (∃ msg, Schema.new Demo.env [("type", 4)] [] 1
        (.obj [("a", Demo.StringT), ("x", .arr [.obj [("city", Demo.StringT)]])]) .undefined
      = some (.error (.definition msg))) :=
  ⟨(empty_arrayOf_rejected Demo.env [("type", 4)] []
      [("x", .arr [.obj [("city", Demo.StringT)]])] "x" (.arr [.obj [("city", Demo.StringT)]])
      .undefined (by simp) (.atNode _ [("city", Demo.StringT)] rfl rfl rfl)).1,
   (empty_arrayOf_rejected Demo.env [("type", 4)] []
      [("x", .arr [.obj [("city", Demo.StringT)]])] "x" (.arr [.obj [("city", Demo.StringT)]])
      .undefined (by simp) (.atNode _ [("city", Demo.StringT)] rfl rfl rfl)).2.1
      (Or.inl (by simp [Registry.keys])),
   (empty_arrayOf_rejected Demo.env [("type", 4)] []
      [("x", .arr [.obj [("city", Demo.StringT)]])] "x" (.arr [.obj [("city", Demo.StringT)]])
      .undefined (by simp) (.atNode _ [("city", Demo.StringT)] rfl rfl rfl)).2.2.2.1
      [("a", Demo.StringT)] [] "x" (.obj [("city", Demo.StringT)]) [("city", Demo.StringT)] 0
      DEFAULT_OPTIONS rfl rfl rfl rfl
      (by
        intro kv hkv
        simp only [List.mem_singleton] at hkv
        subst hkv
        exact ⟨_, rfl⟩)⟩

/-- Claim C16, the code at the failing input. After a successful construction
from `{a: {type: String}}` the caller's node holds `{func: String, arrayOf:
false}` under `type`, not `String`; and the node as this visit left it, used
again in the array-wrapped position `b: [n]`, compiles with `arrayOf: false`,
where a fresh copy of `{type: String}` compiles with `arrayOf: true`. -/
theorem caller_node_is_rewritten :
    Schema.new Demo.recording [("type", 4)] [] 2 (.obj [("a", .obj [("type", Demo.StringT)])])
        .undefined
      = some (.ok { options := DEFAULT_OPTIONS, properties :=
          [{ path := ["a"],
             validators := [.arr [.num 4, .obj [("type", .func 4)],
               explicitType Demo.StringT false]],
             sanitizers := [] }] })
    ∧ Schema.definitionAfter Demo.recording [("type", 4)] [] 2
        (.obj [("a", .obj [("type", Demo.StringT)])])
      = .obj [("a", .obj [("type", explicitType Demo.StringT false)])]
    ∧ getIn (Schema.definitionAfter Demo.recording [("type", 4)] [] 2
        (.obj [("a", .obj [("type", Demo.StringT)])])) ["a", "type"] ≠ Demo.StringT
    ∧ createProperty Demo.recording [("type", 4)] [] 1
        (.arr [nodeAfter Demo.recording [("type", 4)] [] 1 (.obj [("type", Demo.StringT)])])
        ["b"]
      = some (.ok [{ path := ["b"],
                     validators := [.arr [.num 4, .obj [("type", .func 4)],
                       explicitType Demo.StringT false]],
                     sanitizers := [] }])
    ∧ createProperty Demo.recording [("type", 4)] [] 1
        (.arr [.obj [("type", Demo.StringT)]]) ["b"]
      = some (.ok [{ path := ["b"],
                     validators := [.arr [.num 4, .obj [("type", .func 4)],
                       explicitType Demo.StringT true]],
                     sanitizers := [] }])
    ∧ createProperty Demo.recording [("type", 4)] [] 1
        (.arr [nodeAfter Demo.recording [("type", 4)] [] 1 (.obj [("type", Demo.StringT)])])
        ["b"]
      ≠ createProperty Demo.recording [("type", 4)] [] 1
        (.arr [.obj [("type", Demo.StringT)]]) ["b"] := by
  refine ⟨rfl, rfl, ?_, rfl, rfl, ?_⟩
  · intro h
    have h1 : getIn (Schema.definitionAfter Demo.recording [("type", 4)] [] 2
        (.obj [("a", .obj [("type", Demo.StringT)])])) ["a", "type"]
        = explicitType Demo.StringT false := rfl
    rw [h1] at h
    simp [explicitType, Demo.StringT] at h
  · intro h
    have h1 : createProperty Demo.recording [("type", 4)] [] 1
        (.arr [nodeAfter Demo.recording [("type", 4)] [] 1 (.obj [("type", Demo.StringT)])])
        ["b"]
      = some (.ok [{ path := ["b"],
                     validators := [.arr [.num 4, .obj [("type", .func 4)],
                       explicitType Demo.StringT false]],
                     sanitizers := [] }]) := rfl
    have h2 : createProperty Demo.recording [("type", 4)] [] 1
        (.arr [.obj [("type", Demo.StringT)]]) ["b"]
      = some (.ok [{ path := ["b"],
                     validators := [.arr [.num 4, .obj [("type", .func 4)],
                       explicitType Demo.StringT true]],
                     sanitizers := [] }]) := rfl
    rw [h1, h2] at h
    simp [explicitType] at h

/-- Claim C17. The paths of the property list of a Schema built from a
well-formed definition are pairwise distinct, and no path is a prefix of the
path of another record. -/
theorem compiled_paths_distinct {σ : Type} (env : Env σ) (validates sanitizes : Registry)
    (depth : Nat) (definition options : Val) (schema : Schema) (hwf : definition.wf = true)
    (hnew : Schema.new env validates sanitizes depth definition options = some (.ok schema))
    (i j : Nat) (hi : i < schema.properties.length) (hj : j < schema.properties.length)
    (hij : i ≠ j) :
    (schema.properties.get ⟨i, hi⟩).path ≠ (schema.properties.get ⟨j, hj⟩).path
    ∧ ¬ (schema.properties.get ⟨i, hi⟩).path <+: (schema.properties.get ⟨j, hj⟩).path :=
  ⟨(pairwise_paths_index schema.properties
      (Schema.new_paths env validates sanitizes depth definition options schema hwf hnew).2
      i j hi hj hij).ne,
   (pairwise_paths_index schema.properties
      (Schema.new_paths env validates sanitizes depth definition options schema hwf hnew).2
      i j hi hj hij).1⟩

/-- Witness of claim C17: the two records of `{address: {city, zip}}`. -/
theorem compiled_paths_distinct_witness :
    (["address", "city"] : Path) ≠ ["address", "zip"]
    ∧ ¬ (["address", "city"] : Path) <+: ["address", "zip"] :=
  compiled_paths_distinct Demo.env [("type", 4)] [("type", 1)] 2
    (.obj [("address", .obj [("city", Demo.StringT), ("zip", Demo.StringT)])]) .undefined
    { options := DEFAULT_OPTIONS, properties :=
        [{ path := ["address", "city"], validators := [.func 4], sanitizers := [.func 1] },
         { path := ["address", "zip"], validators := [.func 4], sanitizers := [.func 1] }] }
    rfl rfl 0 1 (by decide) (by decide) (by decide)

/-- Claim C18. With `type` among the keys of the stock validators or of the
stock sanitizers, `createProperty` terminates on every definition: from some
depth bound on the result is the same, records or an exception; a group node
that the compiler descends into is the caller's mapping itself and its
children are strictly smaller; and the node built from a bare type function
is terminal, one record at its own path or an exception. -/
theorem compilation_terminates {σ : Type} (env : Env σ) (validates sanitizes : Registry)
    (htype : "type" ∈ validates.keys ∨ "type" ∈ sanitizes.keys) :
    (∀ (d : Val) (path : Path), ∃ bound r, ∀ depth, bound ≤ depth →
      createProperty env validates sanitizes depth d path = some r)
    ∧ (∀ (d : Val) (kvs : Entries), toExplicit d false = .ok (.obj kvs) →
        collectValidators env validates kvs = .ok [] →
        collectSanitizers env sanitizes kvs = .ok [] →
        d = .obj kvs ∧ ∀ kv ∈ kvs, sizeOf kv.2 < sizeOf d)
    ∧ (∀ (depth : Nat) (T : Nat) (path : Path),
        (∃ e, createProperty env validates sanitizes (depth + 1) (.func T) path
          = some (.error e))
        ∨ ∃ vs ss, createProperty env validates sanitizes (depth + 1) (.func T) path
          = some (.ok [{ path := path, validators := vs, sanitizers := ss }])) := by
  refine ⟨?_, ?_, ?_⟩
  · intro d path
    have hne := createProperty_terminates env validates sanitizes htype (sizeOf d + 1) d path
      (Nat.lt_succ_self _)
    cases hr : createProperty env validates sanitizes (sizeOf d + 1) d path with
    | none => exact absurd hr hne
    | some r =>
      exact ⟨sizeOf d + 1, r, fun depth hle =>
        createProperty_mono_le env validates sanitizes _ depth hle d path r hr⟩
  · intro d kvs he hv hs
    exact group_is_node_itself env validates sanitizes htype d kvs he hv hs
  · intro depth T path
    exact createProperty_bare_type env validates sanitizes htype depth T path

/-- Witness of claim C18: the definition node `{city: String, zip: String}`
with `type` a stock validator. -/
theorem compilation_terminates_witness :
    ∃ bound r, ∀ depth, bound ≤ depth →
      createProperty Demo.env [("type", 4)] [] depth
        (.obj [("city", Demo.StringT), ("zip", Demo.StringT)]) ["address"] = some r :=
  (compilation_terminates Demo.env [("type", 4)] [] (Or.inl (by simp [Registry.keys]))).1
    (.obj [("city", Demo.StringT), ("zip", Demo.StringT)]) ["address"]

/-- Claim C19. For documents with pairwise distinct ids (and an `equals`
method, when the type has one, that holds exactly between equal ids), the id
list that the service sanitizer builds is the list of the first occurrences,
in input order, of the input ids that are the id of a returned document; it
has no duplicate and every id in it is an input id and the id of a returned
document. -/
theorem service_ids_first_occurrences {ι δ : Type} [DecidableEq ι]
    (equals : Option (ι → ι → Bool))
    (hlawful : ∀ eq, equals = some eq → ∀ a b, eq a b = true ↔ a = b)
    (serviceId : δ → ι) (ids : List ι) (docs : List δ)
    (hdistinct : (docs.map serviceId).Nodup) :
    serviceOutput equals serviceId ids docs
      = firstOccurrences (ids.filter fun id => decide (id ∈ docs.map serviceId))
    ∧ (serviceOutput equals serviceId ids docs).Nodup
    ∧ ∀ id ∈ serviceOutput equals serviceId ids docs,
        id ∈ ids ∧ ∃ doc ∈ docs, serviceId doc = id := by
  have heq : serviceOutput equals serviceId ids docs
      = firstOccurrences (ids.filter fun id => decide (id ∈ docs.map serviceId)) := by
    unfold serviceOutput
    rw [serviceLoop_eq equals hlawful ids _ [] hdistinct]
    simp
  refine ⟨heq, ?_, ?_⟩
  · rw [heq]
    exact nodup_firstOccurrences _
  · intro id hid
    rw [heq, mem_firstOccurrences, List.mem_filter] at hid
    obtain ⟨h1, h2⟩ := hid
    simp only [decide_eq_true_eq, List.mem_map] at h2
    exact ⟨h1, h2⟩

/-- Witness of claim C19: the ids 3, 1, 3, 7, 2, 1 against the documents 1, 2
and 3 give 3, 1, 2. -/
theorem service_ids_first_occurrences_witness :
    serviceOutput (none : Option (Nat → Nat → Bool)) (fun d : Nat × String => d.1)
        [3, 1, 3, 7, 2, 1] [(1, "a"), (2, "b"), (3, "c")]
      = firstOccurrences ([3, 1, 3, 7, 2, 1].filter fun id =>
          decide (id ∈ [(1, "a"), (2, "b"), (3, "c")].map fun d : Nat × String => d.1)) :=
  (service_ids_first_occurrences (none : Option (Nat → Nat → Bool))
    (fun eq h => by cases h) (fun d : Nat × String => d.1)
    [3, 1, 3, 7, 2, 1] [(1, "a"), (2, "b"), (3, "c")] (by decide)).1

/-- Claim C20. The run-time function that the default sanitizer factory
returns: on an input that is not defined, or is an empty array, the result is
`getDefault(params)`, which is the configured value, or the configured
function called with `params`; on every other input the result is the input
itself. `undefined` and `null` are not defined, and so is the value that
`sanitize` passes for an absent or empty-string field. -/
theorem default_sanitizer_result {σ : Type} (env : Env σ) (h : Helpers)
    (thisType thisArray config value : Val)
    (hfactory : _default h thisType thisArray config = .ok value)
    (input params : Val) (s : σ) :
    (isDefined input = false ∨ input = .arr [] →
      defaultSanitizer env value input params s = getDefault env value params s)
    ∧ (isDefined input = true → (∀ xs, input = .arr xs → xs ≠ []) →
      defaultSanitizer env value input params s = (.ok input, s))
    ∧ (∀ f, value = .func f → getDefault env value params s = env.call f [params] s)
    ∧ (isFunction value = false → getDefault env value params s = (.ok value, s))
    ∧ isDefined .undefined = false ∧ isDefined .null = false
    ∧ (∀ (data : Val) (path : Path),
        getIn data path = .undefined ∨ getIn data path = .str "" →
        isDefined (consolidate (getIn data path)) = false) := by
  refine ⟨?_, ?_, ?_, ?_, rfl, rfl, ?_⟩
  · rintro (hd | ha)
    · simp [defaultSanitizer, hd]
    · subst ha
      simp [defaultSanitizer, isArray]
  · intro hd hne
    cases input with
    | arr xs =>
      have hxs := hne xs rfl
      have hlen : xs.length ≠ 0 := fun h0 => hxs (List.length_eq_zero.mp h0)
      simp [defaultSanitizer, isDefined, isArray, hlen]
    | undefined => simp [isDefined] at hd
    | null => simp [isDefined] at hd
    | nan => simp [isDefined] at hd
    | bool b => simp [defaultSanitizer, isDefined, isArray]
    | num n => simp [defaultSanitizer, isDefined, isArray]
    | str t => simp [defaultSanitizer, isDefined, isArray]
    | obj kvs => simp [defaultSanitizer, isDefined, isArray]
    | func f => simp [defaultSanitizer, isDefined, isArray]
  · intro f hf
    subst hf
    rfl
  · intro hf
    cases value <;> first | rfl | simp [isFunction] at hf
  · intro data path hp
    rcases hp with hp | hp <;> rw [hp] <;> rfl

/-- Witness of claim C20: the default `"a"` of a `String` property, on the
input `null`. -/
theorem default_sanitizer_result_witness :
    defaultSanitizer Demo.env (.str "a") .null (.obj []) ()
      = getDefault Demo.env (.str "a") (.obj []) () :=
  (default_sanitizer_result Demo.env Demo.helpers Demo.StringT (.bool false) (.str "a")
    (.str "a") rfl .null (.obj []) ()).1 (Or.inl rfl)

end FeathersSchema
